import Mathlib

/-!
# kacchiOS: heap allocator, process table and scheduler

A shallow embedding of `memory.c`, `process.c` and `scheduler.c` of kacchiOS
(32-bit x86 target: `int`, `uint32_t`, enums and pointers are 4 bytes wide,
structures have no padding).

* `uint32_t` values are natural numbers below `2 ^ 32`; every C operation that
  can wrap is written with `add32` / `sub32`.
* The doubly linked block list of the allocator (`free_list`, linked through
  `next` / `prev`) is the Lean list of its blocks in `next` order; the `prev`
  pointer of a block is its predecessor in that list.
* `printf_serial` calls only write to the serial port and are left out.
-/

/-! ## 32-bit arithmetic -/

/-- Addition of two `uint32_t` values. -/
def add32 (a b : Nat) : Nat := (a + b) % 4294967296

/-- Subtraction of two `uint32_t` values. -/
def sub32 (a b : Nat) : Nat := (a + (4294967296 - b % 4294967296)) % 4294967296

/-! ## memory.h -/

def HEAP_SIZE : Nat := 0x00100000

def STACK_SIZE : Nat := 0x00002000

def MAX_BLOCKS : Nat := 256

/-- The header `mem_block_t`: five 4-byte fields
(`start_addr`, `size`, `is_free`, `next`, `prev`), so `sizeof(mem_block_t) = 20`. -/
def sizeof_mem_block_t : Nat := 20

/-- One block of the heap.  The links `next` and `prev` are the position of the
block in the list `MemState.free_list`. -/
structure mem_block_t where
  start_addr : Nat
  size : Nat
  is_free : Bool
deriving DecidableEq

structure stack_info_t where
  base_addr : Nat
  size : Nat
  pid : Int
deriving DecidableEq

/-- The static variables of `memory.c`.  `stacks[0 .. stack_count)` is the list `stack_table` (`stacks` is a reserved word). -/
structure MemState where
  free_list : List mem_block_t
  stack_table : List stack_info_t
  heap_used : Nat
deriving DecidableEq

/-! ## memory.c -/

/-- The page alignment `(heap_start_addr + 0xFFF) & ~0xFFF` of `memory_init`. -/
def page_align (addr : Nat) : Nat := (add32 addr 0xFFF) &&& 0xFFFFF000

/-- `memory_init`; the argument is the address `&__kernel_end`. -/
def memory_init (kernel_end : Nat) : MemState :=
  let heap_start_addr := page_align kernel_end
  { free_list :=
      [{ start_addr := add32 heap_start_addr sizeof_mem_block_t,
         size := sub32 HEAP_SIZE sizeof_mem_block_t,
         is_free := true }],
    stack_table := [],
    heap_used := 0 }

/-- The rounding `size = (size + 7) & ~7` of `kmalloc`. -/
def align8 (size : Nat) : Nat := (add32 size 7) &&& 0xFFFFFFF8

/-- The `while (current)` loop of `kmalloc`, for the aligned `size`.  The result
is the new block list, the returned address and the amount added to
`heap_used`; `none` when the loop runs off the end of the list. -/
def kmalloc_scan (size : Nat) : List mem_block_t → Option (List mem_block_t × Nat × Nat)
  | [] => none
  | current :: rest =>
    if current.is_free = true ∧ current.size ≥ size then
      if current.size > add32 (add32 size sizeof_mem_block_t) 8 then
        let new_block : mem_block_t :=
          { start_addr := add32 (add32 current.start_addr size) sizeof_mem_block_t,
            size := sub32 (sub32 current.size size) sizeof_mem_block_t,
            is_free := true }
        some ({ current with size := size, is_free := false } :: new_block :: rest,
              current.start_addr, size)
      else
        some ({ current with is_free := false } :: rest, current.start_addr, current.size)
    else
      match kmalloc_scan size rest with
      | none => none
      | some (l, p, u) => some (current :: l, p, u)

/-- `kmalloc`: the new state and the returned pointer (`0` is `NULL`). -/
def kmalloc (m : MemState) (size : Nat) : MemState × Nat :=
  if size = 0 then (m, 0)
  else
    match kmalloc_scan (align8 size) m.free_list with
    | none => (m, 0)
    | some (l, p, u) => ({ m with free_list := l, heap_used := add32 m.heap_used u }, p)

/-- "Coalesce with next block if free" in `kfree`: `current` takes over the
header and the payload of its successor when that is free. -/
def merge_next (current : mem_block_t) (rest : List mem_block_t) :
    mem_block_t × List mem_block_t :=
  match rest with
  | nxt :: rest2 =>
    if nxt.is_free = true then
      ({ current with size := add32 current.size (add32 sizeof_mem_block_t nxt.size) }, rest2)
    else (current, rest)
  | [] => (current, [])

/-- "Coalesce with previous block if free" in `kfree`: the predecessor takes
over the header and the payload of `current` when it is free.  `before` holds
the blocks in front of `current`, nearest first. -/
def merge_prev (before : List mem_block_t) (current : mem_block_t) (rest : List mem_block_t) :
    List mem_block_t :=
  match before with
  | prev :: before2 =>
    if prev.is_free = true then
      before2.reverse ++
        { prev with size := add32 prev.size (add32 sizeof_mem_block_t current.size) } :: rest
    else before.reverse ++ current :: rest
  | [] => current :: rest

/-- The body of `if ((void*)current->start_addr == ptr)` in `kfree`, after
`heap_used` was updated: `current` is marked free, merged with its successor,
and the result is merged into its predecessor. -/
def coalesce (before : List mem_block_t) (current : mem_block_t) (rest : List mem_block_t) :
    List mem_block_t :=
  let merged := merge_next { current with is_free := true } rest
  merge_prev before merged.1 merged.2

/-- The `while (current)` loop of `kfree`.  `before` holds the blocks already
passed, nearest first.  The result is the new block list and the amount taken
off `heap_used`; `none` when no block starts at `ptr`. -/
def kfree_scan (ptr : Nat) : List mem_block_t → List mem_block_t → Option (List mem_block_t × Nat)
  | _, [] => none
  | before, current :: rest =>
    if current.start_addr = ptr then some (coalesce before current rest, current.size)
    else kfree_scan ptr (current :: before) rest

/-- `kfree`. -/
def kfree (m : MemState) (ptr : Nat) : MemState :=
  if ptr = 0 then m
  else
    match kfree_scan ptr [] m.free_list with
    | none => m
    | some (l, u) => { m with free_list := l, heap_used := sub32 m.heap_used u }

/-- `allocate_stack`: the new state and the returned stack top (`0` on failure). -/
def allocate_stack (m : MemState) (pid : Int) : MemState × Nat :=
  if m.stack_table.length ≥ MAX_BLOCKS then (m, 0)
  else
    let r := kmalloc m STACK_SIZE
    if r.2 = 0 then (r.1, 0)
    else
      ({ r.1 with stack_table := r.1.stack_table ++ [{ base_addr := r.2, size := STACK_SIZE, pid := pid }] },
       add32 r.2 STACK_SIZE)

/-- The `for` loop of `free_stack`: the first record of `pid` is released with
`kfree` and taken out of the table, the records behind it move up. -/
def free_stack_scan (pid : Int) : List stack_info_t → Option (Nat × List stack_info_t)
  | [] => none
  | s :: rest =>
    if s.pid = pid then some (s.base_addr, rest)
    else
      match free_stack_scan pid rest with
      | none => none
      | some (a, l) => some (a, s :: l)

/-- `free_stack`. -/
def free_stack (m : MemState) (pid : Int) : MemState :=
  match free_stack_scan pid m.stack_table with
  | none => m
  | some (a, l) => { kfree m a with stack_table := l }

/-- `get_free_memory`. -/
def get_free_memory (m : MemState) : Nat := sub32 HEAP_SIZE m.heap_used

/-- A call of the allocator interface. -/
inductive HeapCall where
  | malloc (size : Nat)
  | free (ptr : Nat)
deriving DecidableEq

/-- The state after one call. -/
def heap_step (m : MemState) : HeapCall → MemState
  | .malloc size => (kmalloc m size).1
  | .free ptr => kfree m ptr

/-- The state after a sequence of calls. -/
def heap_run (m : MemState) (calls : List HeapCall) : MemState :=
  calls.foldl heap_step m

/-! ## Properties of block lists -/

/-- Sum over the blocks of size plus one header. -/
def block_total (l : List mem_block_t) : Nat :=
  (l.map (fun b => b.size + sizeof_mem_block_t)).sum

/-- The blocks `a` and `b` are not both free. -/
def not_both_free (a b : mem_block_t) : Prop := ¬ (a.is_free = true ∧ b.is_free = true)

instance (a b : mem_block_t) : Decidable (not_both_free a b) := by
  unfold not_both_free; infer_instance

/-- No two neighbours of the list are both free. -/
def no_adjacent_free (l : List mem_block_t) : Prop := l.Chain' not_both_free

instance (l : List mem_block_t) : Decidable (no_adjacent_free l) := by
  unfold no_adjacent_free; infer_instance

/-- The blocks of `l` follow each other without gap from offset `off` of the
arena at `base`: a header of 20 bytes, then the payload at `start_addr`. -/
def contiguous (base : Nat) : Nat → List mem_block_t → Prop
  | _, [] => True
  | off, b :: rest =>
    b.start_addr = (base + off + sizeof_mem_block_t) % 4294967296 ∧
      contiguous base (off + sizeof_mem_block_t + b.size) rest

/-- The block `b` can serve a request of `r` bytes. -/
def fits (r : Nat) (b : mem_block_t) : Prop := b.is_free = true ∧ r ≤ b.size

instance (r : Nat) (b : mem_block_t) : Decidable (fits r b) := by
  unfold fits; infer_instance

/-- The invariant of the block list: the blocks partition the arena of
`HEAP_SIZE` bytes at `base` and no two neighbours are free. -/
def list_inv (base : Nat) (l : List mem_block_t) : Prop :=
  contiguous base 0 l ∧ block_total l = HEAP_SIZE ∧ no_adjacent_free l

/-- The invariant of the allocator: `list_inv`, and the counter is a 32-bit value. -/
def heap_inv (base : Nat) (m : MemState) : Prop :=
  list_inv base m.free_list ∧ m.heap_used < 4294967296

/-- Total size of the free blocks. -/
def free_total (l : List mem_block_t) : Nat :=
  ((l.filter (fun b => b.is_free)).map (fun b => b.size)).sum

/-- The request `n` rounded up to a multiple of 8. -/
def round_up8 (n : Nat) : Nat := 8 * ((n + 7) / 8)

/-! ## process.h, scheduler.h -/

def MAX_PROCESSES : Nat := 32

def NULL_PID : Int := 0

def INIT_PID : Int := 1

/-! The values of `process_state_t`.  The field `state` of a PCB is kept as its
4-byte value, because `create_process` stores name bytes over it (see
`store_name`). -/

def TERMINATED : Nat := 0

def READY : Nat := 1

def CURRENT : Nat := 2

def BLOCKED : Nat := 3

def SUSPENDED : Nat := 4

/-- A `pcb_t`: nine 4-byte fields at the offsets 0, 4, ..., 32, so
`sizeof(pcb_t) = 36`.  Pointers (`page_directory`, `next`) are addresses, `0` is
`NULL`. -/
structure pcb_t where
  pid : Int
  state : Nat
  program_counter : Nat
  stack_pointer : Nat
  stack_base : Nat
  page_directory : Nat
  priority : Int
  cpu_time : Nat
  next : Nat
deriving DecidableEq

def sizeof_pcb_t : Nat := 36

/-- Offset of the field `page_directory` in `pcb_t`. -/
def offsetof_page_directory : Nat := 20

inductive sched_policy_t where
  | SCHED_ROUND_ROBIN
  | SCHED_PRIORITY
  | SCHED_FCFS
deriving DecidableEq

structure sched_config_t where
  policy : sched_policy_t
  time_quantum : Nat
  aging_enabled : Int
  max_priority : Nat
deriving DecidableEq

/-- A `message_t` of the queue of `process.c`; `addr` is the address of the
node itself (the pointer that `kmalloc` returned for it).  `payload` holds the
bytes that `memcpy` stored in the heap block at `data`. -/
structure message_t where
  addr : Nat
  from_pid : Int
  to_pid : Int
  size : Nat
  data : Nat
  payload : List Nat
deriving DecidableEq

/-- The static variables of `memory.c`, `process.c` and `scheduler.c`.
`table_addr` is the address of `process_table`, fixed at link time; the pointer
`&process_table[i]` is `table_addr + 36 * i`.  `message_queue` is the list of the
nodes in `next` order. -/
structure Kernel where
  mem : MemState
  table_addr : Nat
  process_table : List pcb_t
  next_pid : Int
  current_pid : Int
  process_count : Int
  message_queue : List message_t
  ready_queue : Nat
  config : sched_config_t
  timer_ticks : Nat
  current_tick : Nat
  context_switches : Nat
  idle_process : Nat
deriving DecidableEq

/-! ## Bytes of 4-byte fields (little endian) -/

/-- The 4-byte pattern of an `int`. -/
def to_u32 (i : Int) : Nat := (i % 4294967296).toNat

/-- The `int` with a given 4-byte pattern. -/
def to_i32 (w : Nat) : Int :=
  if w % 4294967296 < 2147483648 then ((w % 4294967296 : Nat) : Int)
  else ((w % 4294967296 : Nat) : Int) - 4294967296

/-- The word `w` with its byte number `k` (0 is the lowest) replaced by `c`. -/
def set_byte (w k c : Nat) : Nat :=
  w - ((w / 256 ^ k) % 256) * 256 ^ k + (c % 256) * 256 ^ k

/-- A PCB after a `char` store at byte offset `k < 36` of it. -/
def pcb_store_byte (p : pcb_t) (k c : Nat) : pcb_t :=
  match k / 4 with
  | 0 => { p with pid := to_i32 (set_byte (to_u32 p.pid) (k % 4) c) }
  | 1 => { p with state := set_byte p.state (k % 4) c }
  | 2 => { p with program_counter := set_byte p.program_counter (k % 4) c }
  | 3 => { p with stack_pointer := set_byte p.stack_pointer (k % 4) c }
  | 4 => { p with stack_base := set_byte p.stack_base (k % 4) c }
  | 5 => { p with page_directory := set_byte p.page_directory (k % 4) c }
  | 6 => { p with priority := to_i32 (set_byte (to_u32 p.priority) (k % 4) c) }
  | 7 => { p with cpu_time := set_byte p.cpu_time (k % 4) c }
  | _ => { p with next := set_byte p.next (k % 4) c }

/-- The process table after a `char` store at byte offset `off` of the array. -/
def table_store_byte (t : List pcb_t) (off c : Nat) : List pcb_t :=
  match t.get? (off / sizeof_pcb_t) with
  | none => t
  | some p => t.set (off / sizeof_pcb_t) (pcb_store_byte p (off % sizeof_pcb_t) c)

/-- The process table after storing the bytes `cs` from byte offset `off` on. -/
def table_store_bytes (t : List pcb_t) (off : Nat) : List Nat → List pcb_t
  | [] => t
  | c :: cs => table_store_bytes (table_store_byte t off c) (off + 1) cs

/-- The characters of a C string: the bytes in front of the first `0`. -/
def c_chars (s : List Nat) : List Nat := s.takeWhile (fun c => c % 256 ≠ 0)

/-- The bytes of "null_process". -/
def null_name : List Nat := [110, 117, 108, 108, 95, 112, 114, 111, 99, 101, 115, 115]

/-- The bytes of "unnamed". -/
def unnamed : List Nat := [117, 110, 110, 97, 109, 101, 100]

/-! ## process.c -/

/-- The state of the static variables when the kernel is entered: `.bss` is
zero, `next_pid = INIT_PID`, `current_pid = NULL_PID`. -/
def kernel_boot (table_addr : Nat) : Kernel :=
  { mem := { free_list := [], stack_table := [], heap_used := 0 },
    table_addr := table_addr,
    process_table := List.replicate MAX_PROCESSES
      { pid := 0, state := 0, program_counter := 0, stack_pointer := 0, stack_base := 0,
        page_directory := 0, priority := 0, cpu_time := 0, next := 0 },
    next_pid := INIT_PID,
    current_pid := NULL_PID,
    process_count := 0,
    message_queue := [],
    ready_queue := 0,
    config := { policy := .SCHED_ROUND_ROBIN, time_quantum := 0, aging_enabled := 0,
                max_priority := 0 },
    timer_ticks := 0,
    current_tick := 0,
    context_switches := 0,
    idle_process := 0 }

/-- `memory_init` on the kernel state. -/
def kernel_memory_init (k : Kernel) (kernel_end : Nat) : Kernel :=
  { k with mem := memory_init kernel_end }

/-- `process_manager_init`.  The name loop stores the 12 bytes of
"null_process" from the field `page_directory` of slot 0 on, that is over
`page_directory`, `priority` and `cpu_time`. -/
def process_manager_init (k : Kernel) : Kernel :=
  let t1 := k.process_table.map (fun p => { p with pid := -1, state := TERMINATED, next := 0 })
  let t2 := match t1 with
    | [] => []
    | p :: rest =>
      { p with pid := NULL_PID, state := CURRENT, priority := 0, cpu_time := 0, next := 0 } :: rest
  let t3 := table_store_bytes t2 offsetof_page_directory ((c_chars null_name).take 31)
  { k with process_table := t3, current_pid := NULL_PID, process_count := 1,
           next_pid := INIT_PID }

/-- The slot search of `create_process`: the first slot that is `TERMINATED`
or has pid `-1`, counted from `i`. -/
def find_free_slot : List pcb_t → Nat → Option Nat
  | [], _ => none
  | p :: rest, i =>
    if p.state = TERMINATED ∨ p.pid = -1 then some i else find_free_slot rest (i + 1)

/-- The first slot with the given pid, counted from `i` (the loop of
`get_process` and of `terminate_process`). -/
def find_pid (pid : Int) : List pcb_t → Nat → Option Nat
  | [], _ => none
  | p :: rest, i => if p.pid = pid then some i else find_pid pid rest (i + 1)

/-- The bytes that the name copy of `create_process` stores: at most 31
characters of the name ("unnamed" for a null name) and a terminating `0`. -/
def name_bytes (name : Option (List Nat)) : List Nat :=
  match name with
  | some s => (c_chars s).take 31 ++ [0]
  | none => (c_chars unnamed).take 31 ++ [0]

/-- The name copy of `create_process`: the bytes are stored one `char` at a
time from the address of the 4-byte field `page_directory` of the slot on.  The
bytes behind the first four go over `priority`, `cpu_time` and `next` of the
slot, and from the 17th byte on over the following slot of the array. -/
def store_name (t : List pcb_t) (slot : Nat) (name : Option (List Nat)) : List pcb_t :=
  table_store_bytes t (sizeof_pcb_t * slot + offsetof_page_directory) (name_bytes name)

/-- `create_process`: the new state and the returned pid (`-1` on failure).
The result is `none` when the name copy stores behind the end of
`process_table`, into memory that is not part of this model.  The eleven words
pushed on the new stack lie in the payload of the stack block, which is not
modelled; only the resulting `stack_pointer` is kept. -/
def create_process (k : Kernel) (entry_point : Nat) (name : Option (List Nat)) :
    Option (Kernel × Int) :=
  if k.process_count ≥ MAX_PROCESSES then some (k, -1)
  else
    match find_free_slot k.process_table 0 with
    | none => some (k, -1)
    | some slot =>
      let r := allocate_stack k.mem k.next_pid
      let stack_top := r.2
      if stack_top = 0 then some ({ k with mem := r.1 }, -1)
      else
        match k.process_table.get? slot with
        | none => none
        | some p =>
          let t1 := k.process_table.set slot
            { p with pid := k.next_pid, state := READY, program_counter := entry_point,
                     stack_pointer := stack_top, stack_base := sub32 stack_top STACK_SIZE,
                     priority := 1, cpu_time := 0, next := 0 }
          if sizeof_pcb_t * slot + offsetof_page_directory + (name_bytes name).length
              > sizeof_pcb_t * k.process_table.length then none
          else
            let t2 := store_name t1 slot name
            match t2.get? slot with
            | none => none
            | some q =>
              let t3 := t2.set slot { q with stack_pointer := sub32 stack_top 44 }
              some ({ k with mem := r.1, process_table := t3,
                             process_count := k.process_count + 1,
                             next_pid := k.next_pid + 1 }, k.next_pid)

/-- The message loop of `terminate_process`: every message from or to `pid` is
unlinked and its data and its node are released with `kfree`. -/
def purge_messages (pid : Int) : List message_t → MemState → List message_t × MemState
  | [], m => ([], m)
  | msg :: rest, m =>
    if msg.from_pid = pid ∨ msg.to_pid = pid then
      purge_messages pid rest (kfree (kfree m msg.data) msg.addr)
    else
      let r := purge_messages pid rest m
      (msg :: r.1, r.2)

/-- `terminate_process`. -/
def terminate_process (k : Kernel) (pid : Int) : Kernel :=
  if pid = NULL_PID then k
  else
    match find_pid pid k.process_table 0 with
    | none => k
    | some i =>
      match k.process_table.get? i with
      | none => k
      | some p =>
        let m1 := free_stack k.mem pid
        let r := purge_messages pid k.message_queue m1
        { k with mem := r.2, message_queue := r.1,
                 process_table := k.process_table.set i { p with state := TERMINATED, pid := -1 },
                 process_count := k.process_count - 1 }

/-- The pointer `&process_table[i]`. -/
def pcb_ptr (k : Kernel) (i : Nat) : Nat := k.table_addr + sizeof_pcb_t * i

/-- The slot that a pointer to a PCB points to; `none` for `NULL` and for every
address that is not the address of a slot of `process_table`. -/
def pcb_slot (k : Kernel) (p : Nat) : Option Nat :=
  if p ≠ 0 ∧ k.table_addr ≤ p ∧ (p - k.table_addr) % sizeof_pcb_t = 0 ∧
      (p - k.table_addr) / sizeof_pcb_t < k.process_table.length then
    some ((p - k.table_addr) / sizeof_pcb_t)
  else none

/-- The PCB that a pointer points to. -/
def pcb_at (k : Kernel) (p : Nat) : Option pcb_t :=
  match pcb_slot k p with
  | none => none
  | some i => k.process_table.get? i

/-- A store through a pointer to a PCB. -/
def pcb_update (k : Kernel) (p : Nat) (f : pcb_t → pcb_t) : Option Kernel :=
  match pcb_slot k p with
  | none => none
  | some i =>
    match k.process_table.get? i with
    | none => none
    | some q => some { k with process_table := k.process_table.set i (f q) }

/-- `get_process`: the pointer to the first slot with the given pid, or `NULL`. -/
def get_process (k : Kernel) (pid : Int) : Nat :=
  match find_pid pid k.process_table 0 with
  | none => 0
  | some i => pcb_ptr k i

/-- `set_process_state`. -/
def set_process_state (k : Kernel) (pid : Int) (state : Nat) : Kernel :=
  match find_pid pid k.process_table 0 with
  | none => k
  | some i =>
    match k.process_table.get? i with
    | none => k
    | some p =>
      let k1 := { k with process_table := k.process_table.set i { p with state := state } }
      if state = CURRENT then { k1 with current_pid := pid } else k1

/-- `get_current_pid`. -/
def get_current_pid (k : Kernel) : Int := k.current_pid

/-- `get_current_process`. -/
def get_current_process (k : Kernel) : Nat := get_process k k.current_pid

/-! ## scheduler.c

The ready queue is the chain of PCBs that starts at the pointer `ready_queue`
and follows the field `next`.  A loop over the chain is run for at most
`QUEUE_FUEL` steps: a chain through the 32 slots of the table that is longer
has a cycle, and the C loop does not end.  The result `none` of an operation
stands for such a loop without end, or for an access through a pointer that is
not the address of a PCB. -/

def QUEUE_FUEL : Nat := MAX_PROCESSES + 1

/-- `scheduler_init`. -/
def scheduler_init (k : Kernel) (policy : sched_policy_t) (quantum : Nat) : Kernel :=
  { k with config := { policy := policy, time_quantum := quantum, aging_enabled := 0,
                       max_priority := 10 },
           ready_queue := 0, timer_ticks := 0, current_tick := 0, context_switches := 0,
           idle_process := get_process k NULL_PID }

/-- The loop `while (last->next) last = last->next;` of `add_to_ready_queue`. -/
def queue_last (k : Kernel) : Nat → Nat → Option Nat
  | 0, _ => none
  | fuel + 1, last =>
    match pcb_at k last with
    | none => none
    | some p => if p.next = 0 then some last else queue_last k fuel p.next

/-- The loop `while (current && current->priority >= process->priority)` of
`add_to_ready_queue`; the result is the pair `(prev, current)`. -/
def queue_insert_pos (k : Kernel) (priority : Int) : Nat → Nat → Nat → Option (Nat × Nat)
  | 0, _, _ => none
  | fuel + 1, prev, current =>
    if current = 0 then some (prev, current)
    else
      match pcb_at k current with
      | none => none
      | some c =>
        if c.priority ≥ priority then queue_insert_pos k priority fuel current c.next
        else some (prev, current)

/-- `add_to_ready_queue`. -/
def add_to_ready_queue (k : Kernel) (process : Nat) : Option Kernel :=
  if process = 0 then some k
  else
    match pcb_at k process with
    | none => none
    | some p =>
      if p.state = TERMINATED then some k
      else do
        let k1 ← pcb_update k process (fun q => { q with next := 0 })
        let k2 ←
          if k1.ready_queue = 0 then some { k1 with ready_queue := process }
          else
            match k1.config.policy with
            | .SCHED_ROUND_ROBIN | .SCHED_FCFS => do
              let last ← queue_last k1 QUEUE_FUEL k1.ready_queue
              pcb_update k1 last (fun q => { q with next := process })
            | .SCHED_PRIORITY => do
              let pos ← queue_insert_pos k1 p.priority QUEUE_FUEL 0 k1.ready_queue
              if pos.1 = 0 then do
                let k3 ← pcb_update k1 process (fun q => { q with next := k1.ready_queue })
                some { k3 with ready_queue := process }
              else do
                let k3 ← pcb_update k1 process (fun q => { q with next := pos.2 })
                pcb_update k3 pos.1 (fun q => { q with next := process })
        pcb_update k2 process (fun q => { q with state := READY })

/-- The loop `while (current && current->pid != pid)` of
`remove_from_ready_queue`; the result is the pair `(prev, current)`. -/
def queue_find (k : Kernel) (pid : Int) : Nat → Nat → Nat → Option (Nat × Nat)
  | 0, _, _ => none
  | fuel + 1, prev, current =>
    if current = 0 then some (prev, current)
    else
      match pcb_at k current with
      | none => none
      | some c => if c.pid ≠ pid then queue_find k pid fuel current c.next
                  else some (prev, current)

/-- `remove_from_ready_queue`. -/
def remove_from_ready_queue (k : Kernel) (pid : Int) : Option Kernel :=
  if k.ready_queue = 0 then some k
  else
    match pcb_at k k.ready_queue with
    | none => none
    | some h =>
      if h.pid = pid then some { k with ready_queue := h.next }
      else do
        let pos ← queue_find k pid QUEUE_FUEL 0 k.ready_queue
        if pos.2 ≠ 0 then do
          let c ← pcb_at k pos.2
          let k1 ← if pos.1 ≠ 0 then pcb_update k pos.1 (fun q => { q with next := c.next })
                   else some k
          pcb_update k1 pos.2 (fun q => { q with next := 0 })
        else some k

/-- The selection loop of `pick_next_process` under `SCHED_PRIORITY`. -/
def queue_min_priority (k : Kernel) : Nat → Nat → Nat → Option Nat
  | 0, _, _ => none
  | fuel + 1, selected, current =>
    if current = 0 then some selected
    else
      match pcb_at k current, pcb_at k selected with
      | some c, some s =>
        queue_min_priority k fuel (if c.priority < s.priority then current else selected) c.next
      | _, _ => none

/-- The aging loop of `pick_next_process`. -/
def queue_age (selected : Nat) : Nat → Kernel → Nat → Option Kernel
  | 0, _, _ => none
  | fuel + 1, k, current =>
    if current = 0 then some k
    else
      match pcb_at k current with
      | none => none
      | some c =>
        if current ≠ selected ∧ to_u32 c.priority < k.config.max_priority then do
          let k1 ← pcb_update k current
            (fun q => { q with priority := to_i32 (to_u32 (q.priority + 1)) })
          queue_age selected fuel k1 c.next
        else queue_age selected fuel k c.next

/-- `pick_next_process`: the new state and the selected pointer. -/
def pick_next_process (k : Kernel) : Option (Kernel × Nat) :=
  if k.ready_queue = 0 then some (k, 0)
  else do
    let selected ←
      match k.config.policy with
      | .SCHED_ROUND_ROBIN | .SCHED_FCFS => some k.ready_queue
      | .SCHED_PRIORITY => queue_min_priority k QUEUE_FUEL k.ready_queue k.ready_queue
    if k.config.aging_enabled ≠ 0 then do
      let k1 ← queue_age selected QUEUE_FUEL k k.ready_queue
      if selected ≠ 0 then do
        let s ← pcb_at k1 selected
        if s.priority > 1 then do
          let k2 ← pcb_update k1 selected (fun q => { q with priority := q.priority - 1 })
          some (k2, selected)
        else some (k1, selected)
      else some (k1, selected)
    else some (k, selected)

/-- `context_switch`.  The state of `next` is set directly; `current_pid` is
not assigned. -/
def context_switch (k : Kernel) (next : Nat) : Option Kernel :=
  let current := get_current_process k
  if current = next then some k
  else do
    let _ ← pcb_at k next
    let k1 ←
      if current ≠ 0 then do
        let c ← pcb_at k current
        if c.state = CURRENT then do
          let k0 ← pcb_update k current (fun q => { q with state := READY })
          add_to_ready_queue k0 current
        else some k
      else some k
    let k2 ← pcb_update k1 next (fun q => { q with state := CURRENT })
    let n ← pcb_at k2 next
    let k3 ← remove_from_ready_queue k2 n.pid
    let k4 ←
      if current ≠ 0 then
        pcb_update k3 current (fun q => { q with cpu_time := add32 q.cpu_time k3.current_tick })
      else some k3
    some { k4 with current_tick := 0, context_switches := add32 k4.context_switches 1 }

/-- `schedule`. -/
def schedule (k : Kernel) : Option Kernel := do
  let current := get_current_process k
  let r ← pick_next_process k
  let next := if r.2 = 0 then r.1.idle_process else r.2
  if current ≠ next then context_switch r.1 next else some r.1

/-- `timer_tick`. -/
def timer_tick (k : Kernel) : Option Kernel :=
  let k1 := { k with timer_ticks := add32 k.timer_ticks 1,
                     current_tick := add32 k.current_tick 1 }
  let current := get_current_process k1
  if current ≠ 0 then
    match pcb_at k1 current with
    | none => none
    | some c =>
      if c.pid ≠ NULL_PID then
        if k1.config.policy = .SCHED_ROUND_ROBIN ∧ k1.current_tick ≥ k1.config.time_quantum then
          schedule k1
        else some k1
      else some k1
  else some k1

/-- `set_scheduling_policy`. -/
def set_scheduling_policy (k : Kernel) (policy : sched_policy_t) : Kernel :=
  { k with config := { k.config with policy := policy } }

/-- `set_time_quantum`. -/
def set_time_quantum (k : Kernel) (quantum : Nat) : Kernel :=
  { k with config := { k.config with time_quantum := quantum } }

/-- `enable_aging`. -/
def enable_aging (k : Kernel) (enable : Int) : Kernel :=
  { k with config := { k.config with aging_enabled := enable } }

/-- The slots of the PCBs on the ready queue, in queue order, followed from the
pointer `p`. -/
def queue_slots (k : Kernel) : Nat → Nat → Option (List Nat)
  | 0, _ => none
  | fuel + 1, p =>
    if p = 0 then some []
    else
      match pcb_slot k p, pcb_at k p with
      | some i, some c =>
        match queue_slots k fuel c.next with
        | none => none
        | some l => some (i :: l)
      | _, _ => none

/-- The slots of the ready queue. -/
def ready_queue_slots (k : Kernel) : Option (List Nat) := queue_slots k QUEUE_FUEL k.ready_queue

/-- The number of PCBs of the process table in state `CURRENT`. -/
def count_current (k : Kernel) : Nat := (k.process_table.filter (fun p => p.state = CURRENT)).length

/-! ## Call sequences used below -/

/-- The bytes of "TestProc1", "TestProc2" and "TestProc3", the names used by `kmain`. -/
def TestProc1 : List Nat := [84, 101, 115, 116, 80, 114, 111, 99, 49]

def TestProc2 : List Nat := [84, 101, 115, 116, 80, 114, 111, 99, 50]

def TestProc3 : List Nat := [84, 101, 115, 116, 80, 114, 111, 99, 51]

/-- The bytes of the 16-character name "InitializerProc1". -/
def InitializerProc1 : List Nat :=
  [73, 110, 105, 116, 105, 97, 108, 105, 122, 101, 114, 80, 114, 111, 99, 49]

/-- The state after the three initialisation calls of `kmain`: `memory_init`,
`process_manager_init`, `scheduler_init(SCHED_ROUND_ROBIN, 100)`, for a kernel
that ends at `0x100000` with its process table at `0x200000`. -/
def kmain_init : Kernel :=
  scheduler_init (process_manager_init (kernel_memory_init (kernel_boot 0x200000) 0x100000))
    .SCHED_ROUND_ROBIN 100

/-- The start of `kmain`: three processes are created and put on the ready
queue. -/
def kmain_created : Option Kernel := do
  let r1 ← create_process kmain_init 0x1000 (some TestProc1)
  let r2 ← create_process r1.1 0x2000 (some TestProc2)
  let r3 ← create_process r2.1 0x3000 (some TestProc3)
  let k1 ← if r1.2 > 0 then add_to_ready_queue r3.1 (get_process r3.1 r1.2) else some r3.1
  let k2 ← if r2.2 > 0 then add_to_ready_queue k1 (get_process k1 r2.2) else some k1
  if r3.2 > 0 then add_to_ready_queue k2 (get_process k2 r3.2) else some k2

/-- One round of the loop of `kmain`: `timer_tick(); schedule();`. -/
def kmain_round (k : Kernel) : Option Kernel := do
  let k1 ← timer_tick k
  schedule k1

/-- The state of `kmain` after `n` rounds of its loop. -/
def kmain_rounds : Nat → Option Kernel
  | 0 => kmain_created
  | n + 1 => do
    let k ← kmain_rounds n
    kmain_round k

/-- Two processes are created, the first is terminated, and a third process
with a name of 16 characters is created; it takes the slot of the first.  The
result is the final state and the three returned pids. -/
def reuse_slot_long_name : Option (Kernel × List Int) := do
  let r1 ← create_process kmain_init 0x1000 (some [97])
  let r2 ← create_process r1.1 0x2000 (some [98])
  let k3 := terminate_process r2.1 r1.2
  let r4 ← create_process k3 0x3000 (some InitializerProc1)
  some (r4.1, [r1.2, r2.2, r4.2])

/-- A process is created, put on the ready queue, and terminated. -/
def terminate_queued : Option Kernel := do
  let r1 ← create_process kmain_init 0x1000 (some TestProc1)
  let k2 ← add_to_ready_queue r1.1 (get_process r1.1 r1.2)
  some (terminate_process k2 r1.2)

/-- The pids and states of the slots of the process table that are live: not
`TERMINATED` and with a pid other than `-1`. -/
def live_pids (k : Kernel) : List (Int × Nat) :=
  (k.process_table.filter (fun p => p.state ≠ TERMINATED ∧ p.pid ≠ -1)).map
    (fun p => (p.pid, p.state))

/-- The pids and states of the PCBs on the ready queue, in queue order. -/
def ready_queue_pcbs (k : Kernel) : Option (List (Int × Nat)) :=
  match ready_queue_slots k with
  | none => none
  | some l => some (l.filterMap (fun i => (k.process_table.get? i).map (fun p => (p.pid, p.state))))

/-- The pid and the state of slot `i` of the process table. -/
def slot_pid_state (k : Kernel) (i : Nat) : Option (Int × Nat) :=
  (k.process_table.get? i).map (fun p => (p.pid, p.state))

/-- The sequence `terminate_queued`, followed by one call of `schedule`. -/
def terminate_queued_schedule : Option Kernel := do
  let k ← terminate_queued
  schedule k

/-! ## Lemmas on the 32-bit operations -/

/-! ## process.c: messages -/

/-- The structure `message_t` has five 4-byte fields. -/
def sizeof_message_t : Nat := 20

/-- The size of the first block of the list that starts at `p`. -/
def block_size_at (l : List mem_block_t) (p : Nat) : Option Nat :=
  match l.find? (fun b => b.start_addr = p) with
  | none => none
  | some b => some b.size

/-- `send_message`.  `src i` is the byte at address `msg + i`.  The result is
`none` when `memcpy` stores behind the end of the block allocated for the data,
into memory that is not part of this model. -/
def send_message (k : Kernel) (to_pid : Int) (msg : Nat) (size : Nat) (src : Nat → Nat) :
    Option Kernel :=
  if msg = 0 ∨ size = 0 then some k
  else
    let dest := get_process k to_pid
    if dest = 0 then some k
    else
      match pcb_at k dest with
      | none => none
      | some d =>
        if d.state = TERMINATED then some k
        else
          let r1 := kmalloc k.mem sizeof_message_t
          if r1.2 = 0 then some { k with mem := r1.1 }
          else
            let r2 := kmalloc r1.1 size
            if r2.2 = 0 then some { k with mem := kfree r2.1 r1.2 }
            else
              match block_size_at r2.1.free_list r2.2 with
              | none => none
              | some block_size =>
                if size > block_size then none
                else
                  some { k with
                    mem := r2.1,
                    message_queue := k.message_queue ++
                      [{ addr := r1.2, from_pid := k.current_pid, to_pid := to_pid,
                         size := size, data := r2.2,
                         payload := (List.range size).map src }] }

/-- The loop of `receive_message`: the first message addressed to `pid` and the
queue without it. -/
def receive_scan (pid : Int) : List message_t → Option (message_t × List message_t)
  | [] => none
  | m :: rest =>
    if m.to_pid = pid then some (m, rest)
    else
      match receive_scan pid rest with
      | none => none
      | some (x, l) => some (x, m :: l)

/-- `receive_message`: the new state, the returned pointer (`0` is `NULL`) and
the value stored through `from_pid`; the argument `from_pid` tells whether that
pointer is non-null. -/
def receive_message (k : Kernel) (from_pid : Bool) : Option (Kernel × Nat × Option Int) :=
  let current := get_current_process k
  if current = 0 then some (k, 0, none)
  else
    match pcb_at k current with
    | none => none
    | some c =>
      match receive_scan c.pid k.message_queue with
      | none => some (k, 0, none)
      | some (m, l) =>
        some ({ k with message_queue := l, mem := kfree k.mem m.addr }, m.data,
              if from_pid then some m.from_pid else none)

/-! ## Further properties of block lists -/

/-- Total size of the blocks that are not free. -/
def used_total (l : List mem_block_t) : Nat :=
  ((l.filter (fun b => !b.is_free)).map (fun b => b.size)).sum

/-- The block `b` is followed without gap by its header-and-payload successor `c`. -/
def follows (b c : mem_block_t) : Prop := b.start_addr + b.size + sizeof_mem_block_t = c.start_addr

instance (b c : mem_block_t) : Decidable (follows b c) := by
  unfold follows; infer_instance

/-! ## Further call sequences -/

/-- The bytes of the 4-character name "init". -/
def init_name : List Nat := [105, 110, 105, 116]

/-- The first call of `kmain` that creates a process:
`create_process(process1, "TestProc1")` after the initialisation. -/
def kmain_first_create : Option (Kernel × Int) :=
  create_process kmain_init 0x1000 (some TestProc1)

/-- A process with the 16-character name "InitializerProc1" is created right
after the initialisation. -/
def create_long_name : Option (Kernel × Int) :=
  create_process kmain_init 0x1000 (some InitializerProc1)

/-- After the initialisation, `send_message(0, msg, 0xFFFFFFFF)` for a non-null
`msg` whose bytes are all 65. -/
def send_huge_message : Option Kernel :=
  send_message kmain_init 0 0x300000 0xFFFFFFFF (fun _ => 65)

/-- Process "a" (pid 1) is created; the null process sends it 3 bytes; process 1
is made current and sends 2 bytes to pid 0 and 1 byte to itself; pid 0 is made
current again and sends itself 2 bytes. -/
def four_messages : Option Kernel := do
  let r1 ← create_process kmain_init 0x1000 (some [97])
  let k2 ← send_message r1.1 1 0x300000 3 (fun i => 65 + i)
  let k3 := set_process_state k2 1 CURRENT
  let k4 ← send_message k3 0 0x300100 2 (fun i => 70 + i)
  let k5 ← send_message k4 1 0x300200 1 (fun i => 80 + i)
  let k6 := set_process_state k5 0 CURRENT
  send_message k6 0 0x300300 2 (fun i => 90 + i)

/-- The state after `four_messages`. -/
def four_messages_state : Kernel := four_messages.getD kmain_init

/-- The sender, the receiver and the payload of each message of the queue. -/
def queue_summary (k : Kernel) : List (Int × Int × List Nat) :=
  k.message_queue.map (fun m => (m.from_pid, m.to_pid, m.payload))

/-! ## The ready queue as a list of slots -/

/-- The chain of PCBs that starts at the pointer `p` and follows `next` visits
exactly the slots `l`, in this order, and then arrives at the pointer `q`. -/
def is_seg (k : Kernel) : Nat → List Nat → Nat → Prop
  | p, [], q => p = q
  | p, i :: rest, q =>
    pcb_slot k p = some i ∧ ∃ c, k.process_table.get? i = some c ∧ is_seg k c.next rest q

/-- The chain of PCBs that starts at the pointer `p` visits exactly the slots
`l` and ends with `NULL`. -/
def is_queue (k : Kernel) (p : Nat) (l : List Nat) : Prop := is_seg k p l 0

/-- The kernel state without the links of the ready queue: `ready_queue` and
all fields `next` are set to `NULL`. -/
def unlinked (k : Kernel) : Kernel :=
  { k with ready_queue := 0,
           process_table := k.process_table.map (fun c => { c with next := 0 }) }

/-- The process table with `f` applied to slot `i`. -/
def table_modify (t : List pcb_t) (i : Nat) (f : pcb_t → pcb_t) : List pcb_t :=
  match t.get? i with
  | none => t
  | some q => t.set i (f q)

/-- The priority of the PCB in slot `i` (0 when there is no such slot). -/
def slot_priority (k : Kernel) (i : Nat) : Int :=
  match k.process_table.get? i with
  | none => 0
  | some c => c.priority

/-- The pid of the PCB in slot `i` (0 when there is no such slot). -/
def slot_pid (k : Kernel) (i : Nat) : Int :=
  match k.process_table.get? i with
  | none => 0
  | some c => c.pid

/-- The state of the PCB in slot `i` (`TERMINATED` when there is no such slot). -/
def slot_state (k : Kernel) (i : Nat) : Nat :=
  match k.process_table.get? i with
  | none => TERMINATED
  | some c => c.state

/-- The accumulated CPU time of the PCB in slot `i` (0 when there is no such slot). -/
def slot_cpu_time (k : Kernel) (i : Nat) : Nat :=
  match k.process_table.get? i with
  | none => 0
  | some c => c.cpu_time

/-! ## States with three processes of one-letter names -/

/-- After the initialisation of `kmain`, the processes "a", "b" and "c" are
created; they get the pids 1, 2, 3 and the slots 1, 2, 3.  A one-letter name
fits into the field `page_directory`. -/
def three_created : Kernel :=
  (do
    let r1 ← create_process kmain_init 0x1000 (some [97])
    let r2 ← create_process r1.1 0x2000 (some [98])
    let r3 ← create_process r2.1 0x3000 (some [99])
    some r3.1).getD kmain_init

/-- The processes of `three_created` are put on the ready queue in the order
1, 2, 3. -/
def three_queued : Kernel :=
  (do
    let k1 ← add_to_ready_queue three_created (get_process three_created 1)
    let k2 ← add_to_ready_queue k1 (get_process k1 2)
    add_to_ready_queue k2 (get_process k2 3)).getD kmain_init

/-! ## Sequences of `create_process` and `terminate_process` calls -/

/-- A call of `create_process` or of `terminate_process`. -/
inductive ProcCall where
  | create (entry_point : Nat) (name : Option (List Nat))
  | terminate (pid : Int)

/-- The state after one call. -/
def proc_step (k : Kernel) : ProcCall → Option Kernel
  | .create e n => (create_process k e n).map (fun r => r.1)
  | .terminate pid => some (terminate_process k pid)

/-- The state after a sequence of calls. -/
def proc_run (k : Kernel) : List ProcCall → Option Kernel
  | [] => some k
  | c :: rest => (proc_step k c).bind (fun k1 => proc_run k1 rest)

/-- The state after `memory_init` and `process_manager_init`, for a kernel that
ends at `kernel_end` with its process table at `table_addr`. -/
def proc_init (table_addr kernel_end : Nat) : Kernel :=
  process_manager_init (kernel_memory_init (kernel_boot table_addr) kernel_end)

/-- What the calls of `create_process` and `terminate_process` keep: the
allocator invariant, an empty message queue, a pid counter of at least
`INIT_PID`, and stack records of pids below the pid counter only. -/
def proc_inv (base : Nat) (k : Kernel) : Prop :=
  heap_inv base k.mem ∧ k.message_queue = [] ∧ INIT_PID ≤ k.next_pid ∧
    ∀ r ∈ k.mem.stack_table, r.pid < k.next_pid

/-- The state after the initialisation, the creation of "a" and "b" (pids 1
and 2) and `terminate_process(1)`. -/
def round_trip_state : Kernel :=
  (proc_run (proc_init 0x200000 0x100000)
    [.create 0x1000 (some [97]), .create 0x2000 (some [98]), .terminate 1]).getD
    (proc_init 0x200000 0x100000)

/-- The call `create_process(process3, "TestProc1")` in `round_trip_state`. -/
def round_trip_created : Kernel × Int :=
  (create_process round_trip_state 0x3000 (some TestProc1)).getD (round_trip_state, -1)

/-- The kernel state without the priorities: the field `priority` of every PCB
is set to 0. -/
def sans_priority (k : Kernel) : Kernel :=
  { k with process_table := k.process_table.map (fun c => { c with priority := 0 }) }

/-- The priority that the aging loop of `pick_next_process` gives to a PCB of
priority `p` that is not the selected one. -/
def aged (max_priority : Nat) (p : Int) : Int :=
  if to_u32 p < max_priority then to_i32 (to_u32 (p + 1)) else p

/-- The priority that `pick_next_process` gives to the selected PCB of priority
`p` when aging is enabled. -/
def rewarded (p : Int) : Int := if p > 1 then p - 1 else p

/-- The `switch (config.policy)` of `pick_next_process`: the selected pointer. -/
def pick_selected (k : Kernel) : Option Nat :=
  match k.config.policy with
  | .SCHED_ROUND_ROBIN | .SCHED_FCFS => some k.ready_queue
  | .SCHED_PRIORITY => queue_min_priority k QUEUE_FUEL k.ready_queue k.ready_queue

/-! ## States for the priority policy and for aging -/

/-- After the initialisation of `kmain`, three processes are created with the
names "aaaa\x05", "aaaa\x02" and "aaaa\x08" (slots 1, 2, 3): the fifth
character of a name is stored on the lowest byte of `priority`, which gives the
priorities 5, 2 and 8.  They are put on the ready queue in this order, and the
policy is set to `SCHED_PRIORITY`. -/
def priorities_5_2_8 : Kernel :=
  (do
    let r1 ← create_process kmain_init 0x1000 (some [97, 97, 97, 97, 5])
    let r2 ← create_process r1.1 0x2000 (some [97, 97, 97, 97, 2])
    let r3 ← create_process r2.1 0x3000 (some [97, 97, 97, 97, 8])
    let k1 ← add_to_ready_queue r3.1 (get_process r3.1 r1.2)
    let k2 ← add_to_ready_queue k1 (get_process k1 r2.2)
    let k3 ← add_to_ready_queue k2 (get_process k2 r3.2)
    some (set_scheduling_policy k3 .SCHED_PRIORITY)).getD kmain_init

/-- The start of `kmain` (processes "TestProc1", "TestProc2", "TestProc3" on the
ready queue), followed by `enable_aging(1)`. -/
def aging_kmain : Kernel := enable_aging (kmain_created.getD kmain_init) 1

/-- After the initialisation of `kmain` the process "init" is created and put
on the ready queue, and `enable_aging(1)` is called. -/
def aging_init : Kernel :=
  (do
    let r1 ← create_process kmain_init 0x1000 (some init_name)
    let k1 ← add_to_ready_queue r1.1 (get_process r1.1 r1.2)
    some (enable_aging k1 1)).getD kmain_init

/-- The processes of `three_queued` with aging enabled. -/
def aging_three : Kernel := enable_aging three_queued 1

/-! ## States for `context_switch` and `timer_tick` -/

/-- After the initialisation of `kmain` the process "a" (pid 1, slot 1) is
created and put on the ready queue, and `set_process_state(1, CURRENT)` is
called: the current process is in state `CURRENT` and on the ready queue. -/
def current_queued : Kernel :=
  (do
    let r1 ← create_process kmain_init 0x1000 (some [97])
    let k2 ← add_to_ready_queue r1.1 (get_process r1.1 r1.2)
    some (set_process_state k2 1 CURRENT)).getD kmain_init

/-- The first statements of `context_switch` in the state `current_queued`:
`current->state = READY; add_to_ready_queue(current);`. -/
def current_queued_saved : Option Kernel :=
  (pcb_update current_queued (get_current_process current_queued)
    (fun q => { q with state := READY })).bind
    fun k0 => add_to_ready_queue k0 (get_current_process current_queued)

/-- The link `next` of the PCB in slot `i`. -/
def slot_next (k : Kernel) (i : Nat) : Option Nat :=
  (k.process_table.get? i).map (fun c => c.next)

/-- The state after `n` calls of `timer_tick`. -/
def timer_ticks_n : Nat → Kernel → Option Kernel
  | 0, k => some k
  | n + 1, k => (timer_ticks_n n k).bind timer_tick

/-- The processes "a", "b", "c" (pids 1, 2, 3) are created, "b" and "c" are put
on the ready queue, process 1 is made current with
`set_process_state(1, CURRENT)`, and the quantum is set to 5. -/
def running_one : Kernel :=
  (do
    let k1 ← add_to_ready_queue three_created (get_process three_created 2)
    let k2 ← add_to_ready_queue k1 (get_process k1 3)
    some (set_time_quantum (set_process_state k2 1 CURRENT) 5)).getD kmain_init

/-! ## A full process table -/

theorem and_mask8 (x : Nat) (hx : x < 4294967296) : x &&& 0xFFFFFFF8 = 8 * (x / 8) := by
  have h1 : (0xFFFFFFF8 : Nat) = 2^3 * (2^29 - 1) := by norm_num
  have h2 : 8 * (x / 8) = 2^3 * (x / 8) := by norm_num
  rw [h1, h2]
  apply Nat.eq_of_testBit_eq
  intro i
  rw [Nat.testBit_land, Nat.testBit_mul_pow_two, Nat.testBit_mul_pow_two,
    Nat.testBit_two_pow_sub_one]
  by_cases hi : i ≥ 3
  · have hx8 : x / 8 = x >>> 3 := by rw [Nat.shiftRight_eq_div_pow]
    rw [hx8, Nat.testBit_shiftRight]
    have e : 3 + (i - 3) = i := by omega
    rw [e]
    by_cases hj : i - 3 < 29
    · simp [hi, hj]
    · have : x.testBit i = false := by
        apply Nat.testBit_lt_two_pow
        calc x < 2^32 := hx
          _ ≤ 2^i := Nat.pow_le_pow_right (by norm_num) (by omega)
      simp [this]
  · simp [hi]

theorem align8_eq (n : Nat) : align8 n = 8 * (((n + 7) % 4294967296) / 8) := by
  unfold align8 add32
  exact and_mask8 _ (Nat.mod_lt _ (by norm_num))

theorem align8_lt (n : Nat) : align8 n < 4294967296 := by
  rw [align8_eq]; omega

theorem align8_of_le (n : Nat) (h : n ≤ 4294967288) : align8 n = 8 * ((n + 7) / 8) := by
  rw [align8_eq, Nat.mod_eq_of_lt (by omega)]

/-! ## The scan loops, described on a split of the list -/

theorem kmalloc_scan_none (r : Nat) (l : List mem_block_t) (h : ∀ b ∈ l, ¬ fits r b) :
    kmalloc_scan r l = none := by
  induction l with
  | nil => rfl
  | cons c rest ih =>
    have hc : ¬ (c.is_free = true ∧ c.size ≥ r) := h c (List.mem_cons_self _ _)
    have hr := ih (fun b hb => h b (List.mem_cons_of_mem _ hb))
    simp only [kmalloc_scan, hc, if_false, hr]

theorem kmalloc_scan_first (r : Nat) (pre : List mem_block_t) (b : mem_block_t)
    (post : List mem_block_t) (hpre : ∀ x ∈ pre, ¬ fits r x) (hb : fits r b) :
    kmalloc_scan r (pre ++ b :: post) =
      if b.size > add32 (add32 r sizeof_mem_block_t) 8 then
        some (pre ++ { b with size := r, is_free := false } ::
                { start_addr := add32 (add32 b.start_addr r) sizeof_mem_block_t,
                  size := sub32 (sub32 b.size r) sizeof_mem_block_t,
                  is_free := true } :: post, b.start_addr, r)
      else some (pre ++ { b with is_free := false } :: post, b.start_addr, b.size) := by
  induction pre with
  | nil =>
    have hb2 : b.is_free = true ∧ b.size ≥ r := hb
    simp only [List.nil_append, kmalloc_scan, hb2, and_self, if_true]
  | cons c rest ih =>
    have hc : ¬ (c.is_free = true ∧ c.size ≥ r) := hpre c (List.mem_cons_self _ _)
    have hr := ih (fun x hx => hpre x (List.mem_cons_of_mem _ hx))
    rw [List.cons_append, kmalloc_scan, if_neg hc, hr]
    by_cases hs : b.size > add32 (add32 r sizeof_mem_block_t) 8
    · rw [if_pos hs, if_pos hs]; rfl
    · rw [if_neg hs, if_neg hs]; rfl

theorem exists_first_fit (r : Nat) (l : List mem_block_t) (h : ∃ b ∈ l, fits r b) :
    ∃ pre b post, l = pre ++ b :: post ∧ (∀ x ∈ pre, ¬ fits r x) ∧ fits r b := by
  induction l with
  | nil => obtain ⟨b, hb, _⟩ := h; cases hb
  | cons c rest ih =>
    by_cases hc : fits r c
    · exact ⟨[], c, rest, rfl, by simp, hc⟩
    · obtain ⟨b, hb, hfb⟩ := h
      have hb2 : b ∈ rest := by
        rcases List.mem_cons.mp hb with rfl | h2
        · exact absurd hfb hc
        · exact h2
      obtain ⟨pre, b2, post, e, hp, hf⟩ := ih ⟨b, hb2, hfb⟩
      refine ⟨c :: pre, b2, post, by rw [e]; rfl, ?_, hf⟩
      intro x hx
      rcases List.mem_cons.mp hx with rfl | h2
      · exact hc
      · exact hp x h2

theorem kfree_scan_none (p : Nat) (l before : List mem_block_t)
    (h : ∀ b ∈ l, b.start_addr ≠ p) : kfree_scan p before l = none := by
  induction l generalizing before with
  | nil => rfl
  | cons c rest ih =>
    have hc : c.start_addr ≠ p := h c (List.mem_cons_self _ _)
    simp only [kfree_scan, hc, if_false]
    exact ih _ (fun b hb => h b (List.mem_cons_of_mem _ hb))

theorem kfree_scan_found (p : Nat) (pre : List mem_block_t) (cur : mem_block_t)
    (rest before : List mem_block_t) (hpre : ∀ x ∈ pre, x.start_addr ≠ p)
    (hcur : cur.start_addr = p) :
    kfree_scan p before (pre ++ cur :: rest) =
      some (coalesce (pre.reverse ++ before) cur rest, cur.size) := by
  induction pre generalizing before with
  | nil => simp only [List.nil_append, kfree_scan, hcur, if_true, List.reverse_nil]
  | cons c pre2 ih =>
    have hc : c.start_addr ≠ p := hpre c (List.mem_cons_self _ _)
    rw [List.cons_append, kfree_scan, if_neg hc,
      ih _ (fun x hx => hpre x (List.mem_cons_of_mem _ hx))]
    simp

theorem exists_first_start (p : Nat) (l : List mem_block_t) (h : ∃ b ∈ l, b.start_addr = p) :
    ∃ pre cur rest, l = pre ++ cur :: rest ∧ (∀ x ∈ pre, x.start_addr ≠ p) ∧
      cur.start_addr = p := by
  induction l with
  | nil => obtain ⟨b, hb, _⟩ := h; cases hb
  | cons c rest ih =>
    by_cases hc : c.start_addr = p
    · exact ⟨[], c, rest, rfl, by simp, hc⟩
    · obtain ⟨b, hb, hfb⟩ := h
      have hb2 : b ∈ rest := by
        rcases List.mem_cons.mp hb with rfl | h2
        · exact absurd hfb hc
        · exact h2
      obtain ⟨pre, b2, post, e, hp, hf⟩ := ih ⟨b, hb2, hfb⟩
      refine ⟨c :: pre, b2, post, by rw [e]; rfl, ?_, hf⟩
      intro x hx
      rcases List.mem_cons.mp hx with rfl | h2
      · exact hc
      · exact hp x h2

/-! ## Block totals and contiguity -/

@[simp] theorem block_total_nil : block_total [] = 0 := rfl

@[simp] theorem block_total_cons (b : mem_block_t) (l : List mem_block_t) :
    block_total (b :: l) = b.size + sizeof_mem_block_t + block_total l := by
  simp [block_total]

@[simp] theorem block_total_append (l1 l2 : List mem_block_t) :
    block_total (l1 ++ l2) = block_total l1 + block_total l2 := by
  simp [block_total]

theorem contiguous_append (base : Nat) (l1 l2 : List mem_block_t) (off : Nat) :
    contiguous base off (l1 ++ l2) ↔
      contiguous base off l1 ∧ contiguous base (off + block_total l1) l2 := by
  induction l1 generalizing off with
  | nil => simp [contiguous]
  | cons b l ih =>
    have e : off + (b.size + sizeof_mem_block_t + block_total l) =
        off + sizeof_mem_block_t + b.size + block_total l := by omega
    rw [List.cons_append, block_total_cons, e]
    simp only [contiguous, ih, and_assoc]

/-- In a contiguous list every block sits at an offset inside the span of the list. -/
theorem contiguous_mem (base : Nat) (l : List mem_block_t) (off : Nat)
    (h : contiguous base off l) :
    ∀ x ∈ l, ∃ o, off ≤ o ∧ o + sizeof_mem_block_t + x.size ≤ off + block_total l ∧
      x.start_addr = (base + o + sizeof_mem_block_t) % 4294967296 := by
  induction l generalizing off with
  | nil => intro x hx; cases hx
  | cons b l ih =>
    intro x hx
    obtain ⟨hb, hl⟩ := h
    rcases List.mem_cons.mp hx with rfl | hx2
    · exact ⟨off, le_refl _, by simp only [block_total_cons]; omega, hb⟩
    · obtain ⟨o, h1, h2, h3⟩ := ih _ hl x hx2
      refine ⟨o, by omega, ?_, h3⟩
      simp only [block_total_cons]; omega

/-- The blocks in front of a block of a contiguous list inside a 32-bit address
space start elsewhere. -/
theorem contiguous_start_ne (base : Nat) (pre : List mem_block_t) (cur : mem_block_t)
    (rest : List mem_block_t) (h : contiguous base 0 (pre ++ cur :: rest))
    (ht : block_total (pre ++ cur :: rest) ≤ 4294967296) :
    ∀ x ∈ pre, x.start_addr ≠ cur.start_addr := by
  intro x hx
  rw [contiguous_append] at h
  obtain ⟨hp, hc, _⟩ := h
  obtain ⟨o, _, h2, h3⟩ := contiguous_mem base pre 0 hp x hx
  simp only [block_total_append, block_total_cons, sizeof_mem_block_t] at *
  omega

/-! ## The allocator invariant -/

theorem not_both_free_left (a b : mem_block_t) (h : a.is_free = false) : not_both_free a b := by
  simp [not_both_free, h]

theorem not_both_free_right (a b : mem_block_t) (h : b.is_free = false) : not_both_free a b := by
  simp [not_both_free, h]

theorem not_free_of_left (a b : mem_block_t) (h : not_both_free a b) (ha : a.is_free = true) :
    b.is_free = false := by
  simp only [not_both_free, ha, true_and, Bool.not_eq_true] at h
  exact h

theorem not_free_of_right (a b : mem_block_t) (h : not_both_free a b) (hb : b.is_free = true) :
    a.is_free = false := by
  simp only [not_both_free, hb, and_true, Bool.not_eq_true] at h
  exact h

theorem kmalloc_scan_inv (base r : Nat) (l l2 : List mem_block_t) (p u : Nat)
    (h : list_inv base l) (hs : kmalloc_scan r l = some (l2, p, u)) :
    list_inv base l2 ∧ u ≤ HEAP_SIZE := by
  by_cases hfit : ∃ b ∈ l, fits r b
  · obtain ⟨pre, b, post, rfl, hpre, hb⟩ := exists_first_fit r l hfit
    rw [kmalloc_scan_first r pre b post hpre hb] at hs
    obtain ⟨hc, ht, hn⟩ := h
    rw [contiguous_append] at hc
    obtain ⟨hc1, hc2, hc3⟩ := hc
    obtain ⟨hbf, hbr⟩ := hb
    simp only [block_total_append, block_total_cons] at ht
    have hS : b.size + sizeof_mem_block_t ≤ HEAP_SIZE := by omega
    simp only [no_adjacent_free, List.chain'_append, List.chain'_cons', List.head?_cons,
      Option.mem_def, Option.some.injEq, forall_eq'] at hn
    obtain ⟨hn1, ⟨hn2, hn3⟩, hn4⟩ := hn
    simp only [HEAP_SIZE, sizeof_mem_block_t] at hS ht
    by_cases hsp : b.size > add32 (add32 r sizeof_mem_block_t) 8
    · rw [if_pos hsp] at hs
      simp only [Option.some.injEq, Prod.mk.injEq] at hs
      obtain ⟨rfl, rfl, rfl⟩ := hs
      simp only [add32, sizeof_mem_block_t] at hsp
      refine ⟨⟨?_, ?_, ?_⟩, by simp only [HEAP_SIZE]; omega⟩
      · rw [contiguous_append]
        refine ⟨hc1, hc2, ?_, ?_⟩
        · simp only [add32, sizeof_mem_block_t] at *
          omega
        · simp only [sub32, sizeof_mem_block_t] at *
          have e : (b.size + (4294967296 - r % 4294967296)) % 4294967296 = b.size - r := by omega
          have e2 : (b.size - r + (4294967296 - 20 % 4294967296)) % 4294967296
              = b.size - r - 20 := by omega
          rw [e, e2]
          have e3 : 0 + block_total pre + 20 + r + 20 + (b.size - r - 20)
              = 0 + block_total pre + 20 + b.size := by omega
          rw [e3]; exact hc3
      · simp only [block_total_append, block_total_cons, sub32, sizeof_mem_block_t, HEAP_SIZE]
        omega
      · simp only [no_adjacent_free, List.chain'_append, List.chain'_cons', List.head?_cons,
          Option.mem_def, Option.some.injEq, forall_eq']
        refine ⟨hn1, ⟨not_both_free_left _ _ rfl, ?_, hn3⟩, ?_⟩
        · intro y hy
          exact not_both_free_right _ _ (not_free_of_left _ _ (hn2 y hy) hbf)
        · intro x _
          exact not_both_free_right _ _ rfl
    · rw [if_neg hsp] at hs
      simp only [Option.some.injEq, Prod.mk.injEq] at hs
      obtain ⟨rfl, rfl, rfl⟩ := hs
      refine ⟨⟨?_, ?_, ?_⟩, by simp only [HEAP_SIZE]; omega⟩
      · rw [contiguous_append]
        exact ⟨hc1, hc2, hc3⟩
      · simp only [block_total_append, block_total_cons, sizeof_mem_block_t, HEAP_SIZE]
        omega
      · simp only [no_adjacent_free, List.chain'_append, List.chain'_cons', List.head?_cons,
          Option.mem_def, Option.some.injEq, forall_eq']
        refine ⟨hn1, ⟨?_, hn3⟩, ?_⟩
        · intro y _
          exact not_both_free_left _ _ rfl
        · intro x _
          exact not_both_free_right _ _ rfl
  · rw [kmalloc_scan_none r l (fun b hb hf => hfit ⟨b, hb, hf⟩)] at hs
    cases hs

theorem merge_next_inv (base off : Nat) (cur : mem_block_t) (rest : List mem_block_t)
    (hf : cur.is_free = true) (hc : contiguous base off (cur :: rest))
    (ht : block_total (cur :: rest) ≤ HEAP_SIZE) (hn : no_adjacent_free rest) :
    contiguous base off ((merge_next cur rest).1 :: (merge_next cur rest).2) ∧
      block_total ((merge_next cur rest).1 :: (merge_next cur rest).2)
        = block_total (cur :: rest) ∧
      no_adjacent_free ((merge_next cur rest).1 :: (merge_next cur rest).2) ∧
      (merge_next cur rest).1.is_free = true := by
  cases rest with
  | nil =>
    exact ⟨hc, rfl, List.chain'_singleton _, hf⟩
  | cons nxt rest2 =>
    by_cases hnf : nxt.is_free = true
    · simp only [merge_next]
      rw [if_pos hnf]
      simp only [contiguous, sizeof_mem_block_t] at hc
      obtain ⟨h1, h2, h3⟩ := hc
      simp only [block_total_cons, sizeof_mem_block_t, HEAP_SIZE] at ht
      have e : add32 cur.size (add32 sizeof_mem_block_t nxt.size) = cur.size + 20 + nxt.size := by
        simp only [add32, sizeof_mem_block_t]; omega
      rw [e]
      refine ⟨⟨h1, ?_⟩, ?_, ?_, hf⟩
      · have e2 : off + sizeof_mem_block_t + (cur.size + 20 + nxt.size)
            = off + 20 + cur.size + 20 + nxt.size := by simp only [sizeof_mem_block_t]; omega
        rw [e2]; exact h3
      · simp only [block_total_cons, sizeof_mem_block_t]; omega
      · simp only [no_adjacent_free, List.chain'_cons'] at hn ⊢
        refine ⟨?_, hn.2⟩
        intro y hy
        exact not_both_free_right _ _ (not_free_of_left _ _ (hn.1 y hy) hnf)
    · simp only [merge_next]
      rw [if_neg hnf]
      refine ⟨hc, rfl, ?_, hf⟩
      simp only [Bool.not_eq_true] at hnf
      exact List.Chain'.cons (not_both_free_right _ _ hnf) hn

theorem merge_prev_inv (base : Nat) (pre : List mem_block_t) (cur : mem_block_t)
    (rest : List mem_block_t) (hf : cur.is_free = true)
    (hc : contiguous base 0 (pre ++ cur :: rest))
    (ht : block_total (pre ++ cur :: rest) ≤ HEAP_SIZE)
    (hn1 : no_adjacent_free pre) (hn2 : no_adjacent_free (cur :: rest)) :
    contiguous base 0 (merge_prev pre.reverse cur rest) ∧
      block_total (merge_prev pre.reverse cur rest) = block_total (pre ++ cur :: rest) ∧
      no_adjacent_free (merge_prev pre.reverse cur rest) := by
  rcases List.eq_nil_or_concat pre with rfl | ⟨pre2, prev, rfl⟩
  · simp only [List.reverse_nil, merge_prev, List.nil_append] at *
    exact ⟨hc, trivial, hn2⟩
  · rw [List.concat_eq_append] at *
    rw [List.reverse_append, List.reverse_singleton, List.singleton_append]
    by_cases hpf : prev.is_free = true
    · simp only [merge_prev]
      rw [if_pos hpf]
      simp only [List.reverse_reverse]
      rw [List.append_assoc, contiguous_append] at hc
      simp only [List.singleton_append, contiguous, sizeof_mem_block_t] at hc
      obtain ⟨h1, h2, h3, h4⟩ := hc
      simp only [block_total_append, block_total_cons, block_total_nil, sizeof_mem_block_t,
        HEAP_SIZE] at ht
      have e : add32 prev.size (add32 sizeof_mem_block_t cur.size)
          = prev.size + 20 + cur.size := by
        simp only [add32, sizeof_mem_block_t]; omega
      rw [e]
      refine ⟨?_, ?_, ?_⟩
      · rw [contiguous_append]
        refine ⟨h1, h2, ?_⟩
        have e2 : 0 + block_total pre2 + sizeof_mem_block_t + (prev.size + 20 + cur.size)
            = 0 + block_total pre2 + 20 + prev.size + 20 + cur.size := by
          simp only [sizeof_mem_block_t]; omega
        rw [e2]; exact h4
      · simp only [block_total_append, block_total_cons, block_total_nil, sizeof_mem_block_t]
        omega
      · simp only [no_adjacent_free, List.chain'_append, List.chain'_cons', List.head?_cons,
          Option.mem_def, Option.some.injEq, forall_eq', List.head?_nil, List.chain'_nil,
          and_true] at hn1 hn2 ⊢
        refine ⟨hn1.1, ⟨?_, hn2.2⟩, ?_⟩
        · intro y hy
          exact not_both_free_right _ _ (not_free_of_left _ _ (hn2.1 y hy) hf)
        · intro x hx
          exact not_both_free_left _ _ (not_free_of_right _ _ (hn1.2.2 x hx) hpf)
    · simp only [merge_prev]
      rw [if_neg hpf]
      rw [List.reverse_cons, List.reverse_reverse]
      refine ⟨hc, rfl, ?_⟩
      simp only [Bool.not_eq_true] at hpf
      simp only [no_adjacent_free, List.chain'_append, List.chain'_cons', List.head?_cons,
          Option.mem_def, Option.some.injEq, forall_eq', List.head?_nil, List.chain'_nil,
          and_true, List.getLast?_append, List.getLast?_singleton] at hn1 hn2 ⊢
      refine ⟨⟨hn1.1, ?_, hn1.2.2⟩, hn2, ?_⟩
      · intro y hy; cases hy
      · intro x hx
        simp at hx
        subst hx
        exact not_both_free_left _ _ hpf

theorem kfree_scan_inv (base p : Nat) (l l2 : List mem_block_t) (u : Nat)
    (h : list_inv base l) (hs : kfree_scan p [] l = some (l2, u)) :
    list_inv base l2 ∧ u ≤ HEAP_SIZE := by
  by_cases hex : ∃ b ∈ l, b.start_addr = p
  · obtain ⟨pre, cur, rest, rfl, hpre, hcur⟩ := exists_first_start p l hex
    rw [kfree_scan_found p pre cur rest [] hpre hcur] at hs
    simp only [Option.some.injEq, Prod.mk.injEq, List.append_nil] at hs
    obtain ⟨rfl, rfl⟩ := hs
    obtain ⟨hc, ht, hn⟩ := h
    have hu : cur.size ≤ HEAP_SIZE := by
      simp only [block_total_append, block_total_cons] at ht; omega
    refine ⟨?_, hu⟩
    simp only [no_adjacent_free, List.chain'_append, List.chain'_cons'] at hn
    obtain ⟨hn1, ⟨_, hn3⟩, _⟩ := hn
    have hc0 := hc
    rw [contiguous_append] at hc
    obtain ⟨hc1, hc2⟩ := hc
    have ht2 : block_total ({ cur with is_free := true } :: rest) ≤ HEAP_SIZE := by
      simp only [block_total_append, block_total_cons] at ht ⊢; omega
    obtain ⟨m1, m2, m3, m4⟩ := merge_next_inv base (0 + block_total pre)
      { cur with is_free := true } rest rfl hc2 ht2 hn3
    have hc3 : contiguous base 0 (pre ++ (merge_next { cur with is_free := true } rest).1 ::
        (merge_next { cur with is_free := true } rest).2) := by
      rw [contiguous_append]; exact ⟨hc1, m1⟩
    have ht3 : block_total (pre ++ (merge_next { cur with is_free := true } rest).1 ::
        (merge_next { cur with is_free := true } rest).2) = HEAP_SIZE := by
      rw [block_total_append, m2, ← ht]
      simp only [block_total_append, block_total_cons]
    obtain ⟨q1, q2, q3⟩ := merge_prev_inv base pre _ _ m4 hc3 (le_of_eq ht3) hn1 m3
    exact ⟨q1, by rw [coalesce, q2, ht3], q3⟩
  · rw [kfree_scan_none p l [] (fun b hb hf => hex ⟨b, hb, hf⟩)] at hs
    cases hs

theorem memory_init_inv (kernel_end : Nat) :
    heap_inv (page_align kernel_end) (memory_init kernel_end) := by
  refine ⟨⟨?_, ?_, ?_⟩, ?_⟩
  · simp only [memory_init, contiguous, add32, and_true]
    simp
  · simp [memory_init, block_total, sub32, HEAP_SIZE, sizeof_mem_block_t]
  · exact List.chain'_singleton _
  · simp [memory_init]

theorem kmalloc_inv (base : Nat) (m : MemState) (n : Nat) (h : heap_inv base m) :
    heap_inv base (kmalloc m n).1 := by
  unfold kmalloc
  by_cases hn : n = 0
  · simp only [hn, if_true]; exact h
  · simp only [hn, if_false]
    cases hs : kmalloc_scan (align8 n) m.free_list with
    | none => exact h
    | some r =>
      obtain ⟨l, p, u⟩ := r
      obtain ⟨h1, _⟩ := kmalloc_scan_inv base _ _ _ _ _ h.1 hs
      exact ⟨h1, Nat.mod_lt _ (by norm_num)⟩

theorem kfree_inv (base : Nat) (m : MemState) (p : Nat) (h : heap_inv base m) :
    heap_inv base (kfree m p) := by
  unfold kfree
  by_cases hp : p = 0
  · simp only [hp, if_true]; exact h
  · simp only [hp, if_false]
    cases hs : kfree_scan p [] m.free_list with
    | none => exact h
    | some r =>
      obtain ⟨l, u⟩ := r
      obtain ⟨h1, _⟩ := kfree_scan_inv base _ _ _ _ h.1 hs
      exact ⟨h1, Nat.mod_lt _ (by norm_num)⟩

theorem heap_run_inv (base : Nat) (calls : List HeapCall) (m : MemState) (h : heap_inv base m) :
    heap_inv base (heap_run m calls) := by
  induction calls generalizing m with
  | nil => exact h
  | cons c cs ih =>
    simp only [heap_run, List.foldl_cons]
    apply ih
    cases c with
    | malloc n => exact kmalloc_inv base m n h
    | free p => exact kfree_inv base m p h

theorem merge_next_not_free (cur : mem_block_t) (rest : List mem_block_t)
    (h : ∀ y ∈ rest.head?, y.is_free = false) : merge_next cur rest = (cur, rest) := by
  cases rest with
  | nil => rfl
  | cons nxt rest2 =>
    have hn : ¬ nxt.is_free = true := by
      rw [h nxt (by simp)]; decide
    simp only [merge_next]
    rw [if_neg hn]

theorem merge_prev_not_free (pre : List mem_block_t) (cur : mem_block_t)
    (rest : List mem_block_t) (h : ∀ x ∈ pre.getLast?, x.is_free = false) :
    merge_prev pre.reverse cur rest = pre ++ cur :: rest := by
  rcases List.eq_nil_or_concat pre with rfl | ⟨pre2, prev, rfl⟩
  · rfl
  · rw [List.concat_eq_append] at *
    have hp : ¬ prev.is_free = true := by
      rw [h prev (by simp)]; decide
    rw [List.reverse_append, List.reverse_singleton, List.singleton_append]
    simp only [merge_prev]
    rw [if_neg hp, List.reverse_cons, List.reverse_reverse]

theorem sub32_add32_cancel (a u : Nat) (ha : a < 4294967296) :
    sub32 (add32 a u) u = a := by
  simp only [sub32, add32]; omega

/-- Freeing the address that `kmalloc` just returned undoes the allocation, in
every state that satisfies the allocator invariant. -/
theorem kfree_kmalloc_inv (base : Nat) (m : MemState) (n : Nat) (h : heap_inv base m)
    (hp : (kmalloc m n).2 ≠ 0) : kfree (kmalloc m n).1 (kmalloc m n).2 = m := by
  obtain ⟨⟨hc, ht, hn⟩, hu⟩ := h
  unfold kmalloc at hp ⊢
  by_cases hn0 : n = 0
  · simp only [hn0, if_true] at hp; exact absurd rfl hp
  · simp only [hn0, if_false] at hp ⊢
    by_cases hfit : ∃ b ∈ m.free_list, fits (align8 n) b
    · obtain ⟨pre, b, post, hl, hpre, hb⟩ := exists_first_fit _ _ hfit
      have hne := contiguous_start_ne base pre b post (hl ▸ hc)
        (by rw [← hl, ht]; simp [HEAP_SIZE])
      rw [hl] at hn ht
      simp only [no_adjacent_free, List.chain'_append, List.chain'_cons', List.head?_cons,
        Option.mem_def, Option.some.injEq, forall_eq'] at hn
      obtain ⟨_, ⟨hn2, _⟩, hn4⟩ := hn
      have hlast : ∀ x ∈ pre.getLast?, x.is_free = false :=
        fun x hx => not_free_of_right _ _ (hn4 x hx) hb.1
      have hhead : ∀ y ∈ post.head?, y.is_free = false :=
        fun y hy => not_free_of_left _ _ (hn2 y hy) hb.1
      simp only [block_total_append, block_total_cons, HEAP_SIZE, sizeof_mem_block_t] at ht
      obtain ⟨hbf, hbr⟩ := hb
      have hb2 : fits (align8 n) b := ⟨hbf, hbr⟩
      rw [hl, kmalloc_scan_first _ pre b post hpre hb2] at hp ⊢
      by_cases hsp : b.size > add32 (add32 (align8 n) sizeof_mem_block_t) 8
      · rw [if_pos hsp] at hp ⊢
        simp only at hp ⊢
        unfold kfree
        simp only [hp, if_false]
        rw [kfree_scan_found b.start_addr pre
          { start_addr := b.start_addr, size := align8 n, is_free := false } _ [] hne rfl]
        simp only [List.append_nil, coalesce, merge_next, if_true]
        simp only [add32, sizeof_mem_block_t] at hsp
        have e : add32 (align8 n)
            (add32 sizeof_mem_block_t (sub32 (sub32 b.size (align8 n)) sizeof_mem_block_t))
            = b.size := by
          simp only [add32, sub32, sizeof_mem_block_t]; omega
        rw [e, merge_prev_not_free pre _ post hlast,
          sub32_add32_cancel _ _ hu]
        cases m; cases b
        simp only at hl hbf
        subst hl; subst hbf
        rfl
      · rw [if_neg hsp] at hp ⊢
        simp only at hp ⊢
        unfold kfree
        simp only [hp, if_false]
        rw [kfree_scan_found b.start_addr pre
          { start_addr := b.start_addr, size := b.size, is_free := false } _ [] hne rfl]
        simp only [List.append_nil, coalesce]
        rw [merge_next_not_free _ post hhead, merge_prev_not_free pre _ post hlast,
          sub32_add32_cancel _ _ hu]
        cases m; cases b
        simp only at hl hbf
        subst hl; subst hbf
        rfl
    · rw [kmalloc_scan_none _ _ (fun b hb hf => hfit ⟨b, hb, hf⟩)] at hp
      exact absurd rfl hp

/-- A request that is larger than every free block and at most `2^32 - 8` is refused
and changes nothing. -/
theorem kmalloc_out_of_memory (m : MemState) (n : Nat) (hn : n ≤ 4294967288)
    (h : ∀ b ∈ m.free_list, b.is_free = true → b.size < n) : kmalloc m n = (m, 0) := by
  unfold kmalloc
  by_cases hn0 : n = 0
  · simp [hn0]
  · simp only [hn0, if_false]
    rw [kmalloc_scan_none]
    intro b hb hf
    have := h b hb hf.1
    have h2 := hf.2
    rw [align8_of_le n hn] at h2
    omega

/-- In a state that satisfies the allocator invariant for an arena that lies
below `2^32`, every block has a non-null start address, is no larger than the
arena and ends inside the 32-bit address space. -/
theorem heap_inv_block_bounds (base : Nat) (m : MemState) (h : heap_inv base m)
    (hb : base + HEAP_SIZE < 4294967296) :
    ∀ b ∈ m.free_list, b.start_addr ≠ 0 ∧ b.size ≤ HEAP_SIZE ∧
      b.start_addr + b.size ≤ 4294967296 := by
  intro b hbm
  obtain ⟨⟨hc, ht, _⟩, _⟩ := h
  obtain ⟨o, _, h2, h3⟩ := contiguous_mem base _ 0 hc b hbm
  rw [ht] at h2
  simp only [HEAP_SIZE, sizeof_mem_block_t] at *
  omega

/-! ## The claims on the heap allocator -/

/-- C1 (allocator conservation): after `memory_init` and any finite sequence of
`kmalloc` / `kfree` calls, with any sizes and any addresses, the sizes of all
blocks of the block list plus one 20-byte header per block add up to `HEAP_SIZE`. -/
theorem allocator_conservation (kernel_end : Nat) (calls : List HeapCall) :
    block_total (heap_run (memory_init kernel_end) calls).free_list = HEAP_SIZE :=
  (heap_run_inv _ calls _ (memory_init_inv kernel_end)).1.2.1

/-- C2 (no adjacent free blocks): after `memory_init` and any finite sequence of
`kmalloc` / `kfree` calls, immediately after a further `kfree` call no two
neighbours of the block list are both free. -/
theorem no_adjacent_free_after_kfree (kernel_end : Nat) (calls : List HeapCall) (ptr : Nat) :
    no_adjacent_free (kfree (heap_run (memory_init kernel_end) calls) ptr).free_list :=
  (kfree_inv _ _ ptr (heap_run_inv _ calls _ (memory_init_inv kernel_end))).1.2.2

/-- C3 (out of memory), failing input: right after `memory_init` the free blocks
hold 1048556 bytes; the request `0xFFFFFFFF` exceeds that, but its rounding
`(size + 7) & ~7` wraps to 0, so `kmalloc` returns the non-null address 1048596
and splits the block list instead of returning `NULL` and leaving it unchanged. -/
theorem kmalloc_huge_request_succeeds :
    free_total (memory_init 0x100000).free_list = 1048556 ∧
      free_total (memory_init 0x100000).free_list < 0xFFFFFFFF ∧
      align8 0xFFFFFFFF = 0 ∧
      (kmalloc (memory_init 0x100000) 0xFFFFFFFF).2 = 1048596 ∧
      (kmalloc (memory_init 0x100000) 0xFFFFFFFF).1.free_list =
        [{ start_addr := 1048596, size := 0, is_free := false },
         { start_addr := 1048616, size := 1048536, is_free := true }] ∧
      (kmalloc (memory_init 0x100000) 0xFFFFFFFF).1.free_list ≠
        (memory_init 0x100000).free_list := by
  decide

/-- C4 (allocation exactness): in every state reached from `memory_init` by
`kmalloc` / `kfree` calls, if `kmalloc n` with `n > 0` returns a non-null
address, then `kfree` of that address, called immediately afterwards, gives back
the state before the `kmalloc`: the same block list (start address, size and free
flag of every block, in order) and the same used-bytes counter. -/
theorem kmalloc_kfree_round_trip (kernel_end : Nat) (calls : List HeapCall) (n : Nat)
    (hn : 0 < n)
    (hp : (kmalloc (heap_run (memory_init kernel_end) calls) n).2 ≠ 0) :
    (kfree (kmalloc (heap_run (memory_init kernel_end) calls) n).1
        (kmalloc (heap_run (memory_init kernel_end) calls) n).2).free_list
        = (heap_run (memory_init kernel_end) calls).free_list ∧
      (kfree (kmalloc (heap_run (memory_init kernel_end) calls) n).1
        (kmalloc (heap_run (memory_init kernel_end) calls) n).2).heap_used
        = (heap_run (memory_init kernel_end) calls).heap_used := by
  have _ := hn
  rw [kfree_kmalloc_inv _ _ n (heap_run_inv _ calls _ (memory_init_inv kernel_end)) hp]
  exact ⟨rfl, rfl⟩

theorem kmalloc_kfree_round_trip_witness :
    0 < 100 ∧
      (kmalloc (heap_run (memory_init 0x100000) [.malloc 24, .malloc 40, .free 1048596]) 100).2
        ≠ 0 ∧
      (kfree (kmalloc (heap_run (memory_init 0x100000)
          [.malloc 24, .malloc 40, .free 1048596]) 100).1
        (kmalloc (heap_run (memory_init 0x100000)
          [.malloc 24, .malloc 40, .free 1048596]) 100).2).free_list
        = (heap_run (memory_init 0x100000) [.malloc 24, .malloc 40, .free 1048596]).free_list ∧
      (kfree (kmalloc (heap_run (memory_init 0x100000)
          [.malloc 24, .malloc 40, .free 1048596]) 100).1
        (kmalloc (heap_run (memory_init 0x100000)
          [.malloc 24, .malloc 40, .free 1048596]) 100).2).heap_used
        = (heap_run (memory_init 0x100000) [.malloc 24, .malloc 40, .free 1048596]).heap_used :=
  ⟨by decide, by decide,
    kmalloc_kfree_round_trip 0x100000 [.malloc 24, .malloc 40, .free 1048596] 100
      (by decide) (by decide)⟩

/-- C5 (first fit): in every heap state whose blocks have non-null start
addresses and for every request `1 ≤ n ≤ 2^32 - 8`, with `r` the request rounded
up to a multiple of 8: `kmalloc n` returns `NULL` exactly when no free block has
size at least `r`; and when `b` is the first block in list order that is free
with size at least `r`, `kmalloc n` returns the start address of `b`, every
block in front of `b` is unchanged, and the block at the place of `b` keeps the
start address of `b` and is marked non-free. -/
theorem kmalloc_first_fit (m : MemState) (n : Nat) (h1 : 1 ≤ n) (h2 : n ≤ 4294967288)
    (hnz : ∀ b ∈ m.free_list, b.start_addr ≠ 0) :
    ((kmalloc m n).2 = 0 ↔ ∀ b ∈ m.free_list, ¬ fits (round_up8 n) b) ∧
      ∀ pre b post, m.free_list = pre ++ b :: post →
        (∀ x ∈ pre, ¬ fits (round_up8 n) x) → fits (round_up8 n) b →
        (kmalloc m n).2 = b.start_addr ∧
          ∃ a rest, (kmalloc m n).1.free_list = pre ++ a :: rest ∧
            a.start_addr = b.start_addr ∧ a.is_free = false := by
  have hn0 : ¬ n = 0 := by omega
  have hr : align8 n = round_up8 n := align8_of_le n h2
  have key : ∀ pre b post, m.free_list = pre ++ b :: post →
      (∀ x ∈ pre, ¬ fits (round_up8 n) x) → fits (round_up8 n) b →
      (kmalloc m n).2 = b.start_addr ∧
        ∃ a rest, (kmalloc m n).1.free_list = pre ++ a :: rest ∧
          a.start_addr = b.start_addr ∧ a.is_free = false := by
    intro pre b post hl hpre hb
    unfold kmalloc
    simp only [hn0, if_false]
    rw [hr, hl, kmalloc_scan_first _ pre b post hpre hb]
    by_cases hsp : b.size > add32 (add32 (round_up8 n) sizeof_mem_block_t) 8
    · rw [if_pos hsp]
      exact ⟨rfl, _, _, rfl, rfl, rfl⟩
    · rw [if_neg hsp]
      exact ⟨rfl, _, _, rfl, rfl, rfl⟩
  refine ⟨⟨?_, ?_⟩, key⟩
  · intro h0 b hb hf
    obtain ⟨pre, b2, post, hl, hpre, hb2⟩ := exists_first_fit _ _ ⟨b, hb, hf⟩
    have hk := (key pre b2 post hl hpre hb2).1
    rw [h0] at hk
    exact hnz b2 (by rw [hl]; simp) hk.symm
  · intro hno
    unfold kmalloc
    simp only [hn0, if_false]
    rw [hr, kmalloc_scan_none _ _ hno]

theorem kmalloc_first_fit_witness :
    (1 ≤ 100 ∧ 100 ≤ 4294967288 ∧
      ∀ b ∈ (heap_run (memory_init 0x100000)
          [.malloc 24, .malloc 40, .free 1048596]).free_list, b.start_addr ≠ 0) ∧
    (((kmalloc (heap_run (memory_init 0x100000) [.malloc 24, .malloc 40, .free 1048596])
          100).2 = 0 ↔
        ∀ b ∈ (heap_run (memory_init 0x100000)
          [.malloc 24, .malloc 40, .free 1048596]).free_list, ¬ fits (round_up8 100) b) ∧
      ∀ pre b post,
        (heap_run (memory_init 0x100000) [.malloc 24, .malloc 40, .free 1048596]).free_list
          = pre ++ b :: post →
        (∀ x ∈ pre, ¬ fits (round_up8 100) x) → fits (round_up8 100) b →
        (kmalloc (heap_run (memory_init 0x100000) [.malloc 24, .malloc 40, .free 1048596])
            100).2 = b.start_addr ∧
          ∃ a rest,
            (kmalloc (heap_run (memory_init 0x100000) [.malloc 24, .malloc 40, .free 1048596])
              100).1.free_list = pre ++ a :: rest ∧
            a.start_addr = b.start_addr ∧ a.is_free = false) :=
  ⟨⟨by decide, by decide, by decide⟩,
    kmalloc_first_fit (heap_run (memory_init 0x100000) [.malloc 24, .malloc 40, .free 1048596])
      100 (by decide) (by decide) (by decide)⟩

/-- C6 (split rule): let `b`, of size `S` at address `a`, be the block chosen by
a successful `kmalloc n` with `1 ≤ n ≤ 2^32 - 8` and rounded request `r`, in a
heap whose blocks are no larger than the arena and lie inside the 32-bit address
space, and let `H = sizeof(mem_block_t)`.  If `S > r + H + 8`, the block is
replaced by an allocated block at `a` of size exactly `r`, followed immediately
by a new free block at `a + r + H` of size `S - r - H`.  Otherwise the block is
allocated whole, keeping size `S`, and the slack `S - r` is at most `H + 8`. -/
theorem kmalloc_split_rule (m : MemState) (n : Nat) (pre : List mem_block_t) (b : mem_block_t)
    (post : List mem_block_t) (h1 : 1 ≤ n) (h2 : n ≤ 4294967288)
    (hl : m.free_list = pre ++ b :: post) (hpre : ∀ x ∈ pre, ¬ fits (round_up8 n) x)
    (hb : fits (round_up8 n) b) (hsz : b.size ≤ HEAP_SIZE)
    (haddr : b.start_addr + b.size ≤ 4294967296) :
    (kmalloc m n).2 = b.start_addr ∧
      (b.size > round_up8 n + sizeof_mem_block_t + 8 →
        (kmalloc m n).1.free_list =
          pre ++ { start_addr := b.start_addr, size := round_up8 n, is_free := false } ::
            { start_addr := b.start_addr + round_up8 n + sizeof_mem_block_t,
              size := b.size - round_up8 n - sizeof_mem_block_t, is_free := true } :: post) ∧
      (¬ b.size > round_up8 n + sizeof_mem_block_t + 8 →
        (kmalloc m n).1.free_list =
          pre ++ { start_addr := b.start_addr, size := b.size, is_free := false } :: post ∧
        b.size - round_up8 n ≤ sizeof_mem_block_t + 8) := by
  have hn0 : ¬ n = 0 := by omega
  have hr : align8 n = round_up8 n := align8_of_le n h2
  have hbr : round_up8 n ≤ b.size := hb.2
  simp only [HEAP_SIZE] at hsz
  have e1 : add32 (add32 (round_up8 n) sizeof_mem_block_t) 8
      = round_up8 n + sizeof_mem_block_t + 8 := by
    simp only [add32, sizeof_mem_block_t]; omega
  unfold kmalloc
  simp only [hn0, if_false]
  rw [hr, hl, kmalloc_scan_first _ pre b post hpre hb, e1]
  by_cases hsp : b.size > round_up8 n + sizeof_mem_block_t + 8
  · rw [if_pos hsp]
    refine ⟨rfl, fun _ => ?_, fun hc => absurd hsp hc⟩
    simp only [sizeof_mem_block_t] at hsp
    have e2 : add32 (add32 b.start_addr (round_up8 n)) sizeof_mem_block_t
        = b.start_addr + round_up8 n + sizeof_mem_block_t := by
      simp only [add32, sizeof_mem_block_t]; omega
    have e3 : sub32 (sub32 b.size (round_up8 n)) sizeof_mem_block_t
        = b.size - round_up8 n - sizeof_mem_block_t := by
      simp only [sub32, sizeof_mem_block_t]; omega
    simp only [e2, e3]
  · rw [if_neg hsp]
    refine ⟨rfl, fun hc => absurd hc hsp, fun _ => ⟨rfl, ?_⟩⟩
    omega

theorem kmalloc_split_rule_witness :
    (1 ≤ 100 ∧ 100 ≤ 4294967288 ∧
      (memory_init 0x100000).free_list
        = [] ++ { start_addr := 1048596, size := 1048556, is_free := true } :: [] ∧
      (∀ x ∈ ([] : List mem_block_t), ¬ fits (round_up8 100) x) ∧
      fits (round_up8 100) { start_addr := 1048596, size := 1048556, is_free := true } ∧
      1048556 ≤ HEAP_SIZE ∧ 1048596 + 1048556 ≤ 4294967296) ∧
    (kmalloc (memory_init 0x100000) 100).2 = 1048596 ∧
      (1048556 > round_up8 100 + sizeof_mem_block_t + 8 →
        (kmalloc (memory_init 0x100000) 100).1.free_list =
          [] ++ { start_addr := 1048596, size := round_up8 100, is_free := false } ::
            { start_addr := 1048596 + round_up8 100 + sizeof_mem_block_t,
              size := 1048556 - round_up8 100 - sizeof_mem_block_t, is_free := true } :: []) ∧
      (¬ 1048556 > round_up8 100 + sizeof_mem_block_t + 8 →
        (kmalloc (memory_init 0x100000) 100).1.free_list =
          [] ++ { start_addr := 1048596, size := 1048556, is_free := false } :: [] ∧
        1048556 - round_up8 100 ≤ sizeof_mem_block_t + 8) :=
  ⟨⟨by decide, by decide, by decide, by decide, by decide, by decide, by decide⟩,
    kmalloc_split_rule (memory_init 0x100000) 100 []
      { start_addr := 1048596, size := 1048556, is_free := true } []
      (by decide) (by decide) (by decide) (by decide) (by decide) (by decide) (by decide)⟩

/-- C7 (invalid free is harmless): in every heap state, `kfree` of an address
that is `NULL` or is not the start address of any block of the block list leaves
the state unchanged, in particular the block list and the used-bytes counter. -/
theorem kfree_invalid_unchanged (m : MemState) (p : Nat)
    (h : p = 0 ∨ ∀ b ∈ m.free_list, b.start_addr ≠ p) : kfree m p = m := by
  unfold kfree
  by_cases hp : p = 0
  · simp only [hp, if_true]
  · simp only [hp, if_false]
    rcases h with h | h
    · exact absurd h hp
    · rw [kfree_scan_none p _ [] h]

theorem kfree_invalid_unchanged_witness :
    (1048600 = 0 ∨ ∀ b ∈ (heap_run (memory_init 0x100000) [.malloc 24]).free_list,
        b.start_addr ≠ 1048600) ∧
      kfree (heap_run (memory_init 0x100000) [.malloc 24]) 1048600
        = heap_run (memory_init 0x100000) [.malloc 24] :=
  ⟨by decide, kfree_invalid_unchanged _ 1048600 (by decide)⟩

/-- Every call of `create_process` that returns either fails with `-1` and keeps
the pid counter, or returns the value of the pid counter and advances it by one. -/
theorem create_process_pid_counter (k : Kernel) (e : Nat) (name : Option (List Nat))
    (k2 : Kernel) (p : Int) (h : create_process k e name = some (k2, p)) :
    (p = -1 ∧ k2.next_pid = k.next_pid) ∨ (p = k.next_pid ∧ k2.next_pid = k.next_pid + 1) := by
  unfold create_process at h
  split at h
  · simp only [Option.some.injEq, Prod.mk.injEq] at h
    obtain ⟨rfl, rfl⟩ := h
    exact Or.inl ⟨rfl, rfl⟩
  · split at h
    · simp only [Option.some.injEq, Prod.mk.injEq] at h
      obtain ⟨rfl, rfl⟩ := h
      exact Or.inl ⟨rfl, rfl⟩
    · simp only at h
      split at h
      · simp only [Option.some.injEq, Prod.mk.injEq] at h
        obtain ⟨rfl, rfl⟩ := h
        exact Or.inl ⟨rfl, rfl⟩
      · split at h
        · cases h
        · split at h
          · cases h
          · split at h
            · cases h
            · simp only [Option.some.injEq, Prod.mk.injEq] at h
              obtain ⟨rfl, rfl⟩ := h
              exact Or.inr ⟨rfl, rfl⟩

/-- The call `terminate_process` keeps the pid counter. -/
theorem terminate_process_pid_counter (k : Kernel) (pid : Int) :
    (terminate_process k pid).next_pid = k.next_pid := by
  unfold terminate_process
  split
  · rfl
  · split
    · rfl
    · split <;> rfl

/-! ## The claims on the process table and the scheduler -/

/-- C8 (pid uniqueness), failing input: after the initialisation, processes "a"
and "b" are created (pids 1 and 2, slots 1 and 2), pid 1 is terminated, and a
process with the 16-character name "InitializerProc1" is created.  It gets pid 3
and slot 1; the terminating `0` of its name is the 17th byte stored from the
4-byte field `page_directory` on and lands on the lowest byte of the pid of
slot 2, which turns from 2 into 0.  The returned pids 1, 2, 3 are increasing,
but two live PCBs now hold pid 0: the null process (state `CURRENT`) and the
process created as pid 2 (state `READY`), and no live PCB holds pid 2. -/
theorem long_name_duplicates_pid :
    reuse_slot_long_name.map (fun r => (r.2, live_pids r.1)) =
      some ([1, 2, 3], [(0, CURRENT), (3, READY), (0, READY)]) := by
  decide

/-- C9 (single running process), failing input: `kmain` itself.  After its
initialisation, the creation and queueing of its three processes and two
rounds of `timer_tick(); schedule();`, the PCBs of pid 1 and of pid 2 are both
in state `CURRENT`, and after the third round all three are, because
`context_switch` never assigns `current_pid`: `get_current_process` keeps
returning the PCB of pid 0, which is in state `READY` from the first switch on,
so no process is switched out again. -/
theorem kmain_two_current :
    (kmain_rounds 1).map live_pids = some [(0, READY), (1, CURRENT), (2, READY), (3, READY)] ∧
      (kmain_rounds 2).map live_pids
        = some [(0, READY), (1, CURRENT), (2, CURRENT), (3, READY)] ∧
      (kmain_rounds 2).map count_current = some 2 ∧
      (kmain_rounds 3).map count_current = some 3 ∧
      (kmain_rounds 2).map get_current_pid = some 0 := by
  decide

/-- C10 (termination and the ready queue), failing input: a process is created
(pid 1), put on the ready queue and terminated with `terminate_process(1)`.
Afterwards the ready queue still holds its PCB (slot 1), which is now in state
`TERMINATED` with pid `-1`: `terminate_process` frees the stack and the
messages but never calls `remove_from_ready_queue`.  The next `schedule` picks
this PCB and puts it in state `CURRENT`. -/
theorem terminate_leaves_pcb_queued :
    terminate_queued.map ready_queue_slots = some (some [1]) ∧
      terminate_queued.map ready_queue_pcbs = some (some [(-1, TERMINATED)]) ∧
      terminate_queued.map live_pids = some [(0, CURRENT)] ∧
      terminate_queued_schedule.map (fun k => slot_pid_state k 1)
        = some (some (-1, CURRENT)) := by
  decide

/-! ## Further claims on the heap allocator -/

theorem contiguous_follows (base : Nat) (l : List mem_block_t) (off : Nat)
    (h : contiguous base off l) (hb : base + off + block_total l < 4294967296) :
    l.Chain' follows ∧ (∀ b ∈ l.head?, b.start_addr = base + off + sizeof_mem_block_t) ∧
      (∀ b ∈ l.getLast?, b.start_addr + b.size = base + off + block_total l) := by
  induction l generalizing off with
  | nil => simp
  | cons a rest ih =>
    obtain ⟨ha, hr⟩ := h
    simp only [block_total_cons, sizeof_mem_block_t] at hb
    simp only [sizeof_mem_block_t] at ha
    have ha2 : a.start_addr = base + off + 20 := by omega
    obtain ⟨i1, i2, i3⟩ := ih (off + sizeof_mem_block_t + a.size) hr
      (by simp only [sizeof_mem_block_t]; omega)
    refine ⟨?_, ?_, ?_⟩
    · rw [List.chain'_cons']
      refine ⟨?_, i1⟩
      intro c hc
      have := i2 c hc
      simp only [follows, sizeof_mem_block_t] at *
      omega
    · intro b hb2
      simp only [List.head?_cons, Option.mem_def, Option.some.injEq] at hb2
      subst hb2
      simp only [sizeof_mem_block_t]; exact ha2
    · intro b hb2
      cases rest with
      | nil =>
        simp only [List.getLast?_singleton, Option.mem_def, Option.some.injEq] at hb2
        subst hb2
        simp only [block_total_cons, block_total_nil, sizeof_mem_block_t]; omega
      | cons c rest2 =>
        rw [List.getLast?_cons_cons] at hb2
        have := i3 b hb2
        simp only [block_total_cons, sizeof_mem_block_t] at *
        omega

/-- C22 (contiguous address-ordered partition): after `memory_init` and any
finite sequence of `kmalloc` / `kfree` calls, for an arena that lies below `2^32`:
the header of the first block sits at the arena base (its payload starts one
header behind it), every block is followed by its list successor at
`start + size + sizeof(mem_block_t)`, so the start addresses increase strictly,
and the last block ends exactly at arena base + `HEAP_SIZE`. -/
theorem contiguous_partition (kernel_end : Nat) (calls : List HeapCall)
    (harena : page_align kernel_end + HEAP_SIZE < 4294967296) :
    (∃ b rest, (heap_run (memory_init kernel_end) calls).free_list = b :: rest ∧
        b.start_addr = page_align kernel_end + sizeof_mem_block_t) ∧
      (heap_run (memory_init kernel_end) calls).free_list.Chain' follows ∧
      (heap_run (memory_init kernel_end) calls).free_list.Chain'
        (fun b c => b.start_addr < c.start_addr) ∧
      (∃ b, (heap_run (memory_init kernel_end) calls).free_list.getLast? = some b ∧
        b.start_addr + b.size = page_align kernel_end + HEAP_SIZE) := by
  obtain ⟨⟨hc, ht, _⟩, _⟩ := heap_run_inv _ calls _ (memory_init_inv kernel_end)
  obtain ⟨h1, h2, h3⟩ := contiguous_follows _ _ 0 hc (by rw [ht]; omega)
  generalize (heap_run (memory_init kernel_end) calls).free_list = l at *
  have hne : l ≠ [] := by
    rintro rfl
    simp [HEAP_SIZE] at ht
  refine ⟨?_, h1, ?_, ?_⟩
  · cases l with
    | nil => exact absurd rfl hne
    | cons b rest => exact ⟨b, rest, rfl, by simpa using h2 b (by simp)⟩
  · refine List.Chain'.imp ?_ h1
    intro b c hbc
    simp only [follows, sizeof_mem_block_t] at hbc
    omega
  · obtain ⟨b, hb⟩ := Option.ne_none_iff_exists'.mp
      (fun hn => hne (List.getLast?_eq_none_iff.mp hn))
    refine ⟨b, hb, ?_⟩
    have := h3 b hb
    rw [ht] at this
    omega

theorem contiguous_partition_witness :
    page_align 0x100000 + HEAP_SIZE < 4294967296 ∧
    ((∃ b rest, (heap_run (memory_init 0x100000) [.malloc 24, .malloc 40, .free 1048596]).free_list
          = b :: rest ∧
        b.start_addr = page_align 0x100000 + sizeof_mem_block_t) ∧
      (heap_run (memory_init 0x100000) [.malloc 24, .malloc 40, .free 1048596]).free_list.Chain'
        follows ∧
      (heap_run (memory_init 0x100000) [.malloc 24, .malloc 40, .free 1048596]).free_list.Chain'
        (fun b c => b.start_addr < c.start_addr) ∧
      (∃ b, (heap_run (memory_init 0x100000)
          [.malloc 24, .malloc 40, .free 1048596]).free_list.getLast? = some b ∧
        b.start_addr + b.size = page_align 0x100000 + HEAP_SIZE)) :=
  ⟨by decide, contiguous_partition 0x100000 [.malloc 24, .malloc 40, .free 1048596] (by decide)⟩

/-- Every block size of the list is a multiple of 4. -/
theorem kmalloc_scan_sizes4 (r : Nat) (l l2 : List mem_block_t) (p u : Nat)
    (hr : r % 4 = 0) (h : ∀ b ∈ l, b.size % 4 = 0)
    (hs : kmalloc_scan r l = some (l2, p, u)) : ∀ b ∈ l2, b.size % 4 = 0 := by
  by_cases hfit : ∃ b ∈ l, fits r b
  · obtain ⟨pre, b, post, rfl, hpre, hb⟩ := exists_first_fit r l hfit
    rw [kmalloc_scan_first r pre b post hpre hb] at hs
    have hb4 : b.size % 4 = 0 := h b (by simp)
    by_cases hsp : b.size > add32 (add32 r sizeof_mem_block_t) 8
    · rw [if_pos hsp] at hs
      simp only [Option.some.injEq, Prod.mk.injEq] at hs
      obtain ⟨rfl, _, _⟩ := hs
      intro x hx
      simp only [List.mem_append, List.mem_cons] at hx
      rcases hx with hx | rfl | rfl | hx
      · exact h x (by simp [hx])
      · exact hr
      · simp only [sub32, sizeof_mem_block_t]; omega
      · exact h x (by simp [hx])
    · rw [if_neg hsp] at hs
      simp only [Option.some.injEq, Prod.mk.injEq] at hs
      obtain ⟨rfl, _, _⟩ := hs
      intro x hx
      simp only [List.mem_append, List.mem_cons] at hx
      rcases hx with hx | rfl | hx
      · exact h x (by simp [hx])
      · exact hb4
      · exact h x (by simp [hx])
  · rw [kmalloc_scan_none r l (fun b hb hf => hfit ⟨b, hb, hf⟩)] at hs
    cases hs

theorem coalesce_sizes4 (pre : List mem_block_t) (cur : mem_block_t) (rest : List mem_block_t)
    (h : ∀ b ∈ pre ++ cur :: rest, b.size % 4 = 0) :
    ∀ b ∈ coalesce pre.reverse cur rest, b.size % 4 = 0 := by
  have hc : cur.size % 4 = 0 := h cur (by simp)
  have hm : (merge_next { cur with is_free := true } rest).1.size % 4 = 0 ∧
      ∀ b ∈ (merge_next { cur with is_free := true } rest).2, b ∈ rest := by
    cases rest with
    | nil => exact ⟨hc, fun b hb => hb⟩
    | cons nxt rest2 =>
      have hn : nxt.size % 4 = 0 := h nxt (by simp)
      by_cases hnf : nxt.is_free = true
      · simp only [merge_next]
        rw [if_pos hnf]
        refine ⟨?_, fun b hb => List.mem_cons_of_mem _ hb⟩
        simp only [add32, sizeof_mem_block_t]; omega
      · simp only [merge_next]
        rw [if_neg hnf]
        exact ⟨hc, fun b hb => hb⟩
  obtain ⟨hm1, hm2⟩ := hm
  have hrest : ∀ b ∈ (merge_next { cur with is_free := true } rest).2, b.size % 4 = 0 :=
    fun b hb => h b (by simp [hm2 b hb])
  unfold coalesce
  simp only
  generalize (merge_next { cur with is_free := true } rest).1 = c1 at *
  generalize (merge_next { cur with is_free := true } rest).2 = r1 at *
  rcases List.eq_nil_or_concat pre with rfl | ⟨pre2, prev, rfl⟩
  · intro b hb
    simp only [List.reverse_nil, merge_prev, List.mem_cons] at hb
    rcases hb with rfl | hb
    · exact hm1
    · exact hrest b hb
  · rw [List.concat_eq_append] at *
    have hp : prev.size % 4 = 0 := h prev (by simp)
    rw [List.reverse_append, List.reverse_singleton, List.singleton_append]
    intro b hb
    by_cases hpf : prev.is_free = true
    · simp only [merge_prev] at hb
      rw [if_pos hpf] at hb
      simp only [List.reverse_reverse, List.mem_append, List.mem_cons] at hb
      rcases hb with hb | rfl | hb
      · exact h b (by simp [hb])
      · simp only [add32, sizeof_mem_block_t]; omega
      · exact hrest b hb
    · simp only [merge_prev] at hb
      rw [if_neg hpf] at hb
      simp only [List.reverse_cons, List.reverse_reverse, List.mem_append, List.mem_cons,
        List.mem_singleton] at hb
      rcases hb with (hb | hb) | rfl | hb
      · exact h b (by simp [hb])
      · simp only [List.not_mem_nil, or_false] at hb
        subst hb
        exact hp
      · exact hm1
      · exact hrest b hb

theorem heap_step_sizes4 (m : MemState) (c : HeapCall) (h : ∀ b ∈ m.free_list, b.size % 4 = 0) :
    ∀ b ∈ (heap_step m c).free_list, b.size % 4 = 0 := by
  cases c with
  | malloc n =>
    simp only [heap_step, kmalloc]
    by_cases hn : n = 0
    · simp only [hn, if_true]; exact h
    · simp only [hn, if_false]
      cases hs : kmalloc_scan (align8 n) m.free_list with
      | none => exact h
      | some r =>
        obtain ⟨l, p, u⟩ := r
        exact kmalloc_scan_sizes4 _ _ _ _ _ (by rw [align8_eq]; omega) h hs
  | free p =>
    simp only [heap_step, kfree]
    by_cases hp : p = 0
    · simp only [hp, if_true]; exact h
    · simp only [hp, if_false]
      by_cases hex : ∃ b ∈ m.free_list, b.start_addr = p
      · obtain ⟨pre, cur, rest, hl, hpre, hcur⟩ := exists_first_start p _ hex
        rw [hl, kfree_scan_found p pre cur rest [] hpre hcur]
        simp only [List.append_nil]
        exact coalesce_sizes4 pre cur rest (hl ▸ h)
      · rw [kfree_scan_none p _ [] (fun b hb hf => hex ⟨b, hb, hf⟩)]
        exact h

theorem heap_run_sizes4 (calls : List HeapCall) (m : MemState)
    (h : ∀ b ∈ m.free_list, b.size % 4 = 0) :
    ∀ b ∈ (heap_run m calls).free_list, b.size % 4 = 0 := by
  induction calls generalizing m with
  | nil => exact h
  | cons c cs ih =>
    simp only [heap_run, List.foldl_cons]
    exact ih _ (heap_step_sizes4 m c h)

/-- C23 (8-byte size invariant), counterexample: right after `memory_init` the
request `kmalloc(1048552)` is served by the single free block of 1048556 bytes,
which is too small to be split and is allocated whole; its size 1048556 is not a
multiple of 8. -/
theorem allocated_size_not_multiple_of_8 :
    (heap_run (memory_init 0x100000) [.malloc 1048552]).free_list
        = [{ start_addr := 1048596, size := 1048556, is_free := false }] ∧
      ¬ (∀ b ∈ (heap_run (memory_init 0x100000) [.malloc 1048552]).free_list,
          b.is_free = false → b.size % 8 = 0) := by
  decide

/-- C23 as amended: after `memory_init` and any finite sequence of `kmalloc` /
`kfree` calls the size of every block is a multiple of 4; and when the next
`kmalloc n` (`n > 0`) chooses the block `b`, the block it marks allocated either
was split off `b` and has the size of the request rounded up to a multiple of
8, or is `b` as a whole with its size unchanged. -/
theorem block_sizes_aligned (kernel_end : Nat) (calls : List HeapCall) (n : Nat) :
    (∀ b ∈ (heap_run (memory_init kernel_end) calls).free_list, b.size % 4 = 0) ∧
      align8 n % 8 = 0 ∧
      ∀ pre b post, 0 < n →
        (heap_run (memory_init kernel_end) calls).free_list = pre ++ b :: post →
        (∀ x ∈ pre, ¬ fits (align8 n) x) → fits (align8 n) b →
        ∃ a rest, (kmalloc (heap_run (memory_init kernel_end) calls) n).1.free_list
            = pre ++ a :: rest ∧
          a.start_addr = b.start_addr ∧ a.is_free = false ∧
          ((a.size = align8 n ∧ a.size < b.size) ∨ (a.size = b.size ∧ rest = post)) := by
  refine ⟨?_, by rw [align8_eq]; omega, ?_⟩
  · apply heap_run_sizes4
    intro b hb
    simp only [memory_init, List.mem_singleton] at hb
    subst hb
    show sub32 HEAP_SIZE sizeof_mem_block_t % 4 = 0
    decide
  · intro pre b post hn hl hpre hb
    have hn0 : ¬ n = 0 := by omega
    have hS : b.size ≤ HEAP_SIZE := by
      have ht := (heap_run_inv _ calls _ (memory_init_inv kernel_end)).1.2.1
      rw [hl] at ht
      simp only [block_total_append, block_total_cons] at ht
      omega
    simp only [HEAP_SIZE] at hS
    unfold kmalloc
    simp only [hn0, if_false]
    rw [hl, kmalloc_scan_first _ pre b post hpre hb]
    by_cases hsp : b.size > add32 (add32 (align8 n) sizeof_mem_block_t) 8
    · rw [if_pos hsp]
      refine ⟨_, _, rfl, rfl, rfl, Or.inl ⟨rfl, ?_⟩⟩
      have hlt := align8_lt n
      simp only [add32, sizeof_mem_block_t] at hsp
      have := hb.2
      simp only
      omega
    · rw [if_neg hsp]
      exact ⟨_, _, rfl, rfl, rfl, Or.inr ⟨rfl, rfl⟩⟩

theorem block_sizes_aligned_witness :
    (0 < 100 ∧
      (heap_run (memory_init 0x100000) [.malloc 24]).free_list
        = [{ start_addr := 1048596, size := 24, is_free := false }] ++
          { start_addr := 1048640, size := 1048512, is_free := true } :: [] ∧
      (∀ x ∈ [({ start_addr := 1048596, size := 24, is_free := false } : mem_block_t)],
        ¬ fits (align8 100) x) ∧
      fits (align8 100) { start_addr := 1048640, size := 1048512, is_free := true }) ∧
    ∃ a rest, (kmalloc (heap_run (memory_init 0x100000) [.malloc 24]) 100).1.free_list
        = [{ start_addr := 1048596, size := 24, is_free := false }] ++ a :: rest ∧
      a.start_addr = 1048640 ∧ a.is_free = false ∧
      ((a.size = align8 100 ∧ a.size < 1048512) ∨ (a.size = 1048512 ∧ rest = [])) :=
  ⟨by decide,
    (block_sizes_aligned 0x100000 [.malloc 24] 100).2.2
      [{ start_addr := 1048596, size := 24, is_free := false }]
      { start_addr := 1048640, size := 1048512, is_free := true } []
      (by decide) (by decide) (by decide) (by decide)⟩

/-- C24 (used-bytes statistic), failing input: `memory_init`, `p = kmalloc(8)`,
`kfree(p)`, `kfree(p)`.  After the first `kfree` the counter is 0 again; the
second `kfree` finds the (free) block that starts at `p` and subtracts its size
once more, so the counter wraps to `2^32 - 1048556` although no block is
allocated, and `get_free_memory` reports 2097132 bytes, more than the heap has. -/
theorem double_free_corrupts_heap_used :
    (heap_run (memory_init 0x100000) [.malloc 8]).heap_used = 8 ∧
      used_total (heap_run (memory_init 0x100000) [.malloc 8]).free_list = 8 ∧
      (heap_run (memory_init 0x100000) [.malloc 8, .free 1048596]).heap_used = 0 ∧
      (heap_run (memory_init 0x100000) [.malloc 8, .free 1048596, .free 1048596]).heap_used
        = 4293918740 ∧
      used_total (heap_run (memory_init 0x100000)
        [.malloc 8, .free 1048596, .free 1048596]).free_list = 0 ∧
      get_free_memory (heap_run (memory_init 0x100000)
        [.malloc 8, .free 1048596, .free 1048596]) = 2097132 := by
  decide

/-- C25 (triple merge): in every block list in which an allocated block `B` has
a free predecessor `P` and a free successor `N` (with a non-null start address
that no block in front of it shares, and sizes that add up below `2^32`),
`kfree(B.start)` replaces `P`, `B`, `N` by one free block with the start
address of `P` and size `P.size + B.size + N.size + 2 * sizeof(mem_block_t)`,
placed between the former predecessor of `P` and the former successor of `N`;
all other blocks are unchanged, and the used-bytes counter drops by `B.size`. -/
theorem kfree_triple_merge (m : MemState) (pre : List mem_block_t) (P B N : mem_block_t)
    (post : List mem_block_t) (hl : m.free_list = pre ++ P :: B :: N :: post)
    (hP : P.is_free = true) (hB : B.is_free = false) (hN : N.is_free = true)
    (hnz : B.start_addr ≠ 0) (hu : ∀ x ∈ pre ++ [P], x.start_addr ≠ B.start_addr)
    (hs : P.size + B.size + N.size + 2 * sizeof_mem_block_t < 4294967296) :
    (kfree m B.start_addr).free_list =
        pre ++ { start_addr := P.start_addr,
                 size := P.size + B.size + N.size + 2 * sizeof_mem_block_t,
                 is_free := true } :: post ∧
      (kfree m B.start_addr).heap_used = sub32 m.heap_used B.size := by
  have _ := hB
  unfold kfree
  simp only [hnz, if_false]
  have e : pre ++ P :: B :: N :: post = (pre ++ [P]) ++ B :: (N :: post) := by simp
  rw [hl, e, kfree_scan_found B.start_addr (pre ++ [P]) B (N :: post) [] hu rfl]
  simp only [List.append_nil, coalesce, merge_next]
  rw [if_pos hN]
  simp only [List.reverse_append, List.reverse_singleton, List.singleton_append, merge_prev]
  rw [if_pos hP]
  simp only [List.reverse_reverse, and_true]
  congr 2
  simp only [add32, sizeof_mem_block_t] at *
  cases P
  simp only [mem_block_t.mk.injEq, true_and]
  simp only at hs hP
  refine ⟨?_, hP⟩
  omega

theorem kfree_triple_merge_witness :
    ((heap_run (memory_init 0x100000)
          [.malloc 8, .malloc 16, .malloc 24, .malloc 8, .free 1048596, .free 1048660]).free_list
        = [] ++ { start_addr := 1048596, size := 8, is_free := true } ::
            { start_addr := 1048624, size := 16, is_free := false } ::
            { start_addr := 1048660, size := 24, is_free := true } ::
            [{ start_addr := 1048704, size := 8, is_free := false },
             { start_addr := 1048732, size := 1048420, is_free := true }]) ∧
    ((kfree (heap_run (memory_init 0x100000)
          [.malloc 8, .malloc 16, .malloc 24, .malloc 8, .free 1048596, .free 1048660])
        1048624).free_list =
        [] ++ { start_addr := 1048596, size := 8 + 16 + 24 + 2 * sizeof_mem_block_t,
                is_free := true } ::
          [{ start_addr := 1048704, size := 8, is_free := false },
           { start_addr := 1048732, size := 1048420, is_free := true }] ∧
      (kfree (heap_run (memory_init 0x100000)
          [.malloc 8, .malloc 16, .malloc 24, .malloc 8, .free 1048596, .free 1048660])
        1048624).heap_used =
        sub32 (heap_run (memory_init 0x100000)
          [.malloc 8, .malloc 16, .malloc 24, .malloc 8, .free 1048596, .free 1048660]).heap_used
          16) :=
  ⟨by decide,
    kfree_triple_merge _ []
      { start_addr := 1048596, size := 8, is_free := true }
      { start_addr := 1048624, size := 16, is_free := false }
      { start_addr := 1048660, size := 24, is_free := true }
      [{ start_addr := 1048704, size := 8, is_free := false },
       { start_addr := 1048732, size := 1048420, is_free := true }]
      (by decide) (by decide) (by decide) (by decide) (by decide) (by decide) (by decide)⟩

/-! ## Claims on messages, creation and termination -/

theorem purge_messages_queue (pid : Int) (q : List message_t) (m : MemState) :
    (purge_messages pid q m).1
      = q.filter (fun x => decide (x.from_pid ≠ pid ∧ x.to_pid ≠ pid)) := by
  induction q generalizing m with
  | nil => rfl
  | cons x rest ih =>
    by_cases hx : x.from_pid = pid ∨ x.to_pid = pid
    · have hd : decide (x.from_pid ≠ pid ∧ x.to_pid ≠ pid) = false := by
        simp only [decide_eq_false_iff_not, not_and_or, not_not, ne_eq]; exact hx
      rw [purge_messages, if_pos hx, List.filter_cons_of_neg (by simp [hd]), ih]
    · have hd : decide (x.from_pid ≠ pid ∧ x.to_pid ≠ pid) = true := by
        simp only [decide_eq_true_eq, ne_eq]
        exact not_or.mp hx
      rw [purge_messages, if_neg hx, List.filter_cons_of_pos (by simp [hd])]
      simp only [ih]

theorem receive_scan_mem (pid : Int) (q : List message_t) (x : message_t) (l : List message_t)
    (h : receive_scan pid q = some (x, l)) : x ∈ q ∧ x.to_pid = pid := by
  induction q generalizing l with
  | nil => cases h
  | cons y rest ih =>
    by_cases hy : y.to_pid = pid
    · rw [receive_scan, if_pos hy] at h
      simp only [Option.some.injEq, Prod.mk.injEq] at h
      obtain ⟨rfl, _⟩ := h
      exact ⟨List.mem_cons_self _ _, hy⟩
    · rw [receive_scan, if_neg hy] at h
      cases hr : receive_scan pid rest with
      | none => rw [hr] at h; cases h
      | some r =>
        obtain ⟨x2, l2⟩ := r
        rw [hr] at h
        simp only [Option.some.injEq, Prod.mk.injEq] at h
        obtain ⟨rfl, _⟩ := h
        obtain ⟨h1, h2⟩ := ih l2 hr
        exact ⟨List.mem_cons_of_mem _ h1, h2⟩

theorem find_pid_spec (P : Int) (t : List pcb_t) (s j : Nat) (h : find_pid P t s = some j) :
    s ≤ j ∧ ∃ p, t.get? (j - s) = some p ∧ p.pid = P := by
  induction t generalizing s with
  | nil => cases h
  | cons a rest ih =>
    by_cases ha : a.pid = P
    · rw [find_pid, if_pos ha] at h
      simp only [Option.some.injEq] at h
      subst h
      exact ⟨le_refl _, a, by simp, ha⟩
    · rw [find_pid, if_neg ha] at h
      obtain ⟨h1, p, h2, h3⟩ := ih (s + 1) h
      refine ⟨by omega, p, ?_, h3⟩
      have e : j - s = (j - (s + 1)) + 1 := by omega
      rw [e, List.get?_cons_succ]
      exact h2

/-- The slot that the pid search finds holds a PCB with that pid. -/
theorem find_pid_get (P : Int) (t : List pcb_t) (j : Nat) (h : find_pid P t 0 = some j) :
    ∃ p, t.get? j = some p ∧ p.pid = P := by
  obtain ⟨_, p, h2, h3⟩ := find_pid_spec P t 0 j h
  exact ⟨p, by simpa using h2, h3⟩

theorem find_pid_none (P : Int) (t : List pcb_t) (s : Nat) (h : ∀ p ∈ t, p.pid ≠ P) :
    find_pid P t s = none := by
  induction t generalizing s with
  | nil => rfl
  | cons a rest ih =>
    rw [find_pid, if_neg (h a (List.mem_cons_self _ _))]
    exact ih _ (fun p hp => h p (List.mem_cons_of_mem _ hp))

/-- C11 (termination purges messages): for every message queue and every pid
`P` other than 0 that is found in the process table, after
`terminate_process(P)` the message queue holds exactly the messages of the old
queue whose sender and receiver both differ from `P`, in their old order; so
the message that the loop of a later `receive_message` picks, for whatever
receiver, is neither sent by `P` nor addressed to `P`. -/
theorem terminate_purges_messages (k : Kernel) (P : Int) (i : Nat) (hP : P ≠ NULL_PID)
    (hlive : find_pid P k.process_table 0 = some i) :
    (terminate_process k P).message_queue
        = k.message_queue.filter (fun x => decide (x.from_pid ≠ P ∧ x.to_pid ≠ P)) ∧
      ∀ (receiver : Int) (x : message_t) (l : List message_t),
        receive_scan receiver (terminate_process k P).message_queue = some (x, l) →
        x.from_pid ≠ P ∧ x.to_pid ≠ P := by
  have hq : (terminate_process k P).message_queue
      = k.message_queue.filter (fun x => decide (x.from_pid ≠ P ∧ x.to_pid ≠ P)) := by
    unfold terminate_process
    rw [if_neg hP, hlive]
    simp only
    obtain ⟨p, hp, _⟩ := find_pid_get P k.process_table i hlive
    rw [hp]
    simp only [purge_messages_queue]
  refine ⟨hq, ?_⟩
  intro receiver x l h
  obtain ⟨hm, _⟩ := receive_scan_mem _ _ _ _ h
  rw [hq, List.mem_filter] at hm
  simpa using hm.2

theorem terminate_purges_messages_witness :
    ((1 : Int) ≠ NULL_PID ∧ find_pid 1 four_messages_state.process_table 0 = some 1) ∧
    queue_summary four_messages_state
      = [(0, 1, [65, 66, 67]), (1, 0, [70, 71]), (1, 1, [80]), (0, 0, [90, 91])] ∧
    queue_summary (terminate_process four_messages_state 1) = [(0, 0, [90, 91])] ∧
    ((terminate_process four_messages_state 1).message_queue
        = four_messages_state.message_queue.filter
            (fun x => decide (x.from_pid ≠ 1 ∧ x.to_pid ≠ 1)) ∧
      ∀ (receiver : Int) (x : message_t) (l : List message_t),
        receive_scan receiver (terminate_process four_messages_state 1).message_queue
          = some (x, l) →
        x.from_pid ≠ 1 ∧ x.to_pid ≠ 1) :=
  ⟨by decide, by decide, by decide,
    terminate_purges_messages four_messages_state 1 1 (by decide) (by decide)⟩

/-- A pid other than 0 that no slot of the process table holds: `terminate_process`
changes nothing. -/
theorem terminate_process_not_found (k : Kernel) (pid : Int)
    (h : ∀ p ∈ k.process_table, p.pid ≠ pid) : terminate_process k pid = k := by
  unfold terminate_process
  split
  · rfl
  · rw [find_pid_none pid _ 0 h]

/-- C12 (terminate of an unknown pid), failing input: right after the
initialisation the only live process is the null process (pid 0) and the
live-process count is 1.  `terminate_process(-1)` does not take the "not found"
path: its search `process_table[i].pid == pid` matches the first free slot,
whose pid is `-1`, and the count is decremented to 0.  The process table, the
stack table, the message queue and the heap stay as they are. -/
theorem terminate_minus_one_decrements_count :
    live_pids kmain_init = [(0, CURRENT)] ∧
      kmain_init.process_count = 1 ∧
      find_pid (-1) kmain_init.process_table 0 = some 1 ∧
      (terminate_process kmain_init (-1)).process_count = 0 ∧
      (terminate_process kmain_init (-1)).process_table = kmain_init.process_table ∧
      (terminate_process kmain_init (-1)).mem = kmain_init.mem ∧
      (terminate_process kmain_init (-1)).message_queue = kmain_init.message_queue := by
  decide

/-- C13 (create postcondition), failing input: the first creation of `kmain`,
`create_process(process1, "TestProc1")`.  It returns pid 1, and the PCB found by
`get_process(1)` has pid 1, state `READY`, the entry point, a null link,
`stack_base` 1048596 and `stack_pointer = stack_base + STACK_SIZE - 44`; but
its priority is 1668248144 (the bytes "Proc") instead of 1 and its `cpu_time`
is 49 (the byte "1") instead of 0, because the name is stored from the 4-byte
field `page_directory` on.  With a null name the priority is 6579565 (the bytes
"med" of "unnamed"), with the name "init" it is 0. -/
theorem create_overwrites_priority :
    kmain_first_create.map (fun r => (r.2, pcb_at r.1 (get_process r.1 r.2)))
      = some (1, some { pid := 1, state := READY, program_counter := 0x1000,
                        stack_pointer := 1048596 + STACK_SIZE - 44, stack_base := 1048596,
                        page_directory := 1953719636, priority := 1668248144,
                        cpu_time := 49, next := 0 }) ∧
      (create_process kmain_init 0x1000 none).map
          (fun r => (pcb_at r.1 (get_process r.1 r.2)).map (fun p => (p.priority, p.cpu_time)))
        = some (some (6579565, 0)) ∧
      (create_process kmain_init 0x1000 (some init_name)).map
          (fun r => (pcb_at r.1 (get_process r.1 r.2)).map (fun p => (p.priority, p.cpu_time)))
        = some (some (0, 0)) := by
  decide

/-- C26 (name copy is bounded and framed), failing input: after the
initialisation, `create_process(e, "InitializerProc1")` with a name of 16
characters.  The copy stores 17 bytes from the 4-byte field `page_directory` of
slot 1 on: besides `page_directory` it overwrites the priority, the `cpu_time`
and the queue link of the new PCB, which were just set to 1, 0 and `NULL`, and
its terminator changes the pid of slot 2 from `-1` to `-256`. -/
theorem name_copy_overruns :
    name_bytes (some InitializerProc1) = InitializerProc1 ++ [0] ∧
      (kmain_init.process_table.get? 2).map (fun p => p.pid) = some (-1) ∧
      create_long_name.map (fun r => (r.2, r.1.process_table.get? 1))
        = some (1, some { pid := 1, state := READY, program_counter := 0x1000,
                          stack_pointer := 1056744, stack_base := 1048596,
                          page_directory := 1953066569, priority := 1768710505,
                          cpu_time := 1349674362, next := 828600178 }) ∧
      create_long_name.map (fun r => (r.1.process_table.get? 2).map (fun p => p.pid))
        = some (some (-256)) := by
  decide

/-- C15 (`send_message`), failing input: after the initialisation,
`send_message(0, msg, 0xFFFFFFFF)` with a non-null `msg`.  The destination (pid
0) exists and is `CURRENT`, and both allocations return a non-null address: the
node at 1048596 and the data at 1048640.  But `kmalloc(0xFFFFFFFF)` rounded the
size to 0, so the data block has size 0, and `memcpy` stores `0xFFFFFFFF` bytes
from its start on, over the headers and blocks behind it; the call leaves the
model instead of appending a message with a copy of the payload. -/
theorem send_message_huge_size_overruns :
    (kmalloc kmain_init.mem sizeof_message_t).2 = 1048596 ∧
      (kmalloc (kmalloc kmain_init.mem sizeof_message_t).1 0xFFFFFFFF).2 = 1048640 ∧
      block_size_at (kmalloc (kmalloc kmain_init.mem sizeof_message_t).1 0xFFFFFFFF).1.free_list
        1048640 = some 0 ∧
      send_huge_message = none := by
  decide

theorem pcb_slot_ptr (k : Kernel) (i : Nat) (h0 : pcb_ptr k i ≠ 0)
    (hi : i < k.process_table.length) : pcb_slot k (pcb_ptr k i) = some i := by
  unfold pcb_slot
  unfold pcb_ptr at *
  have e1 : k.table_addr + sizeof_pcb_t * i - k.table_addr = sizeof_pcb_t * i := by omega
  have e2 : sizeof_pcb_t * i % sizeof_pcb_t = 0 := Nat.mul_mod_right _ _
  have e3 : sizeof_pcb_t * i / sizeof_pcb_t = i :=
    Nat.mul_div_cancel_left _ (by decide)
  rw [if_pos]
  · rw [e1, e3]
  · rw [e1, e2, e3]
    exact ⟨h0, by omega, rfl, hi⟩

theorem pcb_slot_eq (k : Kernel) (p i : Nat) (h : pcb_slot k p = some i) :
    p = pcb_ptr k i ∧ p ≠ 0 ∧ i < k.process_table.length := by
  unfold pcb_slot at h
  split at h
  · rename_i hc
    simp only [Option.some.injEq] at h
    obtain ⟨h0, h1, h2, h3⟩ := hc
    subst h
    refine ⟨?_, h0, h3⟩
    unfold pcb_ptr
    simp only [sizeof_pcb_t] at *
    omega
  · cases h

/-- A non-null result of `get_process` points to a PCB with the pid asked for. -/
theorem pcb_at_get_process (k : Kernel) (pid : Int) (h : get_process k pid ≠ 0) :
    ∃ i c, find_pid pid k.process_table 0 = some i ∧ get_process k pid = pcb_ptr k i ∧
      pcb_slot k (get_process k pid) = some i ∧ k.process_table.get? i = some c ∧
      pcb_at k (get_process k pid) = some c ∧ c.pid = pid := by
  unfold get_process at h ⊢
  cases hf : find_pid pid k.process_table 0 with
  | none => rw [hf] at h; exact absurd rfl h
  | some i =>
    rw [hf] at h
    simp only at h ⊢
    obtain ⟨c, hc, hp⟩ := find_pid_get pid _ i hf
    have hi : i < k.process_table.length := by
      by_contra hn
      rw [List.get?_eq_none.mpr (by omega)] at hc
      cases hc
    have hs := pcb_slot_ptr k i h hi
    refine ⟨i, c, rfl, rfl, hs, hc, ?_, hp⟩
    unfold pcb_at
    rw [hs]
    exact hc

theorem receive_scan_first (pid : Int) (pre : List message_t) (x : message_t)
    (post : List message_t) (hpre : ∀ y ∈ pre, y.to_pid ≠ pid) (hx : x.to_pid = pid) :
    receive_scan pid (pre ++ x :: post) = some (x, pre ++ post) := by
  induction pre with
  | nil => rw [List.nil_append, receive_scan, if_pos hx]; rfl
  | cons y rest ih =>
    rw [List.cons_append, receive_scan, if_neg (hpre y (List.mem_cons_self _ _)),
      ih (fun z hz => hpre z (List.mem_cons_of_mem _ hz))]
    rfl

theorem receive_scan_none (pid : Int) (q : List message_t) (h : ∀ y ∈ q, y.to_pid ≠ pid) :
    receive_scan pid q = none := by
  induction q with
  | nil => rfl
  | cons y rest ih =>
    rw [receive_scan, if_neg (h y (List.mem_cons_self _ _)),
      ih (fun z hz => h z (List.mem_cons_of_mem _ hz))]

/-- The result of `receive_message` when a current process exists. -/
theorem receive_message_eq (k : Kernel) (fp : Bool) (h : get_current_process k ≠ 0) :
    receive_message k fp =
      match receive_scan k.current_pid k.message_queue with
      | none => some (k, 0, none)
      | some (m, l) =>
        some ({ k with message_queue := l, mem := kfree k.mem m.addr }, m.data,
              if fp then some m.from_pid else none) := by
  obtain ⟨i, c, _, _, _, _, hc, hp⟩ := pcb_at_get_process k k.current_pid h
  unfold receive_message
  unfold get_current_process at h ⊢
  simp only [h, if_false, hc, hp]
  try rfl

/-- C16 (`receive_message` is FIFO per receiver): let a current process exist
(its pid is `current_pid`).  If the message queue is `pre ++ x :: post`, where
`x` is addressed to the current process and no message of `pre` is, then
`receive_message` returns the data pointer of `x`, stores the sender of `x`
through a non-null `from_pid`, releases the node of `x` and leaves the queue
`pre ++ post`.  If no message is addressed to the current process it returns
`NULL` and changes nothing.  In particular, of two messages `x1`, `x2` for the
current process with no other such message in front of them, the first call
returns `x1` and the next call returns `x2`. -/
theorem receive_message_fifo (k : Kernel) (fp : Bool) (hcur : get_current_process k ≠ 0) :
    (∀ pre x post, k.message_queue = pre ++ x :: post →
        (∀ y ∈ pre, y.to_pid ≠ k.current_pid) → x.to_pid = k.current_pid →
        receive_message k fp =
          some ({ k with message_queue := pre ++ post, mem := kfree k.mem x.addr }, x.data,
                if fp then some x.from_pid else none)) ∧
      ((∀ y ∈ k.message_queue, y.to_pid ≠ k.current_pid) →
        receive_message k fp = some (k, 0, none)) ∧
      (∀ pre x1 mid x2 post, k.message_queue = pre ++ x1 :: (mid ++ x2 :: post) →
        (∀ y ∈ pre, y.to_pid ≠ k.current_pid) → (∀ y ∈ mid, y.to_pid ≠ k.current_pid) →
        x1.to_pid = k.current_pid → x2.to_pid = k.current_pid →
        ∃ k1 k2, receive_message k fp = some (k1, x1.data, if fp then some x1.from_pid else none) ∧
          receive_message k1 fp = some (k2, x2.data, if fp then some x2.from_pid else none) ∧
          k2.message_queue = pre ++ (mid ++ post)) := by
  have first : ∀ (k : Kernel), get_current_process k ≠ 0 → ∀ pre x post,
      k.message_queue = pre ++ x :: post →
      (∀ y ∈ pre, y.to_pid ≠ k.current_pid) → x.to_pid = k.current_pid →
      receive_message k fp =
        some ({ k with message_queue := pre ++ post, mem := kfree k.mem x.addr }, x.data,
              if fp then some x.from_pid else none) := by
    intro k hcur pre x post hq hpre hx
    rw [receive_message_eq k fp hcur, hq, receive_scan_first _ pre x post hpre hx]
  refine ⟨first k hcur, ?_, ?_⟩
  · intro hno
    rw [receive_message_eq k fp hcur, receive_scan_none _ _ hno]
  · intro pre x1 mid x2 post hq hpre hmid hx1 hx2
    have e : pre ++ (mid ++ x2 :: post) = (pre ++ mid) ++ x2 :: post := by simp
    have hpm : ∀ y ∈ pre ++ mid, y.to_pid ≠ k.current_pid := by
      intro y hy
      rcases List.mem_append.mp hy with h | h
      · exact hpre y h
      · exact hmid y h
    refine ⟨{ k with message_queue := pre ++ (mid ++ x2 :: post),
                     mem := kfree k.mem x1.addr },
      { k with message_queue := (pre ++ mid) ++ post,
               mem := kfree (kfree k.mem x1.addr) x2.addr },
      first k hcur pre x1 _ hq hpre hx1, ?_, by simp⟩
    exact first { k with message_queue := pre ++ (mid ++ x2 :: post),
                         mem := kfree k.mem x1.addr } hcur (pre ++ mid) x2 post e hpm hx2

theorem receive_message_fifo_witness :
    (get_current_process four_messages_state ≠ 0 ∧
      four_messages_state.message_queue =
        [{ addr := 1056808, from_pid := 0, to_pid := 1, size := 3, data := 1056852,
           payload := [65, 66, 67] }] ++
        { addr := 1056880, from_pid := 1, to_pid := 0, size := 2, data := 1056924,
          payload := [70, 71] } ::
        ([{ addr := 1056952, from_pid := 1, to_pid := 1, size := 1, data := 1056996,
            payload := [80] }] ++
         { addr := 1057024, from_pid := 0, to_pid := 0, size := 2, data := 1057068,
           payload := [90, 91] } :: [])) ∧
    ∃ k1 k2, receive_message four_messages_state true = some (k1, 1056924, some 1) ∧
      receive_message k1 true = some (k2, 1057068, some 0) ∧
      k2.message_queue =
        [{ addr := 1056808, from_pid := 0, to_pid := 1, size := 3, data := 1056852,
           payload := [65, 66, 67] }] ++
        ([{ addr := 1056952, from_pid := 1, to_pid := 1, size := 1, data := 1056996,
            payload := [80] }] ++ []) :=
  ⟨by decide,
    (receive_message_fifo four_messages_state true (by decide)).2.2
      [{ addr := 1056808, from_pid := 0, to_pid := 1, size := 3, data := 1056852,
         payload := [65, 66, 67] }]
      { addr := 1056880, from_pid := 1, to_pid := 0, size := 2, data := 1056924,
        payload := [70, 71] }
      [{ addr := 1056952, from_pid := 1, to_pid := 1, size := 1, data := 1056996,
         payload := [80] }]
      { addr := 1057024, from_pid := 0, to_pid := 0, size := 2, data := 1057068,
        payload := [90, 91] }
      [] (by decide) (by decide) (by decide) (by decide) (by decide)⟩

/-! ## Creation: failure is atomic -/

/-- In a state that satisfies the allocator invariant for an arena below `2^32`
every block lies inside the arena, behind a header. -/
theorem heap_inv_block_range (base : Nat) (m : MemState) (h : heap_inv base m)
    (hb : base + HEAP_SIZE < 4294967296) :
    ∀ b ∈ m.free_list, base + sizeof_mem_block_t ≤ b.start_addr ∧
      b.start_addr + b.size ≤ base + HEAP_SIZE := by
  intro b hbm
  obtain ⟨⟨hc, ht, _⟩, _⟩ := h
  obtain ⟨o, _, h2, h3⟩ := contiguous_mem base _ 0 hc b hbm
  rw [ht] at h2
  simp only [HEAP_SIZE, sizeof_mem_block_t] at *
  omega

/-- In a valid heap below `2^32`, a `kmalloc` that returns `NULL` changed
nothing, and a non-null result is the start of a block that ends below `2^32`
and is at least as large as a request of at most `2^32 - 8` bytes. -/
theorem kmalloc_result (base : Nat) (m : MemState) (n : Nat) (h : heap_inv base m)
    (harena : base + HEAP_SIZE < 4294967296) :
    ((kmalloc m n).2 = 0 → (kmalloc m n).1 = m) ∧
      ((kmalloc m n).2 ≠ 0 → (kmalloc m n).1.stack_table = m.stack_table ∧
        ∃ bs, block_size_at (kmalloc m n).1.free_list (kmalloc m n).2 = some bs ∧
          (kmalloc m n).2 + bs < 4294967296 ∧ align8 n ≤ bs) := by
  have hbounds := heap_inv_block_bounds base m h harena
  have hrange := heap_inv_block_range base m h harena
  obtain ⟨⟨hc, ht, _⟩, _⟩ := h
  unfold kmalloc
  by_cases hn0 : n = 0
  · simp only [hn0, if_true]
    exact ⟨fun _ => trivial, fun hp => absurd rfl hp⟩
  · simp only [hn0, if_false]
    by_cases hfit : ∃ b ∈ m.free_list, fits (align8 n) b
    · obtain ⟨pre, b, post, hl, hpre, hb⟩ := exists_first_fit _ _ hfit
      have hne := contiguous_start_ne base pre b post (hl ▸ hc)
        (by rw [← hl, ht]; simp [HEAP_SIZE])
      obtain ⟨hb0, hbs, _⟩ := hbounds b (by rw [hl]; simp)
      obtain ⟨_, hba⟩ := hrange b (by rw [hl]; simp)
      have hfind : ∀ (a : mem_block_t) (rest : List mem_block_t),
          a.start_addr = b.start_addr →
          block_size_at (pre ++ a :: rest) b.start_addr = some a.size := by
        intro a rest ha
        unfold block_size_at
        rw [List.find?_append]
        have hpn : List.find? (fun x => decide (x.start_addr = b.start_addr)) pre = none := by
          rw [List.find?_eq_none]
          intro x hx
          simpa using hne x hx
        rw [hpn]
        simp [ha]
      rw [hl, kmalloc_scan_first _ pre b post hpre hb]
      have hbr := hb.2
      simp only [HEAP_SIZE] at hbs
      by_cases hsp : b.size > add32 (add32 (align8 n) sizeof_mem_block_t) 8
      · rw [if_pos hsp]
        simp only
        refine ⟨fun h0 => absurd h0 hb0, fun _ => ⟨trivial, _, hfind _ _ rfl, ?_, le_refl _⟩⟩
        simp only
        omega
      · rw [if_neg hsp]
        simp only
        refine ⟨fun h0 => absurd h0 hb0, fun _ => ⟨trivial, _, hfind _ _ rfl, ?_, hbr⟩⟩
        simp only
        omega
    · rw [kmalloc_scan_none _ _ (fun b hb hf => hfit ⟨b, hb, hf⟩)]
      exact ⟨fun _ => rfl, fun hp => absurd rfl hp⟩

theorem align8_ge (n : Nat) (h : n ≤ 4294967288) : n ≤ align8 n := by
  rw [align8_of_le n h]; omega

/-- In a valid heap below `2^32`, an `allocate_stack` that returns 0 changed nothing. -/
theorem allocate_stack_fail (base : Nat) (m : MemState) (pid : Int) (h : heap_inv base m)
    (harena : base + HEAP_SIZE < 4294967296) (h0 : (allocate_stack m pid).2 = 0) :
    (allocate_stack m pid).1 = m := by
  obtain ⟨k1, k2⟩ := kmalloc_result base m STACK_SIZE h harena
  unfold allocate_stack at h0 ⊢
  by_cases hc : m.stack_table.length ≥ MAX_BLOCKS
  · simp only [hc, if_true]
  · simp only [hc, if_false] at h0 ⊢
    by_cases hp : (kmalloc m STACK_SIZE).2 = 0
    · simp only [hp, if_true]
      exact k1 hp
    · simp only [hp, if_false] at h0 ⊢
      exfalso
      obtain ⟨_, bs, _, hb1, hb2⟩ := k2 hp
      have := align8_ge STACK_SIZE (by decide)
      simp only [add32, STACK_SIZE] at *
      omega


/-! ## The scheduler operations as chains of stores -/

theorem pcb_update_eq (k : Kernel) (p : Nat) (f : pcb_t → pcb_t) (k2 : Kernel)
    (h : pcb_update k p f = some k2) :
    ∃ i q, pcb_slot k p = some i ∧ k.process_table.get? i = some q ∧
      k2 = { k with process_table := k.process_table.set i (f q) } := by
  unfold pcb_update at h
  cases hs : pcb_slot k p with
  | none => rw [hs] at h; cases h
  | some i =>
    rw [hs] at h
    simp only at h
    cases hg : k.process_table.get? i with
    | none => rw [hg] at h; cases h
    | some q =>
      rw [hg] at h
      simp only [Option.some.injEq] at h
      exact ⟨i, q, rfl, hg, h.symm⟩

theorem add_to_ready_queue_eq (k : Kernel) (process : Nat) (p : pcb_t) (hp0 : process ≠ 0)
    (hp : pcb_at k process = some p) (hs : p.state ≠ TERMINATED) :
    add_to_ready_queue k process =
      (pcb_update k process (fun q => { q with next := 0 })).bind fun k1 =>
        (if k1.ready_queue = 0 then some { k1 with ready_queue := process }
         else
           match k1.config.policy with
           | .SCHED_ROUND_ROBIN | .SCHED_FCFS =>
             (queue_last k1 QUEUE_FUEL k1.ready_queue).bind fun last =>
               pcb_update k1 last (fun q => { q with next := process })
           | .SCHED_PRIORITY =>
             (queue_insert_pos k1 p.priority QUEUE_FUEL 0 k1.ready_queue).bind fun pos =>
               if pos.1 = 0 then
                 (pcb_update k1 process (fun q => { q with next := k1.ready_queue })).bind
                   fun k3 => some { k3 with ready_queue := process }
               else
                 (pcb_update k1 process (fun q => { q with next := pos.2 })).bind
                   fun k3 => pcb_update k3 pos.1 (fun q => { q with next := process })).bind
          fun k2 => pcb_update k2 process (fun q => { q with state := READY }) := by
  unfold add_to_ready_queue
  rw [if_neg hp0, hp]
  simp only
  rw [if_neg hs]
  cases h1 : pcb_update k process (fun q => { q with next := 0 }) with
  | none => rfl
  | some k1 =>
    simp only [Option.bind_eq_bind, Option.some_bind]
    by_cases h0 : k1.ready_queue = 0
    · simp only [h0, if_true, Option.some_bind]
    · simp only [h0, if_false]
      cases hpol : k1.config.policy <;> simp only [Option.bind_assoc]
      · cases queue_insert_pos k1 p.priority QUEUE_FUEL 0 k1.ready_queue with
        | none => rfl
        | some pos =>
          simp only [Option.some_bind]
          by_cases hz : pos.1 = 0
          · simp only [hz, if_true, Option.bind_assoc, Option.some_bind]
          · simp only [hz, if_false, Option.bind_assoc]

/-! ## Lemmas on the process table and on chains of PCBs -/

theorem table_modify_length (t : List pcb_t) (i : Nat) (f : pcb_t → pcb_t) :
    (table_modify t i f).length = t.length := by
  unfold table_modify
  split
  · rfl
  · exact List.length_set _ _ _

theorem table_modify_get_eq (t : List pcb_t) (i : Nat) (f : pcb_t → pcb_t) :
    (table_modify t i f).get? i = (t.get? i).map f := by
  unfold table_modify
  cases h : t.get? i with
  | none => simp only [Option.map_none']; exact h
  | some q =>
    have hi : i < t.length := by
      by_contra hn
      rw [List.get?_eq_none.mpr (by omega)] at h
      cases h
    simp only [Option.map_some']
    rw [List.get?_eq_getElem?, List.getElem?_set_self hi]

theorem table_modify_get_ne (t : List pcb_t) (i j : Nat) (f : pcb_t → pcb_t) (h : i ≠ j) :
    (table_modify t i f).get? j = t.get? j := by
  unfold table_modify
  split
  · rfl
  · rw [List.get?_eq_getElem?, List.get?_eq_getElem?, List.getElem?_set_ne h]

theorem pcb_update_modify (k : Kernel) (p : Nat) (f : pcb_t → pcb_t) (i : Nat)
    (hs : pcb_slot k p = some i) :
    pcb_update k p f = some { k with process_table := table_modify k.process_table i f } := by
  obtain ⟨_, _, hi⟩ := pcb_slot_eq k p i hs
  unfold pcb_update table_modify
  rw [hs]
  simp only
  cases hg : k.process_table.get? i with
  | none =>
    rw [List.get?_eq_none] at hg
    omega
  | some q => rfl

theorem pcb_update_some (k : Kernel) (p : Nat) (f : pcb_t → pcb_t) (k2 : Kernel)
    (h : pcb_update k p f = some k2) :
    ∃ i, pcb_slot k p = some i ∧
      k2 = { k with process_table := table_modify k.process_table i f } := by
  unfold pcb_update at h
  cases hs : pcb_slot k p with
  | none => rw [hs] at h; cases h
  | some i =>
    refine ⟨i, rfl, ?_⟩
    have := pcb_update_modify k p f i hs
    unfold pcb_update at this
    rw [hs] at this h
    rw [this] at h
    exact (Option.some.inj h).symm

theorem pcb_slot_congr (k k2 : Kernel) (p : Nat) (ha : k2.table_addr = k.table_addr)
    (hl : k2.process_table.length = k.process_table.length) : pcb_slot k2 p = pcb_slot k p := by
  unfold pcb_slot
  rw [ha, hl]

theorem pcb_at_slot (k : Kernel) (p i : Nat) (hs : pcb_slot k p = some i) :
    pcb_at k p = k.process_table.get? i := by
  unfold pcb_at
  rw [hs]

theorem pcb_slot_zero (k : Kernel) : pcb_slot k 0 = none := by
  unfold pcb_slot
  simp

theorem is_seg_congr (k k2 : Kernel) (ha : k2.table_addr = k.table_addr)
    (hl : k2.process_table.length = k.process_table.length) (l : List Nat) (p q : Nat)
    (hn : ∀ i ∈ l, ∀ c, k.process_table.get? i = some c →
      ∃ c2, k2.process_table.get? i = some c2 ∧ c2.next = c.next)
    (h : is_seg k p l q) : is_seg k2 p l q := by
  induction l generalizing p with
  | nil => exact h
  | cons i rest ih =>
    obtain ⟨hs, c, hc, hr⟩ := h
    obtain ⟨c2, hc2, hn2⟩ := hn i (List.mem_cons_self _ _) c hc
    refine ⟨by rw [pcb_slot_congr k k2 p ha hl]; exact hs, c2, hc2, ?_⟩
    rw [hn2]
    exact ih _ (fun j hj => hn j (List.mem_cons_of_mem _ hj)) hr

theorem is_seg_append (k : Kernel) (a b : List Nat) (p q : Nat) :
    is_seg k p (a ++ b) q ↔ ∃ r, is_seg k p a r ∧ is_seg k r b q := by
  induction a generalizing p with
  | nil =>
    constructor
    · intro h; exact ⟨p, rfl, h⟩
    · rintro ⟨r, hr, h⟩
      have : p = r := hr
      subst this; exact h
  | cons i rest ih =>
    constructor
    · rintro ⟨hs, c, hc, hr⟩
      obtain ⟨r, h1, h2⟩ := (ih c.next).mp hr
      exact ⟨r, ⟨hs, c, hc, h1⟩, h2⟩
    · rintro ⟨r, ⟨hs, c, hc, h1⟩, h2⟩
      exact ⟨hs, c, hc, (ih c.next).mpr ⟨r, h1, h2⟩⟩

theorem is_seg_det (k : Kernel) (l1 l2 : List Nat) (p : Nat) (h1 : is_seg k p l1 0)
    (h2 : is_seg k p l2 0) : l1 = l2 := by
  induction l1 generalizing p l2 with
  | nil =>
    have hp : p = 0 := h1
    cases l2 with
    | nil => rfl
    | cons j r =>
      obtain ⟨hs, _⟩ := h2
      rw [hp, pcb_slot_zero] at hs
      cases hs
  | cons i rest ih =>
    obtain ⟨hs, c, hc, hr⟩ := h1
    cases l2 with
    | nil =>
      have hp : p = 0 := h2
      rw [hp, pcb_slot_zero] at hs
      cases hs
    | cons j r =>
      obtain ⟨hs2, c2, hc2, hr2⟩ := h2
      rw [hs] at hs2
      cases hs2
      rw [hc] at hc2
      cases hc2
      rw [ih _ _ hr hr2]

theorem is_seg_mem_lt (k : Kernel) (l : List Nat) (p q : Nat) (h : is_seg k p l q) :
    ∀ i ∈ l, i < k.process_table.length := by
  induction l generalizing p with
  | nil => intro i hi; cases hi
  | cons j rest ih =>
    obtain ⟨hs, c, _, hr⟩ := h
    intro i hi
    rcases List.mem_cons.mp hi with rfl | hi2
    · exact (pcb_slot_eq k p _ hs).2.2
    · exact ih _ hr i hi2

theorem is_queue_nodup (k : Kernel) (l : List Nat) (p : Nat) (h : is_seg k p l 0) :
    l.Nodup := by
  induction l generalizing p with
  | nil => exact List.nodup_nil
  | cons i rest ih =>
    have hfull := h
    obtain ⟨hs, c, hc, hr⟩ := h
    refine List.nodup_cons.mpr ⟨?_, ih _ hr⟩
    intro hmem
    obtain ⟨a, b, hab⟩ := List.append_of_mem hmem
    rw [hab] at hr
    obtain ⟨r, _, h2⟩ := (is_seg_append k a (i :: b) c.next 0).mp hr
    have hr2 := h2
    obtain ⟨hs3, _⟩ := h2
    have e1 := (pcb_slot_eq k p i hs).1
    have e2 := (pcb_slot_eq k r i hs3).1
    have hpr : r = p := by rw [e1, e2]
    rw [hpr] at hr2
    have := is_seg_det k _ _ p hfull hr2
    have hlen := congrArg List.length this
    rw [hab] at hlen
    simp at hlen
    omega

theorem nodup_length_le (l : List Nat) (n : Nat) (hn : l.Nodup) (hb : ∀ i ∈ l, i < n) :
    l.length ≤ n := by
  have h1 : l.toFinset ⊆ Finset.range n := by
    intro i hi
    rw [List.mem_toFinset] at hi
    exact Finset.mem_range.mpr (hb i hi)
  have h2 := Finset.card_le_card h1
  rw [List.toFinset_card_of_nodup hn, Finset.card_range] at h2
  exact h2

theorem is_queue_length_le (k : Kernel) (l : List Nat) (p : Nat) (h : is_seg k p l 0) :
    l.length ≤ k.process_table.length :=
  nodup_length_le l _ (is_queue_nodup k l p h) (is_seg_mem_lt k l p 0 h)

theorem is_queue_slots (k : Kernel) (l : List Nat) (p f : Nat) (h : is_seg k p l 0)
    (hf : l.length < f) : queue_slots k f p = some l := by
  induction l generalizing p f with
  | nil =>
    have hp : p = 0 := h
    cases f with
    | zero => cases hf
    | succ f => rw [queue_slots, if_pos hp]
  | cons i rest ih =>
    obtain ⟨hs, c, hc, hr⟩ := h
    cases f with
    | zero => cases hf
    | succ f =>
      have hp0 := (pcb_slot_eq k p i hs).2.1
      rw [queue_slots, if_neg hp0, hs, pcb_at_slot k p i hs, hc]
      simp only
      rw [ih c.next f hr (by simpa using hf)]

theorem slots_is_queue (k : Kernel) (l : List Nat) (p f : Nat)
    (h : queue_slots k f p = some l) : is_seg k p l 0 ∧ l.length < f := by
  induction f generalizing p l with
  | zero => cases h
  | succ f ih =>
    rw [queue_slots] at h
    by_cases hp : p = 0
    · rw [if_pos hp] at h
      cases h
      exact ⟨hp, by simp⟩
    · rw [if_neg hp] at h
      cases hs : pcb_slot k p with
      | none => rw [hs] at h; cases h
      | some i =>
        rw [hs, pcb_at_slot k p i hs] at h
        cases hc : k.process_table.get? i with
        | none => rw [hc] at h; cases h
        | some c =>
          rw [hc] at h
          simp only at h
          cases hq : queue_slots k f c.next with
          | none => rw [hq] at h; cases h
          | some r =>
            rw [hq] at h
            cases h
            obtain ⟨h1, h2⟩ := ih _ _ hq
            exact ⟨⟨hs, c, hc, h1⟩, by simpa using h2⟩

/-- In a table of at most `MAX_PROCESSES` slots the executable walk
`ready_queue_slots` and the chain predicate agree. -/
theorem ready_queue_slots_iff (k : Kernel) (l : List Nat)
    (ht : k.process_table.length ≤ MAX_PROCESSES) :
    ready_queue_slots k = some l ↔ is_queue k k.ready_queue l := by
  constructor
  · intro h
    exact (slots_is_queue k l _ _ h).1
  · intro h
    have := is_queue_length_le k l _ h
    exact is_queue_slots k l _ _ h (by simp only [QUEUE_FUEL, MAX_PROCESSES] at *; omega)

/-! ## Stores into PCBs and the chains -/

/-- A store into a slot that is not on the chain, or that keeps `next`, keeps the chain. -/
theorem is_seg_modify (k : Kernel) (l : List Nat) (p q i : Nat) (f : pcb_t → pcb_t)
    (hf : i ∉ l ∨ ∀ c, (f c).next = c.next) (h : is_seg k p l q) :
    is_seg { k with process_table := table_modify k.process_table i f } p l q := by
  refine is_seg_congr k { k with process_table := table_modify k.process_table i f } rfl
    (table_modify_length _ _ _) l p q ?_ h
  intro j hj c hc
  by_cases hij : i = j
  · subst hij
    refine ⟨f c, by simp only; rw [table_modify_get_eq, hc]; rfl, ?_⟩
    rcases hf with hf | hf
    · exact absurd hj hf
    · exact hf c
  · exact ⟨c, by simp only; rw [table_modify_get_ne _ _ _ _ hij]; exact hc, rfl⟩

theorem is_seg_ready_queue (k : Kernel) (r : Nat) (l : List Nat) (p q : Nat)
    (h : is_seg k p l q) : is_seg { k with ready_queue := r } p l q :=
  is_seg_congr k { k with ready_queue := r } rfl rfl l p q (fun _ _ c hc => ⟨c, hc, rfl⟩) h

theorem is_seg_single (k : Kernel) (p j q : Nat) (h : is_seg k p [j] q) :
    p = pcb_ptr k j ∧ ∃ c, k.process_table.get? j = some c ∧ c.next = q := by
  obtain ⟨hs, c, hc, hr⟩ := h
  exact ⟨(pcb_slot_eq k p j hs).1, c, hc, hr⟩

theorem queue_last_spec (k : Kernel) (l0 : List Nat) (j p f : Nat)
    (h : is_seg k p (l0 ++ [j]) 0) (hf : (l0 ++ [j]).length ≤ f) :
    queue_last k f p = some (pcb_ptr k j) := by
  induction l0 generalizing p f with
  | nil =>
    obtain ⟨hs, c, hc, hr⟩ := h
    have hn : c.next = 0 := hr
    cases f with
    | zero => simp at hf
    | succ f =>
      rw [queue_last, pcb_at_slot k p j hs, hc]
      simp only
      rw [if_pos hn, (pcb_slot_eq k p j hs).1]
  | cons i rest ih =>
    obtain ⟨hs, c, hc, hr⟩ := h
    have hn : c.next ≠ 0 := by
      cases rest with
      | nil => exact (pcb_slot_eq k _ _ hr.1).2.1
      | cons x xs => exact (pcb_slot_eq k _ _ hr.1).2.1
    cases f with
    | zero => simp at hf
    | succ f =>
      rw [queue_last, pcb_at_slot k p i hs, hc]
      simp only
      rw [if_neg hn]
      exact ih _ _ hr (by simp at hf ⊢; omega)

theorem get_map (t : List pcb_t) (g : pcb_t → pcb_t) (n : Nat) :
    (t.map g).get? n = (t.get? n).map g := by
  rw [List.get?_eq_getElem?, List.get?_eq_getElem?, List.getElem?_map]

theorem unlink_modify_next (t : List pcb_t) (i x : Nat) :
    (table_modify t i (fun q => { q with next := x })).map (fun c => { c with next := 0 })
      = t.map (fun c => { c with next := 0 }) := by
  apply List.ext_get?
  intro n
  rw [get_map, get_map]
  by_cases hin : i = n
  · subst hin
    rw [table_modify_get_eq]
    cases t.get? i <;> rfl
  · rw [table_modify_get_ne _ _ _ _ hin]

/-- A store that does not touch `next` commutes with forgetting the links. -/
theorem unlink_modify (t : List pcb_t) (i : Nat) (f : pcb_t → pcb_t)
    (hf : ∀ c : pcb_t, ({ (f c) with next := 0 } : pcb_t) = f { c with next := 0 }) :
    (table_modify t i f).map (fun c => { c with next := 0 })
      = table_modify (t.map (fun c => { c with next := 0 })) i f := by
  apply List.ext_get?
  intro n
  rw [get_map]
  by_cases hin : i = n
  · subst hin
    rw [table_modify_get_eq, table_modify_get_eq, get_map]
    cases t.get? i with
    | none => rfl
    | some c => simp only [Option.map_some', hf]
  · rw [table_modify_get_ne _ _ _ _ hin, table_modify_get_ne _ _ _ _ hin, get_map]

theorem unlinked_modify_next (k : Kernel) (i x : Nat) :
    unlinked
      { k with process_table := table_modify k.process_table i (fun q => { q with next := x }) }
      = unlinked k := by
  unfold unlinked
  simp only [unlink_modify_next]

theorem pcb_slot_table (k : Kernel) (t : List pcb_t) (r p : Nat)
    (hlen : t.length = k.process_table.length) :
    pcb_slot { k with process_table := t, ready_queue := r } p = pcb_slot k p := by
  unfold pcb_slot
  simp only [hlen]

/-- `add_to_ready_queue` under round robin or FCFS: a PCB that is not
`TERMINATED` and not on the queue is linked behind the last PCB of the queue
and marked `READY`; nothing else but links changes. -/
theorem add_to_ready_queue_tail (k : Kernel) (process s : Nat) (c : pcb_t) (l : List Nat)
    (ht : k.process_table.length ≤ MAX_PROCESSES)
    (hpol : k.config.policy = .SCHED_ROUND_ROBIN ∨ k.config.policy = .SCHED_FCFS)
    (hq : is_queue k k.ready_queue l) (hs : pcb_slot k process = some s)
    (hc : k.process_table.get? s = some c) (hst : c.state ≠ TERMINATED) (hnot : s ∉ l) :
    ∃ k2, add_to_ready_queue k process = some k2 ∧
      is_queue k2 k2.ready_queue (l ++ [s]) ∧
      unlinked k2 = unlinked
        { k with
          process_table := table_modify k.process_table s (fun q => { q with state := READY }) } := by
  have hp0 := (pcb_slot_eq k process s hs).2.1
  have hpat : pcb_at k process = some c := by rw [pcb_at_slot k process s hs, hc]
  rw [add_to_ready_queue_eq k process c hp0 hpat hst, pcb_update_modify k process _ s hs]
  simp only [Option.some_bind]
  -- the state `k1` after `process->next = NULL`
  have hq1 := is_seg_modify k l _ 0 s (fun q => { q with next := 0 }) (Or.inl hnot) hq
  have hc1 := table_modify_get_eq k.process_table s (fun q => { q with next := 0 })
  have hlen1 := table_modify_length k.process_table s (fun q => { q with next := 0 })
  have hu1 := unlink_modify_next k.process_table s 0
  rw [hc] at hc1
  generalize table_modify k.process_table s (fun q => { q with next := 0 }) = t1 at *
  have hs1 : ∀ (t : List pcb_t) (r : Nat), t.length = k.process_table.length →
      pcb_slot { k with process_table := t, ready_queue := r } process = some s := by
    intro t r hlen
    rw [pcb_slot_table k t r process hlen]; exact hs
  by_cases h0 : k.ready_queue = 0
  · -- empty queue
    have hl : l = [] := by
      cases l with
      | nil => rfl
      | cons x xs =>
        obtain ⟨hx, _⟩ := hq
        rw [h0, pcb_slot_zero] at hx
        cases hx
    subst hl
    simp only [h0, if_true, Option.some_bind]
    rw [pcb_update_modify _ process _ s (hs1 _ _ hlen1)]
    refine ⟨_, rfl, ?_, ?_⟩
    · refine ⟨hs1 _ _ (by simp only [table_modify_length, hlen1]),
        { c with next := 0, state := READY }, ?_, rfl⟩
      simp only
      rw [table_modify_get_eq, hc1]
      rfl
    · unfold unlinked
      simp only [Kernel.mk.injEq, true_and, and_true]
      rw [unlink_modify _ s _ (fun _ => rfl), unlink_modify _ s _ (fun _ => rfl), hu1]
  · -- the queue has a last PCB
    have hne : l ≠ [] := by
      rintro rfl
      exact h0 hq
    obtain ⟨l0, j, rfl⟩ : ∃ l0 j, l = l0 ++ [j] := by
      rcases List.eq_nil_or_concat l with h | ⟨l0, j, h⟩
      · exact absurd h hne
      · exact ⟨l0, j, by rw [h, List.concat_eq_append]⟩
    have hlen := is_queue_length_le k _ _ hq
    have hlast := queue_last_spec _ l0 j k.ready_queue QUEUE_FUEL hq1
      (by simp only [QUEUE_FUEL, MAX_PROCESSES] at *; omega)
    have hjs : j ≠ s := by
      rintro rfl
      exact hnot (by simp)
    have hnd := is_queue_nodup k _ _ hq
    have hj0 : j ∉ l0 := by
      intro hj
      rw [List.nodup_append] at hnd
      exact hnd.2.2 hj (by simp)
    have hs0 : s ∉ l0 := fun h => hnot (by simp [h])
    simp only [h0, if_false]
    have hslotj : pcb_slot { k with process_table := t1 } (pcb_ptr k j) = some j := by
      obtain ⟨r, _, h2⟩ := (is_seg_append _ l0 [j] _ 0).mp hq1
      have := (is_seg_single _ _ _ _ h2).1
      rw [show pcb_ptr { k with process_table := t1 } j = pcb_ptr k j from rfl] at this
      rw [← this]
      exact h2.1
    have hlast2 : queue_last { k with process_table := t1 } QUEUE_FUEL k.ready_queue
        = some (pcb_ptr k j) := hlast
    have hbranch : ∀ (x y : Option Kernel), (match k.config.policy with
        | .SCHED_ROUND_ROBIN => x
        | .SCHED_FCFS => x
        | .SCHED_PRIORITY => y) = x := by
      intro x y
      rcases hpol with hpol | hpol <;> rw [hpol]
    rw [hbranch, hlast2]
    simp only [Option.some_bind]
    rw [pcb_update_modify _ _ _ j hslotj]
    simp only [Option.some_bind]
    rw [pcb_update_modify _ process _ s
      (hs1 _ _ (by simp only [table_modify_length, hlen1]))]
    refine ⟨_, rfl, ?_, ?_⟩
    · -- the new chain
      simp only
      unfold is_queue
      rw [is_seg_append] at hq1 ⊢
      obtain ⟨r, h1, h2⟩ := hq1
      obtain ⟨hrj, cj, hcj, _⟩ := is_seg_single _ r j 0 h2
      simp only at hcj
      refine ⟨process, ?_, ?_⟩
      · rw [is_seg_append]
        refine ⟨r, ?_, ?_⟩
        · have h1a := is_seg_modify { k with process_table := t1 } l0 k.ready_queue r j
            (fun q => { q with next := process }) (Or.inl hj0) h1
          exact is_seg_modify _ l0 k.ready_queue r s
            (fun q => { q with state := READY }) (Or.inl hs0) h1a
        · refine ⟨?_, { cj with next := process }, ?_, rfl⟩
          · rw [pcb_slot_table k _ _ r (by simp only [table_modify_length, hlen1])]
            rw [← pcb_slot_table k t1 k.ready_queue r hlen1]
            exact h2.1
          · simp only
            rw [table_modify_get_ne _ _ _ _ (Ne.symm hjs), table_modify_get_eq, hcj]
            rfl
      · refine ⟨hs1 _ _ (by simp only [table_modify_length, hlen1]),
          { c with next := 0, state := READY }, ?_, rfl⟩
        simp only
        rw [table_modify_get_eq, table_modify_get_ne _ _ _ _ hjs, hc1]
        rfl
    · unfold unlinked
      simp only [Kernel.mk.injEq, true_and, and_true]
      rw [unlink_modify _ s _ (fun _ => rfl), unlink_modify _ s _ (fun _ => rfl),
        unlink_modify_next, hu1]

theorem remove_from_ready_queue_eq (k : Kernel) (pid : Int) :
    remove_from_ready_queue k pid =
      if k.ready_queue = 0 then some k
      else
        match pcb_at k k.ready_queue with
        | none => none
        | some h =>
          if h.pid = pid then some { k with ready_queue := h.next }
          else
            (queue_find k pid QUEUE_FUEL 0 k.ready_queue).bind fun pos =>
              if pos.2 ≠ 0 then
                (pcb_at k pos.2).bind fun c =>
                  (if pos.1 ≠ 0 then pcb_update k pos.1 (fun q => { q with next := c.next })
                   else some k).bind fun k1 =>
                    pcb_update k1 pos.2 (fun q => { q with next := 0 })
              else some k := by
  unfold remove_from_ready_queue
  split
  · rfl
  · cases pcb_at k k.ready_queue with
    | none => rfl
    | some h =>
      simp only
      split
      · rfl
      · cases queue_find k pid QUEUE_FUEL 0 k.ready_queue with
        | none => rfl
        | some pos =>
          simp only [Option.bind_eq_bind, Option.some_bind]
          split
          · cases pcb_at k pos.2 with
            | none => rfl
            | some c =>
              simp only [Option.some_bind]
              split <;> rfl
          · rfl

theorem context_switch_eq (k : Kernel) (next : Nat) :
    context_switch k next =
      if get_current_process k = next then some k
      else
        (pcb_at k next).bind fun _ =>
          (if get_current_process k ≠ 0 then
            (pcb_at k (get_current_process k)).bind fun c =>
              if c.state = CURRENT then
                (pcb_update k (get_current_process k) (fun q => { q with state := READY })).bind
                  fun k0 => add_to_ready_queue k0 (get_current_process k)
              else some k
           else some k).bind fun k1 =>
            (pcb_update k1 next (fun q => { q with state := CURRENT })).bind fun k2 =>
              (pcb_at k2 next).bind fun n =>
                (remove_from_ready_queue k2 n.pid).bind fun k3 =>
                  (if get_current_process k ≠ 0 then
                    pcb_update k3 (get_current_process k)
                      (fun q => { q with cpu_time := add32 q.cpu_time k3.current_tick })
                   else some k3).bind fun k4 =>
                    some { k4 with current_tick := 0,
                                   context_switches := add32 k4.context_switches 1 } := by
  unfold context_switch
  simp only
  split
  · rfl
  · cases pcb_at k next with
    | none => rfl
    | some x =>
      simp only [Option.bind_eq_bind, Option.some_bind]
      split
      · cases pcb_at k (get_current_process k) with
        | none => rfl
        | some c =>
          simp only [Option.some_bind]
          split
          · cases pcb_update k (get_current_process k) (fun q => { q with state := READY }) with
            | none => rfl
            | some k0 =>
              simp only [Option.some_bind]
          · rfl
      · rfl

theorem schedule_eq (k : Kernel) :
    schedule k =
      (pick_next_process k).bind fun r =>
        if get_current_process k ≠ (if r.2 = 0 then r.1.idle_process else r.2) then
          context_switch r.1 (if r.2 = 0 then r.1.idle_process else r.2)
        else some r.1 := by
  unfold schedule
  rfl

theorem pick_next_process_eq (k : Kernel) :
    pick_next_process k =
      if k.ready_queue = 0 then some (k, 0)
      else
        (pick_selected k).bind
          fun selected =>
            if k.config.aging_enabled ≠ 0 then
              (queue_age selected QUEUE_FUEL k k.ready_queue).bind fun k1 =>
                if selected ≠ 0 then
                  (pcb_at k1 selected).bind fun s =>
                    if s.priority > 1 then
                      (pcb_update k1 selected (fun q => { q with priority := q.priority - 1 })).bind
                        fun k2 => some (k2, selected)
                    else some (k1, selected)
                else some (k1, selected)
            else some (k, selected) := by
  unfold pick_next_process pick_selected
  split
  · rfl
  · cases k.config.policy <;> rfl

/-! ## What the scheduler does not assign

A function of the kernel state that does not depend on the PCBs, the pointer
`ready_queue` and the three counters of `scheduler.c` has the same value before
and after each scheduler operation. -/

theorem frame_pcb_update {α : Type} (g : Kernel → α)
    (hg : ∀ (k : Kernel) (t : List pcb_t) (r a b c : Nat),
      g { k with process_table := t, ready_queue := r, timer_ticks := a, current_tick := b,
                 context_switches := c } = g k)
    (k k2 : Kernel) (p : Nat) (f : pcb_t → pcb_t) (h : pcb_update k p f = some k2) :
    g k2 = g k := by
  obtain ⟨i, q, _, _, rfl⟩ := pcb_update_eq k p f k2 h
  exact hg k _ k.ready_queue k.timer_ticks k.current_tick k.context_switches

theorem frame_add_to_ready_queue {α : Type} (g : Kernel → α)
    (hg : ∀ (k : Kernel) (t : List pcb_t) (r a b c : Nat),
      g { k with process_table := t, ready_queue := r, timer_ticks := a, current_tick := b,
                 context_switches := c } = g k)
    (k k2 : Kernel) (process : Nat) (h : add_to_ready_queue k process = some k2) :
    g k2 = g k := by
  by_cases hp0 : process = 0
  · unfold add_to_ready_queue at h
    rw [if_pos hp0] at h
    cases h
    rfl
  · cases hp : pcb_at k process with
    | none =>
      unfold add_to_ready_queue at h
      rw [if_neg hp0, hp] at h
      cases h
    | some p =>
      by_cases hs : p.state = TERMINATED
      · unfold add_to_ready_queue at h
        rw [if_neg hp0, hp] at h
        simp only at h
        rw [if_pos hs] at h
        cases h
        rfl
      · rw [add_to_ready_queue_eq k process p hp0 hp hs] at h
        obtain ⟨k1, h1, h⟩ := Option.bind_eq_some.mp h
        obtain ⟨k3, h3, h⟩ := Option.bind_eq_some.mp h
        rw [frame_pcb_update g hg _ _ _ _ h, ← frame_pcb_update g hg _ _ _ _ h1]
        clear h h1
        by_cases h0 : k1.ready_queue = 0
        · rw [if_pos h0] at h3
          cases h3
          exact hg k1 k1.process_table _ k1.timer_ticks k1.current_tick k1.context_switches
        · rw [if_neg h0] at h3
          cases hpol : k1.config.policy <;> rw [hpol] at h3 <;> simp only at h3
          · obtain ⟨last, _, h4⟩ := Option.bind_eq_some.mp h3
            exact frame_pcb_update g hg _ _ _ _ h4
          · obtain ⟨pos, _, h4⟩ := Option.bind_eq_some.mp h3
            by_cases hz : pos.1 = 0
            · rw [if_pos hz] at h4
              obtain ⟨k4, h5, h6⟩ := Option.bind_eq_some.mp h4
              cases h6
              rw [← frame_pcb_update g hg _ _ _ _ h5]
              exact hg k4 k4.process_table _ k4.timer_ticks k4.current_tick k4.context_switches
            · rw [if_neg hz] at h4
              obtain ⟨k4, h5, h6⟩ := Option.bind_eq_some.mp h4
              rw [frame_pcb_update g hg _ _ _ _ h6, frame_pcb_update g hg _ _ _ _ h5]
          · obtain ⟨last, _, h4⟩ := Option.bind_eq_some.mp h3
            exact frame_pcb_update g hg _ _ _ _ h4

theorem frame_remove_from_ready_queue {α : Type} (g : Kernel → α)
    (hg : ∀ (k : Kernel) (t : List pcb_t) (r a b c : Nat),
      g { k with process_table := t, ready_queue := r, timer_ticks := a, current_tick := b,
                 context_switches := c } = g k)
    (k k2 : Kernel) (pid : Int) (h : remove_from_ready_queue k pid = some k2) :
    g k2 = g k := by
  rw [remove_from_ready_queue_eq] at h
  by_cases h0 : k.ready_queue = 0
  · rw [if_pos h0] at h
    cases h
    rfl
  · rw [if_neg h0] at h
    cases hh : pcb_at k k.ready_queue with
    | none => rw [hh] at h; cases h
    | some c =>
      rw [hh] at h
      simp only at h
      by_cases hpid : c.pid = pid
      · rw [if_pos hpid] at h
        cases h
        exact hg k k.process_table _ k.timer_ticks k.current_tick k.context_switches
      · rw [if_neg hpid] at h
        obtain ⟨pos, _, h⟩ := Option.bind_eq_some.mp h
        by_cases h2 : pos.2 ≠ 0
        · rw [if_pos h2] at h
          obtain ⟨c2, _, h⟩ := Option.bind_eq_some.mp h
          obtain ⟨k1, h1, h⟩ := Option.bind_eq_some.mp h
          rw [frame_pcb_update g hg _ _ _ _ h]
          by_cases h3 : pos.1 ≠ 0
          · rw [if_pos h3] at h1
            exact frame_pcb_update g hg _ _ _ _ h1
          · rw [if_neg h3] at h1
            cases h1
            rfl
        · rw [if_neg h2] at h
          cases h
          rfl

theorem frame_queue_age {α : Type} (g : Kernel → α)
    (hg : ∀ (k : Kernel) (t : List pcb_t) (r a b c : Nat),
      g { k with process_table := t, ready_queue := r, timer_ticks := a, current_tick := b,
                 context_switches := c } = g k)
    (selected fuel : Nat) (k k2 : Kernel) (current : Nat)
    (h : queue_age selected fuel k current = some k2) : g k2 = g k := by
  induction fuel generalizing k current with
  | zero => unfold queue_age at h; cases h
  | succ fuel ih =>
    unfold queue_age at h
    by_cases h0 : current = 0
    · rw [if_pos h0] at h
      cases h
      rfl
    · rw [if_neg h0] at h
      cases hc : pcb_at k current with
      | none => rw [hc] at h; cases h
      | some c =>
        rw [hc] at h
        simp only at h
        by_cases hcond : current ≠ selected ∧ to_u32 c.priority < k.config.max_priority
        · rw [if_pos hcond] at h
          obtain ⟨k1, h1, h⟩ := Option.bind_eq_some.mp h
          rw [ih _ _ h, frame_pcb_update g hg _ _ _ _ h1]
        · rw [if_neg hcond] at h
          exact ih _ _ h

theorem frame_pick_next_process {α : Type} (g : Kernel → α)
    (hg : ∀ (k : Kernel) (t : List pcb_t) (r a b c : Nat),
      g { k with process_table := t, ready_queue := r, timer_ticks := a, current_tick := b,
                 context_switches := c } = g k)
    (k : Kernel) (r : Kernel × Nat) (h : pick_next_process k = some r) : g r.1 = g k := by
  rw [pick_next_process_eq] at h
  by_cases h0 : k.ready_queue = 0
  · rw [if_pos h0] at h
    cases h
    rfl
  · rw [if_neg h0] at h
    obtain ⟨selected, _, h⟩ := Option.bind_eq_some.mp h
    by_cases ha : k.config.aging_enabled ≠ 0
    · rw [if_pos ha] at h
      obtain ⟨k1, h1, h⟩ := Option.bind_eq_some.mp h
      rw [← frame_queue_age g hg _ _ _ _ _ h1]
      by_cases hs : selected ≠ 0
      · rw [if_pos hs] at h
        obtain ⟨s, _, h⟩ := Option.bind_eq_some.mp h
        by_cases hp : s.priority > 1
        · rw [if_pos hp] at h
          obtain ⟨k2, h2, h⟩ := Option.bind_eq_some.mp h
          cases h
          exact frame_pcb_update g hg _ _ _ _ h2
        · rw [if_neg hp] at h
          cases h
          rfl
      · rw [if_neg hs] at h
        cases h
        rfl
    · rw [if_neg ha] at h
      cases h
      rfl

theorem frame_context_switch {α : Type} (g : Kernel → α)
    (hg : ∀ (k : Kernel) (t : List pcb_t) (r a b c : Nat),
      g { k with process_table := t, ready_queue := r, timer_ticks := a, current_tick := b,
                 context_switches := c } = g k)
    (k k2 : Kernel) (next : Nat) (h : context_switch k next = some k2) : g k2 = g k := by
  rw [context_switch_eq] at h
  by_cases he : get_current_process k = next
  · rw [if_pos he] at h
    cases h
    rfl
  · rw [if_neg he] at h
    obtain ⟨_, _, h⟩ := Option.bind_eq_some.mp h
    obtain ⟨k1, h1, h⟩ := Option.bind_eq_some.mp h
    obtain ⟨k3, h3, h⟩ := Option.bind_eq_some.mp h
    obtain ⟨n, _, h⟩ := Option.bind_eq_some.mp h
    obtain ⟨k4, h4, h⟩ := Option.bind_eq_some.mp h
    obtain ⟨k5, h5, h⟩ := Option.bind_eq_some.mp h
    cases h
    have e1 : g k1 = g k := by
      by_cases hc0 : get_current_process k ≠ 0
      · rw [if_pos hc0] at h1
        obtain ⟨c, _, h1⟩ := Option.bind_eq_some.mp h1
        by_cases hst : c.state = CURRENT
        · rw [if_pos hst] at h1
          obtain ⟨k0, h0, h1⟩ := Option.bind_eq_some.mp h1
          rw [frame_add_to_ready_queue g hg _ _ _ h1, frame_pcb_update g hg _ _ _ _ h0]
        · rw [if_neg hst] at h1
          cases h1
          rfl
      · rw [if_neg hc0] at h1
        cases h1
        rfl
    have e5 : g k5 = g k4 := by
      by_cases hc0 : get_current_process k ≠ 0
      · rw [if_pos hc0] at h5
        exact frame_pcb_update g hg _ _ _ _ h5
      · rw [if_neg hc0] at h5
        cases h5
        rfl
    rw [← e1, ← frame_pcb_update g hg _ _ _ _ h3, ← frame_remove_from_ready_queue g hg _ _ _ h4,
      ← e5]
    exact hg k5 k5.process_table k5.ready_queue k5.timer_ticks _ _

theorem frame_schedule {α : Type} (g : Kernel → α)
    (hg : ∀ (k : Kernel) (t : List pcb_t) (r a b c : Nat),
      g { k with process_table := t, ready_queue := r, timer_ticks := a, current_tick := b,
                 context_switches := c } = g k)
    (k k2 : Kernel) (h : schedule k = some k2) : g k2 = g k := by
  rw [schedule_eq] at h
  obtain ⟨r, hr, h⟩ := Option.bind_eq_some.mp h
  rw [← frame_pick_next_process g hg k r hr]
  by_cases hne : get_current_process k ≠ (if r.2 = 0 then r.1.idle_process else r.2)
  · rw [if_pos hne] at h
    exact frame_context_switch g hg _ _ _ h
  · rw [if_neg hne] at h
    cases h
    rfl

theorem frame_timer_tick {α : Type} (g : Kernel → α)
    (hg : ∀ (k : Kernel) (t : List pcb_t) (r a b c : Nat),
      g { k with process_table := t, ready_queue := r, timer_ticks := a, current_tick := b,
                 context_switches := c } = g k)
    (k k2 : Kernel) (h : timer_tick k = some k2) : g k2 = g k := by
  have e1 : g { k with timer_ticks := add32 k.timer_ticks 1,
                       current_tick := add32 k.current_tick 1 } = g k :=
    hg k k.process_table k.ready_queue _ _ k.context_switches
  unfold timer_tick at h
  simp only at h
  split at h
  · split at h
    · cases h
    · split at h
      · split at h
        · rw [frame_schedule g hg _ _ h, e1]
        · cases h
          exact e1
      · cases h
        exact e1
  · cases h
    exact e1

/-! ## The current pid -/

theorem create_process_current_pid (k : Kernel) (entry_point : Nat) (name : Option (List Nat))
    (r : Kernel × Int) (h : create_process k entry_point name = some r) :
    r.1.current_pid = k.current_pid := by
  unfold create_process at h
  simp only at h
  repeat' split at h
  all_goals first
    | (cases h; rfl)
    | cases h

theorem terminate_process_current_pid (k : Kernel) (pid : Int) :
    (terminate_process k pid).current_pid = k.current_pid := by
  unfold terminate_process
  repeat' split
  all_goals rfl

theorem set_process_state_current_pid (k : Kernel) (pid : Int) (state : Nat) :
    (set_process_state k pid state).current_pid =
      if state = CURRENT ∧ (find_pid pid k.process_table 0).isSome = true then pid
      else k.current_pid := by
  unfold set_process_state
  cases hf : find_pid pid k.process_table 0 with
  | none => simp
  | some i =>
    obtain ⟨p, hp, _⟩ := find_pid_get pid k.process_table i hf
    simp only
    rw [hp]
    by_cases hs : state = CURRENT
    · simp [hs]
    · simp [hs]

/-- C27 (the current pid is not assigned by the scheduler): for every state,
`get_current_pid` returns after `context_switch(next)`, after `schedule()` and
after `timer_tick()` the value that it returned before, for every `next`; the
same holds for `add_to_ready_queue`, `remove_from_ready_queue`,
`pick_next_process`, `create_process` and `terminate_process`.  A call
`set_process_state(pid, state)` gives `get_current_pid() = pid` when `state` is
`CURRENT` and a PCB with that pid is found, and leaves it as it was in every
other case.  (`process_manager_init` is the initialiser that sets it to
`NULL_PID`.) -/
theorem context_switch_keeps_current_pid (k : Kernel) :
    (∀ next k2, context_switch k next = some k2 → get_current_pid k2 = get_current_pid k) ∧
    (∀ k2, schedule k = some k2 → get_current_pid k2 = get_current_pid k) ∧
    (∀ k2, timer_tick k = some k2 → get_current_pid k2 = get_current_pid k) ∧
    (∀ p k2, add_to_ready_queue k p = some k2 → get_current_pid k2 = get_current_pid k) ∧
    (∀ pid k2, remove_from_ready_queue k pid = some k2 →
      get_current_pid k2 = get_current_pid k) ∧
    (∀ r, pick_next_process k = some r → get_current_pid r.1 = get_current_pid k) ∧
    (∀ e name r, create_process k e name = some r → get_current_pid r.1 = get_current_pid k) ∧
    (∀ pid, get_current_pid (terminate_process k pid) = get_current_pid k) ∧
    (∀ pid state, get_current_pid (set_process_state k pid state) =
      if state = CURRENT ∧ (find_pid pid k.process_table 0).isSome = true then pid
      else get_current_pid k) ∧
    get_current_pid (process_manager_init k) = NULL_PID := by
  have hg : ∀ (k : Kernel) (t : List pcb_t) (r a b c : Nat),
      get_current_pid
        { k with process_table := t, ready_queue := r, timer_ticks := a, current_tick := b,
                 context_switches := c } = get_current_pid k := fun _ _ _ _ _ _ => rfl
  refine ⟨fun next k2 h => frame_context_switch _ hg k k2 next h,
    fun k2 h => frame_schedule _ hg k k2 h,
    fun k2 h => frame_timer_tick _ hg k k2 h,
    fun p k2 h => frame_add_to_ready_queue _ hg k k2 p h,
    fun pid k2 h => frame_remove_from_ready_queue _ hg k k2 pid h,
    fun r h => frame_pick_next_process _ hg k r h,
    fun e name r h => create_process_current_pid k e name r h,
    fun pid => terminate_process_current_pid k pid,
    fun pid state => set_process_state_current_pid k pid state, rfl⟩

theorem context_switch_keeps_current_pid_witness :
    context_switch three_queued (pcb_ptr three_queued 1) ≠ none ∧
      timer_tick three_queued ≠ none ∧
      (context_switch three_queued (pcb_ptr three_queued 1)).map get_current_pid = some 0 ∧
      ∀ k2, context_switch three_queued (pcb_ptr three_queued 1) = some k2 →
        get_current_pid k2 = get_current_pid three_queued :=
  ⟨by decide, by decide, by decide,
    fun k2 h => (context_switch_keeps_current_pid three_queued).1 _ k2 h⟩

/-! ## Creation followed by termination -/

theorem kmalloc_stack_table (m : MemState) (n : Nat) :
    (kmalloc m n).1.stack_table = m.stack_table := by
  unfold kmalloc
  split
  · rfl
  · split <;> rfl

theorem kfree_stack_table (m : MemState) (p : Nat) :
    (kfree m p).stack_table = m.stack_table := by
  unfold kfree
  split
  · rfl
  · split <;> rfl

theorem kfree_with_stack (m : MemState) (s : List stack_info_t) (p : Nat) :
    kfree { m with stack_table := s } p = { kfree m p with stack_table := s } := by
  unfold kfree
  split
  · rfl
  · simp only
    split <;> rfl

theorem allocate_stack_inv (base : Nat) (m : MemState) (pid : Int) (h : heap_inv base m) :
    heap_inv base (allocate_stack m pid).1 := by
  unfold allocate_stack
  split
  · exact h
  · simp only
    split
    · exact kmalloc_inv base m STACK_SIZE h
    · exact kmalloc_inv base m STACK_SIZE h

theorem allocate_stack_table (m : MemState) (pid : Int) :
    ∀ r ∈ (allocate_stack m pid).1.stack_table, r ∈ m.stack_table ∨ r.pid = pid := by
  intro r hr
  unfold allocate_stack at hr
  split at hr
  · exact Or.inl hr
  · simp only at hr
    split at hr
    · rw [kmalloc_stack_table] at hr
      exact Or.inl hr
    · simp only [List.mem_append, List.mem_singleton] at hr
      rcases hr with hr | hr
      · rw [kmalloc_stack_table] at hr
        exact Or.inl hr
      · exact Or.inr (by rw [hr])

theorem free_stack_scan_mem (pid : Int) (l l2 : List stack_info_t) (a : Nat)
    (h : free_stack_scan pid l = some (a, l2)) : ∀ r ∈ l2, r ∈ l := by
  induction l generalizing l2 a with
  | nil => unfold free_stack_scan at h; cases h
  | cons s rest ih =>
    unfold free_stack_scan at h
    split at h
    · simp only [Option.some.injEq, Prod.mk.injEq] at h
      obtain ⟨_, rfl⟩ := h
      intro r hr
      exact List.mem_cons_of_mem _ hr
    · cases hs : free_stack_scan pid rest with
      | none => rw [hs] at h; cases h
      | some x =>
        obtain ⟨a1, l1⟩ := x
        rw [hs] at h
        simp only [Option.some.injEq, Prod.mk.injEq] at h
        obtain ⟨_, rfl⟩ := h
        intro r hr
        rcases List.mem_cons.mp hr with hr | hr
        · rw [hr]; exact List.mem_cons_self _ _
        · exact List.mem_cons_of_mem _ (ih l1 a1 hs r hr)

theorem free_stack_inv (base : Nat) (m : MemState) (pid : Int) (h : heap_inv base m) :
    heap_inv base (free_stack m pid) ∧
      ∀ r ∈ (free_stack m pid).stack_table, r ∈ m.stack_table := by
  unfold free_stack
  cases hs : free_stack_scan pid m.stack_table with
  | none => exact ⟨h, fun r hr => hr⟩
  | some x =>
    obtain ⟨a, l⟩ := x
    exact ⟨kfree_inv base m a h, free_stack_scan_mem pid _ l a hs⟩

theorem free_stack_scan_append (pid : Int) (st : List stack_info_t) (rec : stack_info_t)
    (h : ∀ r ∈ st, r.pid ≠ pid) (hrec : rec.pid = pid) :
    free_stack_scan pid (st ++ [rec]) = some (rec.base_addr, st) := by
  induction st with
  | nil =>
    simp only [List.nil_append]
    unfold free_stack_scan
    rw [if_pos hrec]
  | cons s rest ih =>
    simp only [List.cons_append]
    unfold free_stack_scan
    rw [if_neg (h s (List.mem_cons_self _ _)),
      ih (fun r hr => h r (List.mem_cons_of_mem _ hr))]

theorem find_pid_of_mem (P : Int) (t : List pcb_t) (s : Nat) (h : ∃ p ∈ t, p.pid = P) :
    ∃ j, find_pid P t s = some j := by
  induction t generalizing s with
  | nil => obtain ⟨p, hp, _⟩ := h; cases hp
  | cons q rest ih =>
    unfold find_pid
    by_cases hq : q.pid = P
    · exact ⟨s, by rw [if_pos hq]⟩
    · rw [if_neg hq]
      obtain ⟨p, hp, hpp⟩ := h
      rcases List.mem_cons.mp hp with hp | hp
      · rw [hp] at hpp; exact absurd hpp hq
      · exact ih (s + 1) ⟨p, hp, hpp⟩

theorem pcb_store_byte_pid (p : pcb_t) (k c : Nat) (hk : 4 ≤ k) :
    (pcb_store_byte p k c).pid = p.pid := by
  unfold pcb_store_byte
  split
  · omega
  all_goals rfl

theorem table_store_byte_pid (t : List pcb_t) (off c s : Nat)
    (h : sizeof_pcb_t * s + 4 ≤ off) :
    ((table_store_byte t off c).get? s).map (fun p => p.pid)
      = (t.get? s).map (fun p => p.pid) := by
  unfold table_store_byte
  cases hg : t.get? (off / sizeof_pcb_t) with
  | none => rfl
  | some p =>
    simp only
    by_cases hs : off / sizeof_pcb_t = s
    · have hk : 4 ≤ off % sizeof_pcb_t := by
        simp only [sizeof_pcb_t] at *
        omega
      rw [← hs, List.get?_eq_getElem?, List.get?_eq_getElem?, List.getElem?_set_self
        (by
          rw [List.get?_eq_getElem?] at hg
          exact (List.getElem?_eq_some_iff.mp hg).1)]
      rw [List.get?_eq_getElem?] at hg
      rw [hg]
      simp only [Option.map_some', pcb_store_byte_pid p _ c hk]
    · rw [List.get?_eq_getElem?, List.get?_eq_getElem?, List.getElem?_set_ne hs]

theorem table_store_bytes_pid (cs : List Nat) (t : List pcb_t) (off s : Nat)
    (h : sizeof_pcb_t * s + 4 ≤ off) :
    ((table_store_bytes t off cs).get? s).map (fun p => p.pid)
      = (t.get? s).map (fun p => p.pid) := by
  induction cs generalizing t off with
  | nil => rfl
  | cons c cs ih =>
    unfold table_store_bytes
    rw [ih _ _ (by omega), table_store_byte_pid t off c s h]

/-- What a successful `create_process` did: the stack was allocated for the
value of the pid counter, which is the returned pid and the pid of a slot. -/
theorem create_process_success (k : Kernel) (e : Nat) (name : Option (List Nat))
    (k2 : Kernel) (p : Int) (h : create_process k e name = some (k2, p)) (hp : p ≠ -1) :
    k2.mem = (allocate_stack k.mem k.next_pid).1 ∧ (allocate_stack k.mem k.next_pid).2 ≠ 0 ∧
      p = k.next_pid ∧ k2.message_queue = k.message_queue ∧
      k2.process_count = k.process_count + 1 ∧ k2.next_pid = k.next_pid + 1 ∧
      ∃ q ∈ k2.process_table, q.pid = k.next_pid := by
  unfold create_process at h
  split at h
  · simp only [Option.some.injEq, Prod.mk.injEq] at h
    exact absurd h.2.symm hp
  · split at h
    · simp only [Option.some.injEq, Prod.mk.injEq] at h
      exact absurd h.2.symm hp
    · rename_i slot hslot
      simp only at h
      split at h
      · simp only [Option.some.injEq, Prod.mk.injEq] at h
        exact absurd h.2.symm hp
      · rename_i htop
        split at h
        · cases h
        · rename_i p0 hp0
          split at h
          · cases h
          · split at h
            · cases h
            · rename_i q hq
              simp only [Option.some.injEq, Prod.mk.injEq] at h
              obtain ⟨rfl, rfl⟩ := h
              refine ⟨rfl, htop, rfl, rfl, rfl, rfl, ?_⟩
              have hlt : slot < k.process_table.length := by
                rw [List.get?_eq_getElem?] at hp0
                exact (List.getElem?_eq_some_iff.mp hp0).1
              have hpid := table_store_bytes_pid (name_bytes name)
                (k.process_table.set slot
                  { p0 with pid := k.next_pid, state := READY, program_counter := e,
                            stack_pointer := (allocate_stack k.mem k.next_pid).2,
                            stack_base := sub32 (allocate_stack k.mem k.next_pid).2 STACK_SIZE,
                            priority := 1, cpu_time := 0, next := 0 })
                (sizeof_pcb_t * slot + offsetof_page_directory) slot
                (by simp only [offsetof_page_directory]; omega)
              unfold store_name at hq
              rw [hq, List.get?_eq_getElem?, List.getElem?_set_self hlt] at hpid
              simp only [Option.map_some', Option.some.injEq] at hpid
              have hlt2 : slot < (table_store_bytes
                  (k.process_table.set slot
                    { p0 with pid := k.next_pid, state := READY, program_counter := e,
                              stack_pointer := (allocate_stack k.mem k.next_pid).2,
                              stack_base := sub32 (allocate_stack k.mem k.next_pid).2 STACK_SIZE,
                              priority := 1, cpu_time := 0, next := 0 })
                  (sizeof_pcb_t * slot + offsetof_page_directory) (name_bytes name)).length := by
                rw [List.get?_eq_getElem?] at hq
                exact (List.getElem?_eq_some_iff.mp hq).1
              refine ⟨_, List.mem_iff_getElem?.mpr ⟨slot, List.getElem?_set_self hlt2⟩, ?_⟩
              exact hpid

theorem purge_messages_nil (pid : Int) (m : MemState) : purge_messages pid [] m = ([], m) := by
  unfold purge_messages
  rfl

theorem create_process_proc_inv (base : Nat) (k : Kernel) (e : Nat) (name : Option (List Nat))
    (r : Kernel × Int) (harena : base + HEAP_SIZE < 4294967296) (hinv : proc_inv base k)
    (h : create_process k e name = some r) : proc_inv base r.1 := by
  obtain ⟨k2, p⟩ := r
  obtain ⟨h1, h2, h3, h4⟩ := hinv
  by_cases hp : p = -1
  · have hfail : k2 = k := by
      unfold create_process at h
      split at h
      · simp only [Option.some.injEq, Prod.mk.injEq] at h
        exact h.1.symm
      · split at h
        · simp only [Option.some.injEq, Prod.mk.injEq] at h
          exact h.1.symm
        · simp only at h
          split at h
          · rename_i htop
            simp only [Option.some.injEq, Prod.mk.injEq] at h
            rw [allocate_stack_fail base k.mem k.next_pid h1 harena htop] at h
            exact h.1.symm
          · split at h
            · cases h
            · split at h
              · cases h
              · split at h
                · cases h
                · simp only [Option.some.injEq, Prod.mk.injEq] at h
                  simp only [INIT_PID] at h3
                  omega
    rw [hfail]
    exact ⟨h1, h2, h3, h4⟩
  · obtain ⟨hm, _, _, hq, _, hn, _⟩ := create_process_success k e name k2 p h hp
    refine ⟨?_, ?_, ?_, ?_⟩
    · simp only
      rw [hm]
      exact allocate_stack_inv base k.mem k.next_pid h1
    · simp only
      rw [hq]
      exact h2
    · simp only [INIT_PID] at h3 ⊢
      omega
    · intro r hr
      simp only at hr ⊢
      rw [hm] at hr
      rw [hn]
      rcases allocate_stack_table k.mem k.next_pid r hr with hr | hr
      · have := h4 r hr
        omega
      · omega

theorem terminate_process_proc_inv (base : Nat) (k : Kernel) (pid : Int)
    (hinv : proc_inv base k) : proc_inv base (terminate_process k pid) := by
  obtain ⟨h1, h2, h3, h4⟩ := hinv
  unfold terminate_process
  split
  · exact ⟨h1, h2, h3, h4⟩
  · split
    · exact ⟨h1, h2, h3, h4⟩
    · split
      · exact ⟨h1, h2, h3, h4⟩
      · simp only [h2, purge_messages_nil]
        obtain ⟨f1, f2⟩ := free_stack_inv base k.mem pid h1
        exact ⟨f1, rfl, h3, fun r hr => h4 r (f2 r hr)⟩

theorem proc_init_inv (table_addr kernel_end : Nat) :
    proc_inv (page_align kernel_end) (proc_init table_addr kernel_end) := by
  refine ⟨memory_init_inv kernel_end, rfl, le_refl _, ?_⟩
  intro r hr
  cases hr

theorem proc_run_inv (base : Nat) (calls : List ProcCall) (k k2 : Kernel)
    (harena : base + HEAP_SIZE < 4294967296) (hinv : proc_inv base k)
    (h : proc_run k calls = some k2) : proc_inv base k2 := by
  induction calls generalizing k with
  | nil =>
    unfold proc_run at h
    cases h
    exact hinv
  | cons c rest ih =>
    unfold proc_run at h
    obtain ⟨k1, h1, h⟩ := Option.bind_eq_some.mp h
    refine ih k1 ?_ h
    cases c with
    | create e n =>
      unfold proc_step at h1
      obtain ⟨r, hr, rfl⟩ := Option.map_eq_some'.mp h1
      exact create_process_proc_inv base k e n r harena hinv hr
    | terminate pid =>
      unfold proc_step at h1
      cases h1
      exact terminate_process_proc_inv base k pid hinv

/-- A successful `create_process` followed by `terminate_process` of the
returned pid, in a state that satisfies `proc_inv`. -/
theorem create_terminate_inv (base : Nat) (k : Kernel) (e : Nat) (name : Option (List Nat))
    (k2 : Kernel) (p : Int) (hinv : proc_inv base k)
    (h : create_process k e name = some (k2, p)) (hp : p ≠ -1) :
    (terminate_process k2 p).mem = k.mem ∧
      (terminate_process k2 p).process_count = k.process_count ∧
      (terminate_process k2 p).message_queue = k.message_queue ∧
      (terminate_process k2 p).next_pid = k.next_pid + 1 := by
  obtain ⟨h1, h2, h3, h4⟩ := hinv
  obtain ⟨hm, htop, hpn, hq, hc, hn, hslot⟩ := create_process_success k e name k2 p h hp
  subst hpn
  obtain ⟨j, hj⟩ := find_pid_of_mem k.next_pid k2.process_table 0 hslot
  obtain ⟨pj, hpj, _⟩ := find_pid_get k.next_pid k2.process_table j hj
  have h0 : k.next_pid ≠ NULL_PID := by
    simp only [INIT_PID, NULL_PID] at *
    omega
  have hmem : free_stack k2.mem k.next_pid = k.mem := by
    rw [hm]
    unfold allocate_stack at htop ⊢
    by_cases hfull : k.mem.stack_table.length ≥ MAX_BLOCKS
    · rw [if_pos hfull] at htop
      exact absurd rfl htop
    · rw [if_neg hfull] at htop ⊢
      simp only at htop ⊢
      by_cases hk : (kmalloc k.mem STACK_SIZE).2 = 0
      · rw [if_pos hk] at htop
        exact absurd rfl htop
      · rw [if_neg hk]
        unfold free_stack
        simp only
        rw [kmalloc_stack_table, free_stack_scan_append k.next_pid k.mem.stack_table _
          (fun r hr => ne_of_lt (h4 r hr)) rfl]
        simp only
        have hkf := kfree_kmalloc_inv base k.mem STACK_SIZE h1 hk
        have hws := kfree_with_stack (kmalloc k.mem STACK_SIZE).1
          (k.mem.stack_table ++
            [{ base_addr := (kmalloc k.mem STACK_SIZE).2, size := STACK_SIZE, pid := k.next_pid }])
          (kmalloc k.mem STACK_SIZE).2
        rw [hkf] at hws
        rw [hws]
  unfold terminate_process
  rw [if_neg h0, hj]
  simp only
  rw [hpj]
  simp only
  rw [hq, h2, purge_messages_nil, hmem]
  refine ⟨rfl, ?_, rfl, hn⟩
  rw [hc]
  omega

/-- C28 (create/terminate round trip on resources): in every state reached
from `memory_init` and `process_manager_init` by calls of `create_process` and
`terminate_process`, with the heap arena below `2^32`: if `create_process`
returns a pid `p` other than `-1` and `terminate_process(p)` is called next,
then the block list, the used-bytes counter, the stack table (records and
order), the live-process count and the message queue are what they were before
the `create_process`; the pid counter has advanced by one. -/
theorem create_terminate_round_trip (table_addr kernel_end : Nat) (calls : List ProcCall)
    (k : Kernel) (e : Nat) (name : Option (List Nat)) (k2 : Kernel) (p : Int)
    (harena : page_align kernel_end + HEAP_SIZE < 4294967296)
    (hk : proc_run (proc_init table_addr kernel_end) calls = some k)
    (h : create_process k e name = some (k2, p)) (hp : p ≠ -1) :
    (terminate_process k2 p).mem.free_list = k.mem.free_list ∧
      (terminate_process k2 p).mem.heap_used = k.mem.heap_used ∧
      (terminate_process k2 p).mem.stack_table = k.mem.stack_table ∧
      (terminate_process k2 p).process_count = k.process_count ∧
      (terminate_process k2 p).message_queue = k.message_queue ∧
      (terminate_process k2 p).next_pid = k.next_pid + 1 := by
  have hinv := proc_run_inv _ calls _ k harena (proc_init_inv table_addr kernel_end) hk
  obtain ⟨h1, h2, h3, h4⟩ := create_terminate_inv _ k e name k2 p hinv h hp
  rw [h1]
  exact ⟨rfl, rfl, rfl, h2, h3, h4⟩

theorem create_terminate_round_trip_witness :
    (page_align 0x100000 + HEAP_SIZE < 4294967296 ∧
      proc_run (proc_init 0x200000 0x100000)
        [.create 0x1000 (some [97]), .create 0x2000 (some [98]), .terminate 1]
        = some round_trip_state ∧
      create_process round_trip_state 0x3000 (some TestProc1) = some (round_trip_created.1, 3) ∧
      (3 : Int) ≠ -1) ∧
    (terminate_process round_trip_created.1 3).mem.free_list = round_trip_state.mem.free_list ∧
      (terminate_process round_trip_created.1 3).mem.heap_used
        = round_trip_state.mem.heap_used ∧
      (terminate_process round_trip_created.1 3).mem.stack_table
        = round_trip_state.mem.stack_table ∧
      (terminate_process round_trip_created.1 3).process_count
        = round_trip_state.process_count ∧
      (terminate_process round_trip_created.1 3).message_queue
        = round_trip_state.message_queue ∧
      (terminate_process round_trip_created.1 3).next_pid = round_trip_state.next_pid + 1 :=
  ⟨⟨by decide, by decide, by decide, by decide⟩,
    create_terminate_round_trip 0x200000 0x100000
      [.create 0x1000 (some [97]), .create 0x2000 (some [98]), .terminate 1]
      round_trip_state 0x3000 (some TestProc1) round_trip_created.1 3
      (by decide) (by decide) (by decide) (by decide)⟩

/-! ## Reading the state without the links -/

theorem unlinked_get (a b : Kernel) (h : unlinked a = unlinked b) (i : Nat) :
    (a.process_table.get? i).map (fun c => ({ c with next := 0 } : pcb_t))
      = (b.process_table.get? i).map (fun c => ({ c with next := 0 } : pcb_t)) := by
  have ht : a.process_table.map (fun c => ({ c with next := 0 } : pcb_t))
      = b.process_table.map (fun c => ({ c with next := 0 } : pcb_t)) :=
    congrArg Kernel.process_table h
  rw [← get_map, ← get_map, ht]

theorem unlinked_slots (a b : Kernel) (h : unlinked a = unlinked b) (i : Nat) :
    slot_pid a i = slot_pid b i ∧ slot_state a i = slot_state b i ∧
      slot_priority a i = slot_priority b i ∧ slot_cpu_time a i = slot_cpu_time b i := by
  have hg := unlinked_get a b h i
  unfold slot_pid slot_state slot_priority slot_cpu_time
  cases ha : a.process_table.get? i with
  | none =>
    cases hb : b.process_table.get? i with
    | none => exact ⟨rfl, rfl, rfl, rfl⟩
    | some cb => rw [ha, hb] at hg; cases hg
  | some ca =>
    cases hb : b.process_table.get? i with
    | none => rw [ha, hb] at hg; cases hg
    | some cb =>
      rw [ha, hb] at hg
      simp only [Option.map_some', Option.some.injEq] at hg
      simp only [pcb_t.mk.injEq, and_true] at hg
      exact ⟨hg.1, hg.2.1, hg.2.2.2.2.2.2.1, hg.2.2.2.2.2.2.2⟩

/-- Two states that differ in links only agree on every other variable. -/
theorem unlinked_fields (a b : Kernel) (h : unlinked a = unlinked b) :
    a.mem = b.mem ∧ a.table_addr = b.table_addr ∧ a.next_pid = b.next_pid ∧
      a.current_pid = b.current_pid ∧ a.process_count = b.process_count ∧
      a.message_queue = b.message_queue ∧ a.config = b.config ∧
      a.timer_ticks = b.timer_ticks ∧ a.current_tick = b.current_tick ∧
      a.context_switches = b.context_switches ∧ a.idle_process = b.idle_process := by
  unfold unlinked at h
  simp only [Kernel.mk.injEq] at h
  obtain ⟨h1, h2, _, h4, h5, h6, h7, _, h9, h10, h11, h12, h13⟩ := h
  exact ⟨h1, h2, h4, h5, h6, h7, h9, h10, h11, h12, h13⟩

theorem unlinked_length (a b : Kernel) (h : unlinked a = unlinked b) :
    a.process_table.length = b.process_table.length := by
  have ht : a.process_table.map (fun c => ({ c with next := 0 } : pcb_t))
      = b.process_table.map (fun c => ({ c with next := 0 } : pcb_t)) :=
    congrArg Kernel.process_table h
  have := congrArg List.length ht
  simpa using this

/-- A store to a field other than `next`, on two states that differ in links only. -/
theorem unlinked_modify_congr (a b : Kernel) (i : Nat) (f : pcb_t → pcb_t)
    (hf : ∀ c : pcb_t, ({ (f c) with next := 0 } : pcb_t) = f { c with next := 0 })
    (h : unlinked a = unlinked b) :
    unlinked { a with process_table := table_modify a.process_table i f }
      = unlinked { b with process_table := table_modify b.process_table i f } := by
  have ht : a.process_table.map (fun c => ({ c with next := 0 } : pcb_t))
      = b.process_table.map (fun c => ({ c with next := 0 } : pcb_t)) :=
    congrArg Kernel.process_table h
  unfold unlinked at h ⊢
  simp only [Kernel.mk.injEq] at h ⊢
  obtain ⟨h1, h2, h3, h4, h5, h6, h7, h8, h9, h10, h11, h12, h13⟩ := h
  refine ⟨h1, h2, ?_, h4, h5, h6, h7, h8, h9, h10, h11, h12, h13⟩
  rw [unlink_modify _ i f hf, unlink_modify _ i f hf, ht]

theorem slot_state_of_get (k : Kernel) (s : Nat) (h : slot_state k s ≠ TERMINATED) :
    ∃ c, k.process_table.get? s = some c ∧ c.state = slot_state k s := by
  unfold slot_state at h ⊢
  cases hg : k.process_table.get? s with
  | none => rw [hg] at h; exact absurd rfl h
  | some c => exact ⟨c, rfl, rfl⟩

/-! ## The queue under round robin and FCFS -/

theorem add_to_ready_queue_fifo (k : Kernel) (process s : Nat) (l : List Nat)
    (ht : k.process_table.length ≤ MAX_PROCESSES)
    (hpol : k.config.policy = .SCHED_ROUND_ROBIN ∨ k.config.policy = .SCHED_FCFS)
    (hq : is_queue k k.ready_queue l) (hs : pcb_slot k process = some s)
    (hst : slot_state k s ≠ TERMINATED) (hnot : s ∉ l) :
    ∃ k2, add_to_ready_queue k process = some k2 ∧ is_queue k2 k2.ready_queue (l ++ [s]) ∧
      k2.config = k.config ∧ k2.table_addr = k.table_addr ∧
      k2.process_table.length = k.process_table.length ∧
      (∀ i, slot_pid k2 i = slot_pid k i) ∧
      (∀ i, slot_state k2 i = if i = s then READY else slot_state k i) := by
  obtain ⟨c, hc, hcs⟩ := slot_state_of_get k s hst
  obtain ⟨k2, h1, h2, hu⟩ := add_to_ready_queue_tail k process s c l ht hpol hq hs hc
    (by rw [hcs]; exact hst) hnot
  have hf := unlinked_fields _ _ hu
  refine ⟨k2, h1, h2, hf.2.2.2.2.2.2.1, hf.2.1, ?_, ?_, ?_⟩
  · rw [unlinked_length _ _ hu]
    exact table_modify_length _ _ _
  · intro i
    rw [(unlinked_slots _ _ hu i).1]
    unfold slot_pid
    simp only
    by_cases his : s = i
    · subst his
      rw [table_modify_get_eq, hc]
      rfl
    · rw [table_modify_get_ne _ _ _ _ his]
  · intro i
    rw [(unlinked_slots _ _ hu i).2.1]
    unfold slot_state
    simp only
    by_cases his : s = i
    · subst his
      rw [table_modify_get_eq, hc, if_pos rfl]
      rfl
    · rw [table_modify_get_ne _ _ _ _ his, if_neg (Ne.symm his)]

theorem add_to_ready_queue_terminated (k : Kernel) (process s : Nat)
    (hs : pcb_slot k process = some s) (hst : slot_state k s = TERMINATED) :
    add_to_ready_queue k process = some k := by
  obtain ⟨_, hp0, hlt⟩ := pcb_slot_eq k process s hs
  unfold add_to_ready_queue
  rw [if_neg hp0, pcb_at_slot k process s hs]
  unfold slot_state at hst
  cases hg : k.process_table.get? s with
  | none =>
    rw [List.get?_eq_getElem?] at hg
    rw [List.getElem?_eq_none_iff] at hg
    omega
  | some c =>
    rw [hg] at hst
    simp only at hst ⊢
    rw [if_pos hst]

theorem pick_next_process_fifo (k : Kernel)
    (hpol : k.config.policy = .SCHED_ROUND_ROBIN ∨ k.config.policy = .SCHED_FCFS)
    (hage : k.config.aging_enabled = 0) : pick_next_process k = some (k, k.ready_queue) := by
  rw [pick_next_process_eq]
  by_cases h0 : k.ready_queue = 0
  · rw [if_pos h0, h0]
  · rw [if_neg h0]
    unfold pick_selected
    rcases hpol with hpol | hpol <;> rw [hpol] <;>
      simp only [Option.some_bind, hage, ne_eq, not_true_eq_false, if_false]

theorem remove_from_ready_queue_head (k : Kernel) (i : Nat) (l : List Nat)
    (hq : is_queue k k.ready_queue (i :: l)) :
    ∃ k2, remove_from_ready_queue k (slot_pid k i) = some k2 ∧
      is_queue k2 k2.ready_queue l ∧ k2.process_table = k.process_table ∧
      k2.config = k.config ∧ k2.table_addr = k.table_addr := by
  obtain ⟨hs, c, hc, hr⟩ := hq
  have h0 := (pcb_slot_eq k _ i hs).2.1
  rw [remove_from_ready_queue_eq, if_neg h0, pcb_at_slot k _ i hs, hc]
  simp only
  have hp : c.pid = slot_pid k i := by
    unfold slot_pid
    rw [hc]
  rw [if_pos hp]
  exact ⟨_, rfl, is_seg_ready_queue k c.next l c.next 0 hr, rfl, rfl, rfl⟩

/-- C17 (FCFS ordering): under the FCFS or round-robin policy with aging
disabled and a process table of at most `MAX_PROCESSES` slots:
`add_to_ready_queue` of a PCB that is not `TERMINATED` and not on the ready
queue returns with that PCB appended behind the last PCB of the queue and in
state `READY`; `add_to_ready_queue` of a `TERMINATED` PCB changes nothing;
`pick_next_process` returns the head pointer of the queue and changes nothing.
Hence, when the PCBs `A`, `B`, `C` of three different slots, none of them
`TERMINATED`, are put on an empty queue in that order, `pick_next_process`
returns `A`, after `remove_from_ready_queue` of the pid of `A` it returns `B`,
and after `remove_from_ready_queue` of the pid of `B` it returns `C`. -/
theorem fcfs_ordering (k : Kernel) (ht : k.process_table.length ≤ MAX_PROCESSES)
    (hpol : k.config.policy = .SCHED_ROUND_ROBIN ∨ k.config.policy = .SCHED_FCFS)
    (hage : k.config.aging_enabled = 0) :
    (∀ process s l, ready_queue_slots k = some l → pcb_slot k process = some s →
      slot_state k s ≠ TERMINATED → s ∉ l →
      ∃ k2, add_to_ready_queue k process = some k2 ∧
        ready_queue_slots k2 = some (l ++ [s]) ∧ slot_state k2 s = READY) ∧
    (∀ process s, pcb_slot k process = some s → slot_state k s = TERMINATED →
      add_to_ready_queue k process = some k) ∧
    pick_next_process k = some (k, k.ready_queue) ∧
    (∀ i l, ready_queue_slots k = some (i :: l) → k.ready_queue = pcb_ptr k i) ∧
    (∀ A B C a b c, k.ready_queue = 0 →
      pcb_slot k A = some a → pcb_slot k B = some b → pcb_slot k C = some c →
      a ≠ b → a ≠ c → b ≠ c →
      slot_state k a ≠ TERMINATED → slot_state k b ≠ TERMINATED →
      slot_state k c ≠ TERMINATED →
      ∃ k1 k2 k3 k4 k5, add_to_ready_queue k A = some k1 ∧
        add_to_ready_queue k1 B = some k2 ∧ add_to_ready_queue k2 C = some k3 ∧
        ready_queue_slots k3 = some [a, b, c] ∧
        pick_next_process k3 = some (k3, A) ∧
        remove_from_ready_queue k3 (slot_pid k3 a) = some k4 ∧
        ready_queue_slots k4 = some [b, c] ∧
        pick_next_process k4 = some (k4, B) ∧
        remove_from_ready_queue k4 (slot_pid k4 b) = some k5 ∧
        ready_queue_slots k5 = some [c] ∧
        pick_next_process k5 = some (k5, C)) := by
  refine ⟨?_, ?_, pick_next_process_fifo k hpol hage, ?_, ?_⟩
  · intro process s l hl hs hst hnot
    rw [ready_queue_slots_iff k l ht] at hl
    obtain ⟨k2, h1, h2, _, _, hlen, _, hstate⟩ :=
      add_to_ready_queue_fifo k process s l ht hpol hl hs hst hnot
    refine ⟨k2, h1, ?_, ?_⟩
    · rw [ready_queue_slots_iff k2 _ (by rw [hlen]; exact ht)]
      exact h2
    · rw [hstate s, if_pos rfl]
  · intro process s hs hst
    exact add_to_ready_queue_terminated k process s hs hst
  · intro i l hl
    rw [ready_queue_slots_iff k _ ht] at hl
    exact (pcb_slot_eq k _ i hl.1).1
  · intro A B C a b c h0 hA hB hC hab hac hbc hsa hsb hsc
    have hq0 : is_queue k k.ready_queue [] := h0
    obtain ⟨k1, e1, q1, c1, a1, n1, _, s1⟩ :=
      add_to_ready_queue_fifo k A a [] ht hpol hq0 hA hsa (by simp)
    have hB1 : pcb_slot k1 B = some b := by rw [pcb_slot_congr k k1 B a1 n1]; exact hB
    obtain ⟨k2, e2, q2, c2, a2, n2, _, s2⟩ :=
      add_to_ready_queue_fifo k1 B b _ (by rw [n1]; exact ht) (by rw [c1]; exact hpol) q1 hB1
        (by rw [s1 b, if_neg (Ne.symm hab)]; exact hsb) (by simpa using Ne.symm hab)
    have hC2 : pcb_slot k2 C = some c := by
      rw [pcb_slot_congr k1 k2 C a2 n2, pcb_slot_congr k k1 C a1 n1]; exact hC
    obtain ⟨k3, e3, q3, c3, a3, n3, _, s3⟩ :=
      add_to_ready_queue_fifo k2 C c _ (by rw [n2, n1]; exact ht)
        (by rw [c2, c1]; exact hpol) q2 hC2
        (by
          rw [s2 c, if_neg (Ne.symm hbc), s1 c, if_neg (Ne.symm hac)]
          exact hsc)
        (by
          intro hmem
          simp only [List.mem_append, List.mem_cons, List.mem_singleton, List.not_mem_nil,
            or_false, false_or] at hmem
          omega)
    have hpol3 : k3.config.policy = .SCHED_ROUND_ROBIN ∨ k3.config.policy = .SCHED_FCFS := by
      rw [c3, c2, c1]; exact hpol
    have hage3 : k3.config.aging_enabled = 0 := by rw [c3, c2, c1]; exact hage
    have ht3 : k3.process_table.length ≤ MAX_PROCESSES := by rw [n3, n2, n1]; exact ht
    have hta3 : k3.table_addr = k.table_addr := by rw [a3, a2, a1]
    simp only [List.nil_append, List.cons_append] at q3
    obtain ⟨k4, e4, q4, t4, c4, a4⟩ := remove_from_ready_queue_head k3 a [b, c] q3
    obtain ⟨k5, e5, q5, t5, c5, a5⟩ := remove_from_ready_queue_head k4 b [c] q4
    have ptr : ∀ (x : Kernel) (P i : Nat), x.table_addr = k.table_addr →
        pcb_slot k P = some i → pcb_ptr x i = P := by
      intro x P i hx hP
      rw [(pcb_slot_eq k P i hP).1]
      unfold pcb_ptr
      rw [hx]
    refine ⟨k1, k2, k3, k4, k5, e1, e2, e3, ?_, ?_, e4, ?_, ?_, e5, ?_, ?_⟩
    · rw [ready_queue_slots_iff k3 _ ht3]
      exact q3
    · rw [pick_next_process_fifo k3 hpol3 hage3, (pcb_slot_eq k3 _ a q3.1).1,
        ptr k3 A a hta3 hA]
    · rw [ready_queue_slots_iff k4 _ (by rw [t4]; exact ht3)]
      exact q4
    · rw [pick_next_process_fifo k4 (by rw [c4]; exact hpol3) (by rw [c4]; exact hage3),
        (pcb_slot_eq k4 _ b q4.1).1, ptr k4 B b (by rw [a4, hta3]) hB]
    · rw [ready_queue_slots_iff k5 _ (by rw [t5, t4]; exact ht3)]
      exact q5
    · rw [pick_next_process_fifo k5 (by rw [c5, c4]; exact hpol3)
        (by rw [c5, c4]; exact hage3),
        (pcb_slot_eq k5 _ c q5.1).1, ptr k5 C c (by rw [a5, a4, hta3]) hC]

theorem fcfs_ordering_witness :
    (three_created.process_table.length ≤ MAX_PROCESSES ∧
      (three_created.config.policy = .SCHED_ROUND_ROBIN ∨
        three_created.config.policy = .SCHED_FCFS) ∧
      three_created.config.aging_enabled = 0) ∧
    ready_queue_slots three_queued = some [1, 2, 3] ∧
    (pick_next_process three_queued).map (fun r => r.2) = some (pcb_ptr three_queued 1) ∧
    pick_next_process three_created = some (three_created, three_created.ready_queue) :=
  ⟨⟨by decide, by decide, by decide⟩, by decide, by decide,
    (fcfs_ordering three_created (by decide) (by decide) (by decide)).2.2.1⟩

/-! ## The selection loop of the priority policy -/

theorem slot_priority_get (k : Kernel) (i : Nat) (c : pcb_t)
    (h : k.process_table.get? i = some c) : slot_priority k i = c.priority := by
  unfold slot_priority
  rw [h]

theorem get_of_lt (t : List pcb_t) (i : Nat) (h : i < t.length) : ∃ c, t.get? i = some c := by
  rw [List.get?_eq_getElem?]
  exact ⟨t[i], List.getElem?_eq_getElem h⟩

/-- The loop of `pick_next_process` under `SCHED_PRIORITY`, started with the
PCB of slot `m` selected and the chain `l` still to visit: it ends, and the
result is `m` when no PCB of `l` has a smaller priority value, and else the first
PCB of `l` whose priority value is below that of `m` and of all PCBs in front
of it and not above that of any PCB behind it. -/
theorem queue_min_priority_spec (k : Kernel) (l : List Nat) (fuel selected current m : Nat)
    (hm : pcb_slot k selected = some m) (hl : is_seg k current l 0) (hf : l.length < fuel) :
    ∃ r, queue_min_priority k fuel selected current = some (pcb_ptr k r) ∧
      ((r = m ∧ ∀ j ∈ l, slot_priority k m ≤ slot_priority k j) ∨
        (∃ a b, l = a ++ r :: b ∧ (∀ j ∈ a, slot_priority k r < slot_priority k j) ∧
          slot_priority k r < slot_priority k m ∧
          ∀ j ∈ b, slot_priority k r ≤ slot_priority k j)) := by
  induction l generalizing fuel selected current m with
  | nil =>
    have h0 : current = 0 := hl
    cases fuel with
    | zero => cases hf
    | succ fuel =>
      unfold queue_min_priority
      rw [if_pos h0]
      refine ⟨m, by rw [(pcb_slot_eq k selected m hm).1], Or.inl ⟨rfl, ?_⟩⟩
      intro j hj
      cases hj
  | cons i rest ih =>
    obtain ⟨hs, c, hc, hr⟩ := hl
    obtain ⟨hcur, hc0, _⟩ := pcb_slot_eq k current i hs
    obtain ⟨_, _, hmlt⟩ := pcb_slot_eq k selected m hm
    obtain ⟨s, hsg⟩ := get_of_lt k.process_table m hmlt
    have hpi := slot_priority_get k i c hc
    have hpm := slot_priority_get k m s hsg
    cases fuel with
    | zero => cases hf
    | succ fuel =>
      have hf2 : rest.length < fuel := by
        simp only [List.length_cons] at hf
        omega
      unfold queue_min_priority
      rw [if_neg hc0, pcb_at_slot k current i hs, hc, pcb_at_slot k selected m hm, hsg]
      simp only
      by_cases hlt : c.priority < s.priority
      · rw [if_pos hlt]
        obtain ⟨r, hres, hcase⟩ := ih fuel current c.next i hs hr hf2
        refine ⟨r, hres, Or.inr ?_⟩
        rcases hcase with ⟨hri, hall⟩ | ⟨a, b, hab, ha, hri, hb⟩
        · subst hri
          refine ⟨[], rest, rfl, ?_, ?_, hall⟩
          · intro j hj
            cases hj
          · rw [hpi, hpm]
            exact hlt
        · refine ⟨i :: a, b, by rw [hab]; rfl, ?_, ?_, hb⟩
          · intro j hj
            rcases List.mem_cons.mp hj with hj | hj
            · rw [hj]; exact hri
            · exact ha j hj
          · rw [hpi] at hri
            rw [hpm]
            omega
      · rw [if_neg hlt]
        obtain ⟨r, hres, hcase⟩ := ih fuel selected c.next m hm hr hf2
        refine ⟨r, hres, ?_⟩
        rcases hcase with ⟨hrm, hall⟩ | ⟨a, b, hab, ha, hrm, hb⟩
        · refine Or.inl ⟨hrm, ?_⟩
          intro j hj
          rcases List.mem_cons.mp hj with hj | hj
          · rw [hj, hpi, hpm]
            omega
          · exact hall j hj
        · refine Or.inr ⟨i :: a, b, by rw [hab]; rfl, ?_, hrm, hb⟩
          intro j hj
          rcases List.mem_cons.mp hj with hj | hj
          · rw [hj, hpi]
            rw [hpm] at hrm
            omega
          · exact ha j hj

/-- The selection of `pick_next_process` under `SCHED_PRIORITY` on a queue
that is not empty: the first PCB of the queue among those with the least
priority value. -/
theorem queue_min_priority_first (k : Kernel) (l : List Nat) (hne : l ≠ [])
    (hl : is_queue k k.ready_queue l) (hf : l.length < QUEUE_FUEL) :
    ∃ r a b, l = a ++ r :: b ∧
      queue_min_priority k QUEUE_FUEL k.ready_queue k.ready_queue = some (pcb_ptr k r) ∧
      (∀ j ∈ a, slot_priority k r < slot_priority k j) ∧
      ∀ j ∈ b, slot_priority k r ≤ slot_priority k j := by
  cases l with
  | nil => exact absurd rfl hne
  | cons h rest =>
    obtain ⟨r, hres, hcase⟩ :=
      queue_min_priority_spec k (h :: rest) QUEUE_FUEL k.ready_queue k.ready_queue h hl.1 hl hf
    rcases hcase with ⟨hrm, hall⟩ | ⟨a, b, hab, ha, _, hb⟩
    · subst hrm
      refine ⟨r, [], rest, rfl, hres, ?_, ?_⟩
      · intro j hj
        cases hj
      · intro j hj
        exact hall j (List.mem_cons_of_mem _ hj)
    · exact ⟨r, a, b, hab, hres, ha, hb⟩

/-! ## The aging loop -/

theorem map_modify_absorb (t : List pcb_t) (i : Nat) (f g : pcb_t → pcb_t)
    (h : ∀ c, g (f c) = g c) : (table_modify t i f).map g = t.map g := by
  apply List.ext_get?
  intro n
  rw [get_map, get_map]
  by_cases hin : i = n
  · subst hin
    rw [table_modify_get_eq]
    cases t.get? i with
    | none => rfl
    | some c => simp only [Option.map_some', h]
  · rw [table_modify_get_ne _ _ _ _ hin]

/-- A store to the field `priority` changes nothing but priorities. -/
theorem sans_priority_modify (k : Kernel) (i : Nat) (f : pcb_t → pcb_t)
    (hf : ∀ c : pcb_t, ({ (f c) with priority := 0 } : pcb_t) = { c with priority := 0 }) :
    sans_priority { k with process_table := table_modify k.process_table i f }
      = sans_priority k := by
  unfold sans_priority
  simp only [Kernel.mk.injEq, true_and, and_true]
  exact map_modify_absorb _ i f _ hf

theorem sans_priority_fields (a b : Kernel) (h : sans_priority a = sans_priority b) :
    a.table_addr = b.table_addr ∧ a.process_table.length = b.process_table.length ∧
      a.ready_queue = b.ready_queue ∧ a.config = b.config ∧
      a.current_pid = b.current_pid ∧ a.idle_process = b.idle_process ∧
      a.current_tick = b.current_tick ∧ a.context_switches = b.context_switches ∧
      a.timer_ticks = b.timer_ticks := by
  unfold sans_priority at h
  simp only [Kernel.mk.injEq] at h
  obtain ⟨_, h2, h3, _, h5, _, _, h8, h9, h10, h11, h12, h13⟩ := h
  have hlen := congrArg List.length h3
  simp only [List.length_map] at hlen
  exact ⟨h2, hlen, h8, h9, h5, h13, h11, h12, h10⟩

theorem sans_priority_get (a b : Kernel) (h : sans_priority a = sans_priority b) (i : Nat) :
    (a.process_table.get? i).map (fun c => ({ c with priority := 0 } : pcb_t))
      = (b.process_table.get? i).map (fun c => ({ c with priority := 0 } : pcb_t)) := by
  have ht : a.process_table.map (fun c => ({ c with priority := 0 } : pcb_t))
      = b.process_table.map (fun c => ({ c with priority := 0 } : pcb_t)) :=
    congrArg Kernel.process_table h
  rw [← get_map, ← get_map, ht]

/-- Two states that differ in priorities only agree on the pid, the state, the
CPU time and the link of every slot. -/
theorem sans_priority_slots (a b : Kernel) (h : sans_priority a = sans_priority b) (i : Nat) :
    slot_pid a i = slot_pid b i ∧ slot_state a i = slot_state b i ∧
      slot_cpu_time a i = slot_cpu_time b i ∧
      (a.process_table.get? i).map (fun c => c.next)
        = (b.process_table.get? i).map (fun c => c.next) := by
  have hg := sans_priority_get a b h i
  unfold slot_pid slot_state slot_cpu_time
  cases ha : a.process_table.get? i with
  | none =>
    cases hb : b.process_table.get? i with
    | none => exact ⟨rfl, rfl, rfl, rfl⟩
    | some cb => rw [ha, hb] at hg; cases hg
  | some ca =>
    cases hb : b.process_table.get? i with
    | none => rw [ha, hb] at hg; cases hg
    | some cb =>
      rw [ha, hb] at hg
      simp only [Option.map_some', Option.some.injEq] at hg
      simp only [pcb_t.mk.injEq, true_and] at hg
      simp only [Option.map_some', Option.some.injEq]
      exact ⟨hg.1, hg.2.1, hg.2.2.2.2.2.2.1, hg.2.2.2.2.2.2.2⟩

/-- Two states that differ in priorities only have the same ready queue. -/
theorem sans_priority_is_seg (a b : Kernel) (h : sans_priority a = sans_priority b)
    (l : List Nat) (p q : Nat) (hl : is_seg a p l q) : is_seg b p l q := by
  obtain ⟨h1, h2, _⟩ := sans_priority_fields a b h
  refine is_seg_congr a b h1.symm h2.symm l p q ?_ hl
  intro i _ c hc
  have hn := (sans_priority_slots a b h i).2.2.2
  rw [hc] at hn
  cases hb : b.process_table.get? i with
  | none => rw [hb] at hn; cases hn
  | some cb =>
    rw [hb] at hn
    simp only [Option.map_some', Option.some.injEq] at hn
    exact ⟨cb, rfl, hn.symm⟩

theorem pcb_ptr_inj (k : Kernel) (i j : Nat) (h : pcb_ptr k i = pcb_ptr k j) : i = j := by
  unfold pcb_ptr at h
  simp only [sizeof_pcb_t] at h
  omega

theorem slot_priority_modify_ne (k : Kernel) (i j : Nat) (f : pcb_t → pcb_t) (h : i ≠ j) :
    slot_priority { k with process_table := table_modify k.process_table i f } j
      = slot_priority k j := by
  unfold slot_priority
  simp only
  rw [table_modify_get_ne _ _ _ _ h]

theorem slot_priority_modify_eq (k : Kernel) (i : Nat) (f : pcb_t → pcb_t) (c : pcb_t)
    (h : k.process_table.get? i = some c) :
    slot_priority { k with process_table := table_modify k.process_table i f } i
      = (f c).priority := by
  unfold slot_priority
  simp only
  rw [table_modify_get_eq, h]
  rfl

/-- The aging loop of `pick_next_process` on the chain `l`: it ends, it changes
nothing but priorities, and the PCBs of `l` other than the selected one get the
priority `aged`. -/
theorem queue_age_spec (selected : Nat) (l : List Nat) (fuel : Nat) (k : Kernel)
    (current : Nat) (hl : is_seg k current l 0) (hf : l.length < fuel) :
    ∃ k2, queue_age selected fuel k current = some k2 ∧
      sans_priority k2 = sans_priority k ∧
      ∀ j, slot_priority k2 j =
        if j ∈ l ∧ pcb_ptr k j ≠ selected then aged k.config.max_priority (slot_priority k j)
        else slot_priority k j := by
  induction l generalizing fuel k current with
  | nil =>
    have h0 : current = 0 := hl
    cases fuel with
    | zero => cases hf
    | succ fuel =>
      unfold queue_age
      rw [if_pos h0]
      refine ⟨k, rfl, rfl, ?_⟩
      intro j
      rw [if_neg]
      rintro ⟨hj, _⟩
      cases hj
  | cons i rest ih =>
    have hnd := is_queue_nodup k (i :: rest) current hl
    have hi : i ∉ rest := (List.nodup_cons.mp hnd).1
    obtain ⟨hs, c, hc, hr⟩ := hl
    obtain ⟨hcur, hc0, _⟩ := pcb_slot_eq k current i hs
    have hpi := slot_priority_get k i c hc
    cases fuel with
    | zero => cases hf
    | succ fuel =>
      have hf2 : rest.length < fuel := by
        simp only [List.length_cons] at hf
        omega
      unfold queue_age
      rw [if_neg hc0, pcb_at_slot k current i hs, hc]
      simp only
      by_cases hcond : current ≠ selected ∧ to_u32 c.priority < k.config.max_priority
      · rw [if_pos hcond, pcb_update_modify k current _ i hs]
        simp only [Option.bind_eq_bind, Option.some_bind]
        have hr1 := is_seg_modify k rest c.next 0 i
          (fun q => { q with priority := to_i32 (to_u32 (q.priority + 1)) })
          (Or.inr (fun _ => rfl)) hr
        obtain ⟨k2, e2, s2, p2⟩ := ih fuel _ c.next hr1 hf2
        refine ⟨k2, e2, ?_, ?_⟩
        · rw [s2]
          exact sans_priority_modify k i _ (fun _ => rfl)
        · intro j
          rw [p2 j]
          by_cases hji : j = i
          · subst hji
            rw [if_neg (fun h => hi h.1), if_pos ⟨List.mem_cons_self _ _, by rw [← hcur]; exact hcond.1⟩]
            unfold aged
            rw [hpi, if_pos hcond.2]
            unfold slot_priority
            simp only
            rw [table_modify_get_eq, hc]
            rfl
          · rw [slot_priority_modify_ne k i j _ (Ne.symm hji)]
            have hmem : j ∈ i :: rest ↔ j ∈ rest := by
              simp only [List.mem_cons, hji, false_or]
            simp only [hmem]
            rfl
      · rw [if_neg hcond]
        obtain ⟨k2, e2, s2, p2⟩ := ih fuel k c.next hr hf2
        refine ⟨k2, e2, s2, ?_⟩
        intro j
        rw [p2 j]
        by_cases hji : j = i
        · subst hji
          rw [if_neg (fun h => hi h.1)]
          by_cases hsel : pcb_ptr k j = selected
          · rw [if_neg (fun h => h.2 hsel)]
          · rw [if_pos ⟨List.mem_cons_self _ _, hsel⟩]
            unfold aged
            rw [hpi, if_neg]
            intro hlt
            exact hcond ⟨by rw [hcur]; exact hsel, hlt⟩
        · have hmem : j ∈ i :: rest ↔ j ∈ rest := by
            simp only [List.mem_cons, hji, false_or]
          simp only [hmem]

/-! ## `pick_next_process` on a well-formed queue -/

theorem is_seg_mem_ptr (k : Kernel) (l : List Nat) (p q : Nat) (h : is_seg k p l q) :
    ∀ i ∈ l, pcb_slot k (pcb_ptr k i) = some i := by
  induction l generalizing p with
  | nil => intro i hi; cases hi
  | cons j rest ih =>
    obtain ⟨hs, c, _, hr⟩ := h
    intro i hi
    rcases List.mem_cons.mp hi with hi | hi
    · subst hi
      rw [← (pcb_slot_eq k p i hs).1]
      exact hs
    · exact ih _ hr i hi

/-- The selection of `pick_next_process` on a queue that is not empty: the
head under round robin and FCFS, the first PCB with the least priority value
under `SCHED_PRIORITY`. -/
theorem pick_selection (k : Kernel) (l : List Nat) (hne : l ≠ [])
    (ht : k.process_table.length ≤ MAX_PROCESSES) (hl : is_queue k k.ready_queue l) :
    ∃ r a b, l = a ++ r :: b ∧
      pick_selected k = some (pcb_ptr k r) ∧
      (k.config.policy ≠ .SCHED_PRIORITY → a = []) ∧
      (k.config.policy = .SCHED_PRIORITY →
        (∀ j ∈ a, slot_priority k r < slot_priority k j) ∧
        ∀ j ∈ b, slot_priority k r ≤ slot_priority k j) := by
  have hlen : l.length < QUEUE_FUEL := by
    have := is_queue_length_le k l _ hl
    simp only [QUEUE_FUEL, MAX_PROCESSES] at *
    omega
  unfold pick_selected
  cases hpol : k.config.policy with
  | SCHED_PRIORITY =>
    obtain ⟨r, a, b, hab, hres, ha, hb⟩ := queue_min_priority_first k l hne hl hlen
    exact ⟨r, a, b, hab, hres, fun h => absurd rfl h, fun _ => ⟨ha, hb⟩⟩
  | SCHED_ROUND_ROBIN =>
    cases l with
    | nil => exact absurd rfl hne
    | cons h rest =>
      refine ⟨h, [], rest, rfl, ?_, fun _ => rfl, fun h => by cases h⟩
      simp only
      rw [(pcb_slot_eq k _ h hl.1).1]
  | SCHED_FCFS =>
    cases l with
    | nil => exact absurd rfl hne
    | cons h rest =>
      refine ⟨h, [], rest, rfl, ?_, fun _ => rfl, fun h => by cases h⟩
      simp only
      rw [(pcb_slot_eq k _ h hl.1).1]

/-- `pick_next_process` on a well-formed queue that is not empty: it returns
the pointer to the selected PCB; with aging disabled the state is unchanged,
with aging enabled nothing but priorities changes, the selected PCB gets the
priority `rewarded`, the other PCBs of the queue the priority `aged`, and the
PCBs that are not on the queue keep theirs. -/
theorem pick_next_process_spec (k : Kernel) (l : List Nat) (hne : l ≠ [])
    (ht : k.process_table.length ≤ MAX_PROCESSES) (hl : is_queue k k.ready_queue l) :
    ∃ r a b k2, l = a ++ r :: b ∧ pick_next_process k = some (k2, pcb_ptr k r) ∧
      (k.config.policy ≠ .SCHED_PRIORITY → a = []) ∧
      (k.config.policy = .SCHED_PRIORITY →
        (∀ j ∈ a, slot_priority k r < slot_priority k j) ∧
        ∀ j ∈ b, slot_priority k r ≤ slot_priority k j) ∧
      (k.config.aging_enabled = 0 → k2 = k) ∧
      sans_priority k2 = sans_priority k ∧
      (k.config.aging_enabled ≠ 0 → ∀ j, slot_priority k2 j =
        if j = r then rewarded (slot_priority k r)
        else if j ∈ l then aged k.config.max_priority (slot_priority k j)
        else slot_priority k j) := by
  obtain ⟨r, a, b, hab, hsel, hfifo, hprio⟩ := pick_selection k l hne ht hl
  have hlen : l.length < QUEUE_FUEL := by
    have := is_queue_length_le k l _ hl
    simp only [QUEUE_FUEL, MAX_PROCESSES] at *
    omega
  have hrl : r ∈ l := by rw [hab]; simp
  have hrs := is_seg_mem_ptr k l _ 0 hl r hrl
  obtain ⟨_, hr0, hrlt⟩ := pcb_slot_eq k _ r hrs
  have h0 : k.ready_queue ≠ 0 := by
    intro h0
    cases l with
    | nil => exact hne rfl
    | cons x xs =>
      have := hl.1
      rw [h0, pcb_slot_zero] at this
      cases this
  rw [pick_next_process_eq, if_neg h0, hsel]
  simp only [Option.some_bind]
  by_cases hage : k.config.aging_enabled ≠ 0
  · rw [if_pos hage]
    obtain ⟨k1, e1, s1, p1⟩ := queue_age_spec (pcb_ptr k r) l QUEUE_FUEL k k.ready_queue hl hlen
    rw [e1]
    simp only [Option.some_bind]
    rw [if_pos hr0]
    obtain ⟨f1, f2, _⟩ := sans_priority_fields k1 k s1
    have hrs1 : pcb_slot k1 (pcb_ptr k r) = some r := by
      rw [pcb_slot_congr k k1 _ f1 f2]
      exact hrs
    obtain ⟨c1, hc1⟩ := get_of_lt k1.process_table r (by rw [f2]; exact hrlt)
    have hpr : c1.priority = slot_priority k r := by
      rw [← slot_priority_get k1 r c1 hc1, p1 r, if_neg (fun h => h.2 rfl)]
    have hother : ∀ j, j ≠ r → slot_priority k1 j =
        if j ∈ l then aged k.config.max_priority (slot_priority k j) else slot_priority k j := by
      intro j hj
      rw [p1 j]
      by_cases hjl : j ∈ l
      · rw [if_pos ⟨hjl, fun h => hj (pcb_ptr_inj k j r h)⟩, if_pos hjl]
      · rw [if_neg (fun h => hjl h.1), if_neg hjl]
    rw [pcb_at_slot k1 _ r hrs1, hc1]
    simp only [Option.some_bind]
    by_cases hgt : c1.priority > 1
    · rw [if_pos hgt, pcb_update_modify k1 _ _ r hrs1]
      simp only [Option.some_bind]
      refine ⟨r, a, b, _, hab, rfl, hfifo, hprio, fun h => absurd h hage, ?_, fun _ j => ?_⟩
      · rw [← s1]
        exact sans_priority_modify k1 r (fun q => { q with priority := q.priority - 1 })
          (fun _ => rfl)
      · by_cases hj : j = r
        · subst hj
          rw [if_pos rfl, slot_priority_modify_eq k1 j _ c1 hc1]
          unfold rewarded
          rw [← hpr, if_pos hgt]
        · rw [if_neg hj, slot_priority_modify_ne k1 r j _ (Ne.symm hj)]
          exact hother j hj
    · rw [if_neg hgt]
      refine ⟨r, a, b, k1, hab, rfl, hfifo, hprio, fun h => absurd h hage, s1, fun _ j => ?_⟩
      by_cases hj : j = r
      · subst hj
        rw [if_pos rfl, slot_priority_get k1 j c1 hc1]
        unfold rewarded
        rw [← hpr, if_neg hgt]
      · rw [if_neg hj]
        exact hother j hj
  · rw [if_neg hage]
    exact ⟨r, a, b, k, hab, rfl, hfifo, hprio, fun _ => rfl, rfl,
      fun h => absurd h hage⟩

/-- C18 (priority selection): under `SCHED_PRIORITY`, for every ready queue
that is not empty, `pick_next_process` returns the pointer to a PCB `r` of the
queue whose priority value is the least of all PCBs of the queue, and every PCB
in front of `r` in the queue has a greater priority value, so `r` is the first
with the least value; when the queue holds three PCBs with the priorities 5, 2
and 8, in any order, the PCB with priority 2 is returned. -/
theorem priority_selection (k : Kernel) (l : List Nat)
    (ht : k.process_table.length ≤ MAX_PROCESSES) (hpol : k.config.policy = .SCHED_PRIORITY)
    (hl : ready_queue_slots k = some l) (hne : l ≠ []) :
    ∃ r a b k2, l = a ++ r :: b ∧ pick_next_process k = some (k2, pcb_ptr k r) ∧
      (∀ j ∈ l, slot_priority k r ≤ slot_priority k j) ∧
      (∀ j ∈ a, slot_priority k r < slot_priority k j) ∧
      (∀ x y z, l.Perm [x, y, z] → slot_priority k x = 5 → slot_priority k y = 2 →
        slot_priority k z = 8 → r = y) := by
  rw [ready_queue_slots_iff k l ht] at hl
  obtain ⟨r, a, b, k2, hab, hpick, _, hprio, _⟩ := pick_next_process_spec k l hne ht hl
  obtain ⟨ha, hb⟩ := hprio hpol
  have hmin : ∀ j ∈ l, slot_priority k r ≤ slot_priority k j := by
    intro j hj
    rw [hab] at hj
    rcases List.mem_append.mp hj with hj | hj
    · exact le_of_lt (ha j hj)
    · rcases List.mem_cons.mp hj with hj | hj
      · rw [hj]
      · exact hb j hj
  refine ⟨r, a, b, k2, hab, hpick, hmin, ha, ?_⟩
  intro x y z hperm hx hy hz
  have hr : r ∈ [x, y, z] := hperm.subset (by rw [hab]; simp)
  have hyl : y ∈ l := hperm.symm.subset (by simp)
  have h2 := hmin y hyl
  simp only [List.mem_cons, List.mem_singleton, List.not_mem_nil, or_false] at hr
  rcases hr with hr | hr | hr
  · rw [hr, hx, hy] at h2
    omega
  · exact hr
  · rw [hr, hz, hy] at h2
    omega

theorem priority_selection_witness :
    (priorities_5_2_8.process_table.length ≤ MAX_PROCESSES ∧
      priorities_5_2_8.config.policy = .SCHED_PRIORITY ∧
      ready_queue_slots priorities_5_2_8 = some [1, 2, 3] ∧ [1, 2, 3] ≠ []) ∧
    (slot_priority priorities_5_2_8 1 = 5 ∧ slot_priority priorities_5_2_8 2 = 2 ∧
      slot_priority priorities_5_2_8 3 = 8) ∧
    (pick_next_process priorities_5_2_8).map (fun r => r.2) = some (pcb_ptr priorities_5_2_8 2) ∧
    ∃ r a b k2, [1, 2, 3] = a ++ r :: b ∧
      pick_next_process priorities_5_2_8 = some (k2, pcb_ptr priorities_5_2_8 r) ∧
      (∀ j ∈ [1, 2, 3], slot_priority priorities_5_2_8 r ≤ slot_priority priorities_5_2_8 j) ∧
      (∀ j ∈ a, slot_priority priorities_5_2_8 r < slot_priority priorities_5_2_8 j) ∧
      (∀ x y z, [1, 2, 3].Perm [x, y, z] → slot_priority priorities_5_2_8 x = 5 →
        slot_priority priorities_5_2_8 y = 2 → slot_priority priorities_5_2_8 z = 8 → r = y) :=
  ⟨⟨by decide, by decide, by decide, by decide⟩, by decide, by decide,
    priority_selection priorities_5_2_8 [1, 2, 3] (by decide) (by decide) (by decide)
      (by decide)⟩

/-! ## The aging rule -/

theorem aged_in_range (max_priority : Nat) (p : Int) (h0 : 0 ≤ p) (h1 : p ≤ max_priority)
    (hm : max_priority < 2147483648) : aged max_priority p = min (p + 1) max_priority := by
  unfold aged to_u32 to_i32
  by_cases hlt : p < max_priority
  · have e1 : (p % 4294967296).toNat < max_priority := by omega
    rw [if_pos e1]
    have e2 : ((p + 1) % 4294967296).toNat % 4294967296 < 2147483648 := by omega
    rw [if_pos e2]
    omega
  · have e1 : ¬ (p % 4294967296).toNat < max_priority := by omega
    rw [if_neg e1]
    omega

theorem aged_out_of_range (max_priority : Nat) (p : Int) (hp : p < 0 ∨ (max_priority : Int) ≤ p)
    (hlo : -2147483648 ≤ p) (hhi : p < 2147483648) (hm : max_priority < 2147483648) :
    aged max_priority p = p := by
  unfold aged to_u32
  have e1 : ¬ (p % 4294967296).toNat < max_priority := by omega
  rw [if_neg e1]

theorem rewarded_in_range (p : Int) (h1 : 1 ≤ p) : rewarded p = max (p - 1) 1 := by
  unfold rewarded
  by_cases h : p > 1
  · rw [if_pos h]
    omega
  · rw [if_neg h]
    omega

theorem rewarded_out_of_range (p : Int) (h1 : p ≤ 1) : rewarded p = p := by
  unfold rewarded
  rw [if_neg (by omega)]

/-- C19 (aging rule), counterexample to the rule as claimed.  In the state of
`kmain` after its three processes are queued and `enable_aging(1)`, the PCBs of
the queue have the priority 1668248144 (the bytes "Proc" of their names) and
`max_priority` is 10: `pick_next_process` selects slot 1, and slot 2, which is
not selected, keeps 1668248144 instead of getting `min(p + 1, 10) = 10`,
because the loop raises a priority only when it is below `max_priority`.  In
the state where the process "init" (priority 0) is alone on the queue with
aging enabled, it is selected and keeps 0 instead of getting `max(p - 1, 1) = 1`,
because the selected priority is lowered only when it is above 1. -/
theorem aging_rule_not_min_max :
    ready_queue_slots aging_kmain = some [1, 2, 3] ∧
      aging_kmain.config.aging_enabled ≠ 0 ∧ aging_kmain.config.max_priority = 10 ∧
      slot_priority aging_kmain 2 = 1668248144 ∧
      (pick_next_process aging_kmain).map (fun r => r.2) = some (pcb_ptr aging_kmain 1) ∧
      (pick_next_process aging_kmain).map (fun r => slot_priority r.1 2) = some 1668248144 ∧
      min ((1668248144 : Int) + 1) 10 ≠ 1668248144 ∧
      ready_queue_slots aging_init = some [1] ∧ aging_init.config.aging_enabled ≠ 0 ∧
      slot_priority aging_init 1 = 0 ∧
      (pick_next_process aging_init).map (fun r => r.2) = some (pcb_ptr aging_init 1) ∧
      (pick_next_process aging_init).map (fun r => slot_priority r.1 1) = some 0 ∧
      max ((0 : Int) - 1) 1 ≠ 0 := by
  decide

/-- C19 (aging rule), as the code has it: for a well-formed ready queue that is
not empty, `pick_next_process` returns the selected PCB `r`; with aging disabled
the state is unchanged; with aging enabled nothing but priorities changes, every
PCB of the queue other than `r` with priority `p` gets `aged max_priority p`
(`p + 1` when `0 <= p < max_priority` as an unsigned value, else `p`), `r` gets
`rewarded p` (`p - 1` when `p > 1`, else `p`), and the PCBs that are not on the
queue keep their priority.  For `0 <= p <= max_priority < 2^31` the value
`aged max_priority p` is `min(p + 1, max_priority)` and for `p >= 1` the value
`rewarded p` is `max(p - 1, 1)`; a 32-bit priority that is negative or at least
`max_priority` is kept by `aged`, and a priority `p <= 1` is kept by `rewarded`. -/
theorem aging_rule (k : Kernel) (l : List Nat) (ht : k.process_table.length ≤ MAX_PROCESSES)
    (hl : ready_queue_slots k = some l) (hne : l ≠ []) :
    (∃ r k2, r ∈ l ∧ pick_next_process k = some (k2, pcb_ptr k r) ∧
      (k.config.aging_enabled = 0 → k2 = k) ∧
      (k.config.aging_enabled ≠ 0 →
        sans_priority k2 = sans_priority k ∧
        slot_priority k2 r = rewarded (slot_priority k r) ∧
        (∀ j ∈ l, j ≠ r →
          slot_priority k2 j = aged k.config.max_priority (slot_priority k j)) ∧
        ∀ j, j ∉ l → slot_priority k2 j = slot_priority k j)) ∧
    (k.config.max_priority < 2147483648 →
      (∀ p : Int, 0 ≤ p → p ≤ k.config.max_priority →
        aged k.config.max_priority p = min (p + 1) k.config.max_priority) ∧
      (∀ p : Int, (p < 0 ∨ (k.config.max_priority : Int) ≤ p) → -2147483648 ≤ p →
        p < 2147483648 → aged k.config.max_priority p = p)) ∧
    (∀ p : Int, 1 ≤ p → rewarded p = max (p - 1) 1) ∧
    (∀ p : Int, p ≤ 1 → rewarded p = p) := by
  rw [ready_queue_slots_iff k l ht] at hl
  obtain ⟨r, a, b, k2, hab, hpick, _, _, hoff, hsans, hon⟩ :=
    pick_next_process_spec k l hne ht hl
  have hrl : r ∈ l := by rw [hab]; simp
  refine ⟨⟨r, k2, hrl, hpick, hoff, fun hage => ⟨hsans, ?_, ?_, ?_⟩⟩,
    fun hm => ⟨fun p h0 h1 => aged_in_range _ p h0 h1 hm,
      fun p hp hlo hhi => aged_out_of_range _ p hp hlo hhi hm⟩,
    rewarded_in_range, rewarded_out_of_range⟩
  · rw [hon hage r, if_pos rfl]
  · intro j hj hjr
    rw [hon hage j, if_neg hjr, if_pos hj]
  · intro j hj
    have hjr : j ≠ r := fun h => hj (h ▸ hrl)
    rw [hon hage j, if_neg hjr, if_neg hj]

theorem aging_rule_witness :
    (aging_three.process_table.length ≤ MAX_PROCESSES ∧
      ready_queue_slots aging_three = some [1, 2, 3] ∧ [1, 2, 3] ≠ []) ∧
    ((pick_next_process aging_three).map
        (fun r => (r.2, slot_priority r.1 1, slot_priority r.1 2, slot_priority r.1 3))
      = some (pcb_ptr aging_three 1, 1, 2, 2)) ∧
    ((∃ r k2, r ∈ [1, 2, 3] ∧ pick_next_process aging_three = some (k2, pcb_ptr aging_three r) ∧
      (aging_three.config.aging_enabled = 0 → k2 = aging_three) ∧
      (aging_three.config.aging_enabled ≠ 0 →
        sans_priority k2 = sans_priority aging_three ∧
        slot_priority k2 r = rewarded (slot_priority aging_three r) ∧
        (∀ j ∈ [1, 2, 3], j ≠ r →
          slot_priority k2 j
            = aged aging_three.config.max_priority (slot_priority aging_three j)) ∧
        ∀ j, j ∉ [1, 2, 3] → slot_priority k2 j = slot_priority aging_three j)) ∧
    (aging_three.config.max_priority < 2147483648 →
      (∀ p : Int, 0 ≤ p → p ≤ aging_three.config.max_priority →
        aged aging_three.config.max_priority p
          = min (p + 1) aging_three.config.max_priority) ∧
      (∀ p : Int, (p < 0 ∨ (aging_three.config.max_priority : Int) ≤ p) →
        -2147483648 ≤ p → p < 2147483648 → aged aging_three.config.max_priority p = p)) ∧
    (∀ p : Int, 1 ≤ p → rewarded p = max (p - 1) 1) ∧
    (∀ p : Int, p ≤ 1 → rewarded p = p)) :=
  ⟨⟨by decide, by decide, by decide⟩, by decide,
    aging_rule aging_three [1, 2, 3] (by decide) (by decide) (by decide)⟩

/-! ## Insertion by priority -/

/-- The loop of `add_to_ready_queue` under `SCHED_PRIORITY` on the chain `l`:
it ends behind a front part `a` of the chain, at the pointer `cur` where the
rest `b` starts; the returned `prev` is the PCB of the last slot of `a`, or the
initial value when `a` is empty. -/
theorem queue_insert_pos_spec (k : Kernel) (priority : Int) (l : List Nat)
    (fuel prev current : Nat) (hl : is_seg k current l 0) (hf : l.length < fuel) :
    ∃ a b cur prev2, l = a ++ b ∧
      queue_insert_pos k priority fuel prev current = some (prev2, cur) ∧
      is_seg k current a cur ∧ is_seg k cur b 0 ∧
      ((a = [] ∧ prev2 = prev) ∨ ∃ a0 j, a = a0 ++ [j] ∧ prev2 = pcb_ptr k j) := by
  induction l generalizing fuel prev current with
  | nil =>
    have h0 : current = 0 := hl
    cases fuel with
    | zero => cases hf
    | succ fuel =>
      unfold queue_insert_pos
      rw [if_pos h0]
      exact ⟨[], [], 0, prev, rfl, by rw [h0], h0, rfl, Or.inl ⟨rfl, rfl⟩⟩
  | cons i rest ih =>
    have hfull := hl
    obtain ⟨hs, c, hc, hr⟩ := hl
    obtain ⟨hcur, hc0, _⟩ := pcb_slot_eq k current i hs
    cases fuel with
    | zero => cases hf
    | succ fuel =>
      have hf2 : rest.length < fuel := by
        simp only [List.length_cons] at hf
        omega
      unfold queue_insert_pos
      rw [if_neg hc0, pcb_at_slot k current i hs, hc]
      simp only
      by_cases hge : c.priority ≥ priority
      · rw [if_pos hge]
        obtain ⟨a, b, cur, prev2, hab, hres, hsa, hsb, hprev⟩ := ih fuel current c.next hr hf2
        refine ⟨i :: a, b, cur, prev2, by rw [hab]; rfl, hres, ⟨hs, c, hc, hsa⟩, hsb,
          Or.inr ?_⟩
        rcases hprev with ⟨ha, hp⟩ | ⟨a0, j, ha, hp⟩
        · exact ⟨[], i, by rw [ha]; rfl, by rw [hp, hcur]⟩
        · exact ⟨i :: a0, j, by rw [ha]; rfl, hp⟩
      · rw [if_neg hge]
        exact ⟨[], i :: rest, current, prev, rfl, rfl, rfl, hfull, Or.inl ⟨rfl, rfl⟩⟩

theorem is_seg_table (k : Kernel) (t : List pcb_t) (r : Nat) (l : List Nat) (p q : Nat)
    (hlen : t.length = k.process_table.length)
    (hn : ∀ i ∈ l, ∀ c, k.process_table.get? i = some c →
      ∃ c2, t.get? i = some c2 ∧ c2.next = c.next)
    (h : is_seg k p l q) : is_seg { k with process_table := t, ready_queue := r } p l q :=
  is_seg_congr k { k with process_table := t, ready_queue := r } rfl hlen l p q hn h

/-- `add_to_ready_queue` under `SCHED_PRIORITY`: a PCB that is not `TERMINATED`
and not on the queue is linked into the queue and marked `READY`; nothing else
but links changes. -/
theorem add_to_ready_queue_priority (k : Kernel) (process s : Nat) (c : pcb_t) (l : List Nat)
    (ht : k.process_table.length ≤ MAX_PROCESSES)
    (hpol : k.config.policy = .SCHED_PRIORITY)
    (hq : is_queue k k.ready_queue l) (hs : pcb_slot k process = some s)
    (hc : k.process_table.get? s = some c) (hst : c.state ≠ TERMINATED) (hnot : s ∉ l) :
    ∃ k2 a b, l = a ++ b ∧ add_to_ready_queue k process = some k2 ∧
      is_queue k2 k2.ready_queue (a ++ s :: b) ∧
      unlinked k2 = unlinked
        { k with
          process_table := table_modify k.process_table s (fun q => { q with state := READY }) } := by
  have hp0 := (pcb_slot_eq k process s hs).2.1
  have hpat : pcb_at k process = some c := by rw [pcb_at_slot k process s hs, hc]
  rw [add_to_ready_queue_eq k process c hp0 hpat hst, pcb_update_modify k process _ s hs]
  simp only [Option.some_bind]
  have hq1 := is_seg_modify k l _ 0 s (fun q => { q with next := 0 }) (Or.inl hnot) hq
  have hc1 := table_modify_get_eq k.process_table s (fun q => { q with next := 0 })
  have hlen1 := table_modify_length k.process_table s (fun q => { q with next := 0 })
  have hu1 := unlink_modify_next k.process_table s 0
  have hne1 : ∀ i, i ≠ s →
      (table_modify k.process_table s (fun q => { q with next := 0 })).get? i
        = k.process_table.get? i :=
    fun i hi => table_modify_get_ne _ _ _ _ (Ne.symm hi)
  rw [hc] at hc1
  generalize table_modify k.process_table s (fun q => { q with next := 0 }) = t1 at *
  have hs1 : ∀ (t : List pcb_t) (r : Nat), t.length = k.process_table.length →
      pcb_slot { k with process_table := t, ready_queue := r } process = some s := by
    intro t r hlen
    rw [pcb_slot_table k t r process hlen]; exact hs
  have hlen := is_queue_length_le k _ _ hq
  have hfuel : l.length < QUEUE_FUEL := by
    simp only [QUEUE_FUEL, MAX_PROCESSES] at *
    omega
  have hnd := is_queue_nodup k _ _ hq
  by_cases h0 : k.ready_queue = 0
  · have hl : l = [] := by
      cases l with
      | nil => rfl
      | cons x xs =>
        obtain ⟨hx, _⟩ := hq
        rw [h0, pcb_slot_zero] at hx
        cases hx
    subst hl
    simp only [h0, if_true, Option.some_bind]
    rw [pcb_update_modify _ process _ s (hs1 _ _ hlen1)]
    refine ⟨_, [], [], rfl, rfl, ?_, ?_⟩
    · refine ⟨hs1 _ _ (by simp only [table_modify_length, hlen1]),
        { c with next := 0, state := READY }, ?_, rfl⟩
      simp only
      rw [table_modify_get_eq, hc1]
      rfl
    · unfold unlinked
      simp only [Kernel.mk.injEq, true_and, and_true]
      rw [unlink_modify _ s _ (fun _ => rfl), unlink_modify _ s _ (fun _ => rfl), hu1]
  · simp only [h0, if_false, hpol]
    obtain ⟨a, b, cur, prev2, hab, hpos, hsa, hsb, hprev⟩ :=
      queue_insert_pos_spec { k with process_table := t1 } c.priority l QUEUE_FUEL 0
        k.ready_queue hq1 hfuel
    rw [hpos]
    simp only [Option.some_bind]
    subst hab
    have hsa0 : s ∉ a := fun h => hnot (List.mem_append_left _ h)
    have hsb0 : s ∉ b := fun h => hnot (List.mem_append_right _ h)
    rcases hprev with ⟨ha, hp⟩ | ⟨a0, j, ha, hp⟩
    · -- in front of the head
      subst ha
      have hcur : k.ready_queue = cur := hsa
      rw [if_pos hp, pcb_update_modify _ process _ s (hs1 _ _ hlen1)]
      simp only [Option.some_bind]
      rw [pcb_update_modify _ process _ s
        (hs1 _ _ (by simp only [table_modify_length, hlen1]))]
      refine ⟨_, [], b, rfl, rfl, ?_, ?_⟩
      · refine ⟨hs1 _ _ (by simp only [table_modify_length, hlen1]),
          { c with next := k.ready_queue, state := READY }, ?_, ?_⟩
        · simp only
          rw [table_modify_get_eq, table_modify_get_eq, hc1]
          rfl
        · simp only [List.nil_append] at hq
          refine is_seg_table k _ _ b _ 0 (by simp only [table_modify_length, hlen1]) ?_ hq
          intro i hi ci hci
          have his : i ≠ s := fun h => hsb0 (h ▸ hi)
          refine ⟨ci, ?_, rfl⟩
          rw [table_modify_get_ne _ _ _ _ (Ne.symm his),
            table_modify_get_ne _ _ _ _ (Ne.symm his), hne1 i his]
          exact hci
      · unfold unlinked
        simp only [Kernel.mk.injEq, true_and, and_true]
        rw [unlink_modify _ s _ (fun _ => rfl), unlink_modify_next, hu1,
          unlink_modify _ s _ (fun _ => rfl)]
    · -- behind the PCB of slot `j`
      subst ha
      have hjl : j ∈ a0 ++ [j] ++ b := by simp
      have hjs : j ≠ s := fun h => hnot (h ▸ hjl)
      obtain ⟨r, hr1, hr2⟩ := (is_seg_append _ a0 [j] k.ready_queue cur).mp hsa
      obtain ⟨hrj, cj, hcj, hcjn⟩ := is_seg_single _ r j cur hr2
      simp only at hcj
      have hrs : pcb_slot { k with process_table := t1 } r = some j := hr2.1
      have hj0 : prev2 ≠ 0 := by
        rw [hp, ← hrj]
        exact (pcb_slot_eq _ r j hrs).2.1
      have hnd2 : (a0 ++ [j] ++ b).Nodup := hnd
      have hja0 : j ∉ a0 := by
        intro h
        rw [List.append_assoc, List.nodup_append] at hnd2
        exact hnd2.2.2 h (by simp)
      have hjb : j ∉ b := by
        intro h
        rw [List.nodup_append] at hnd2
        exact hnd2.2.2 (by simp) h
      have hsa1 : s ∉ a0 := fun h => hsa0 (List.mem_append_left _ h)
      rw [if_neg hj0, pcb_update_modify _ process _ s (hs1 _ _ hlen1)]
      simp only [Option.some_bind]
      have hslotj : ∀ (t : List pcb_t), t.length = k.process_table.length →
          pcb_slot { k with process_table := t } prev2 = some j := by
        intro t hlen2
        rw [hp, ← hrj]
        rw [pcb_slot_table k t k.ready_queue r hlen2,
          ← pcb_slot_table k t1 k.ready_queue r hlen1]
        exact hrs
      rw [pcb_update_modify _ prev2 _ j (hslotj _ (by simp only [table_modify_length, hlen1]))]
      simp only [Option.some_bind]
      rw [pcb_update_modify _ process _ s
        (hs1 _ _ (by simp only [table_modify_length, hlen1]))]
      refine ⟨_, a0 ++ [j], b, rfl, rfl, ?_, ?_⟩
      · unfold is_queue
        rw [List.append_assoc, is_seg_append]
        refine ⟨r, ?_, ?_⟩
        · refine is_seg_table k _ _ a0 _ r (by simp only [table_modify_length, hlen1]) ?_ ?_
          · intro i hi ci hci
            have his : i ≠ s := fun h => hsa1 (h ▸ hi)
            have hij : i ≠ j := fun h => hja0 (h ▸ hi)
            refine ⟨ci, ?_, rfl⟩
            rw [table_modify_get_ne _ _ _ _ (Ne.symm his),
              table_modify_get_ne _ _ _ _ (Ne.symm hij),
              table_modify_get_ne _ _ _ _ (Ne.symm his), hne1 i his]
            exact hci
          · refine is_seg_congr { k with process_table := t1 } k rfl hlen1.symm a0 _ r ?_ hr1
            intro i hi ci hci
            have his : i ≠ s := fun h => hsa1 (h ▸ hi)
            refine ⟨ci, ?_, rfl⟩
            rw [← hne1 i his]
            exact hci
        · refine ⟨?_, { cj with next := process }, ?_, ?_⟩
          · rw [pcb_slot_table k _ _ r (by simp only [table_modify_length, hlen1]),
              ← pcb_slot_table k t1 k.ready_queue r hlen1]
            exact hrs
          · simp only
            rw [table_modify_get_ne _ _ _ _ (Ne.symm hjs), table_modify_get_eq,
              table_modify_get_ne _ _ _ _ (Ne.symm hjs), hcj]
            rfl
          · refine ⟨hs1 _ _ (by simp only [table_modify_length, hlen1]),
              { c with next := cur, state := READY }, ?_, ?_⟩
            · simp only
              rw [table_modify_get_eq, table_modify_get_ne _ _ _ _ hjs, table_modify_get_eq,
                hc1]
              rfl
            · refine is_seg_table k _ _ b _ 0 (by simp only [table_modify_length, hlen1]) ?_ ?_
              · intro i hi ci hci
                have his : i ≠ s := fun h => hsb0 (h ▸ hi)
                have hij : i ≠ j := fun h => hjb (h ▸ hi)
                refine ⟨ci, ?_, rfl⟩
                rw [table_modify_get_ne _ _ _ _ (Ne.symm his),
                  table_modify_get_ne _ _ _ _ (Ne.symm hij),
                  table_modify_get_ne _ _ _ _ (Ne.symm his), hne1 i his]
                exact hci
              · refine is_seg_congr { k with process_table := t1 } k rfl hlen1.symm b _ 0 ?_ hsb
                intro i hi ci hci
                have his : i ≠ s := fun h => hsb0 (h ▸ hi)
                refine ⟨ci, ?_, rfl⟩
                rw [← hne1 i his]
                exact hci
      · unfold unlinked
        simp only [Kernel.mk.injEq, true_and, and_true]
        rw [unlink_modify _ s _ (fun _ => rfl), unlink_modify_next, unlink_modify_next, hu1,
          unlink_modify _ s _ (fun _ => rfl)]

/-- `add_to_ready_queue` of a PCB that is not `TERMINATED` and not on the
queue, under every policy: the PCB is linked into the queue (behind the last
PCB under round robin and FCFS) and marked `READY`; nothing else but links
changes. -/
theorem add_to_ready_queue_spec (k : Kernel) (process s : Nat) (l : List Nat)
    (ht : k.process_table.length ≤ MAX_PROCESSES)
    (hq : is_queue k k.ready_queue l) (hs : pcb_slot k process = some s)
    (hst : slot_state k s ≠ TERMINATED) (hnot : s ∉ l) :
    ∃ k2 a b, l = a ++ b ∧ add_to_ready_queue k process = some k2 ∧
      is_queue k2 k2.ready_queue (a ++ s :: b) ∧
      unlinked k2 = unlinked
        { k with
          process_table := table_modify k.process_table s (fun q => { q with state := READY }) } ∧
      (k.config.policy ≠ .SCHED_PRIORITY → b = []) := by
  obtain ⟨c, hc, hcs⟩ := slot_state_of_get k s hst
  have hst2 : c.state ≠ TERMINATED := by rw [hcs]; exact hst
  cases hpol : k.config.policy with
  | SCHED_PRIORITY =>
    obtain ⟨k2, a, b, hab, h1, h2, h3⟩ :=
      add_to_ready_queue_priority k process s c l ht hpol hq hs hc hst2 hnot
    exact ⟨k2, a, b, hab, h1, h2, h3, fun h => absurd rfl h⟩
  | SCHED_ROUND_ROBIN =>
    obtain ⟨k2, h1, h2, h3⟩ :=
      add_to_ready_queue_tail k process s c l ht (Or.inl hpol) hq hs hc hst2 hnot
    exact ⟨k2, l, [], by simp, h1, h2, h3, fun _ => rfl⟩
  | SCHED_FCFS =>
    obtain ⟨k2, h1, h2, h3⟩ :=
      add_to_ready_queue_tail k process s c l ht (Or.inr hpol) hq hs hc hst2 hnot
    exact ⟨k2, l, [], by simp, h1, h2, h3, fun _ => rfl⟩

/-! ## Removal from the queue -/

theorem slot_pid_get (k : Kernel) (i : Nat) (c : pcb_t)
    (h : k.process_table.get? i = some c) : slot_pid k i = c.pid := by
  unfold slot_pid
  rw [h]

/-- The loop of `remove_from_ready_queue` on the chain `l`: it ends at `NULL`
when no PCB of the chain has the pid, and else at the first PCB `j` with the
pid; the returned `prev` is the PCB in front of `j`, or the initial value when
`j` is the first of the chain. -/
theorem queue_find_spec (k : Kernel) (pid : Int) (l : List Nat) (fuel prev current : Nat)
    (hl : is_seg k current l 0) (hf : l.length < fuel) :
    (∃ prev2, (∀ i ∈ l, slot_pid k i ≠ pid) ∧
      queue_find k pid fuel prev current = some (prev2, 0)) ∨
    (∃ a j b prev2, l = a ++ j :: b ∧ (∀ i ∈ a, slot_pid k i ≠ pid) ∧ slot_pid k j = pid ∧
      queue_find k pid fuel prev current = some (prev2, pcb_ptr k j) ∧
      ((a = [] ∧ prev2 = prev) ∨ ∃ a0 i, a = a0 ++ [i] ∧ prev2 = pcb_ptr k i)) := by
  induction l generalizing fuel prev current with
  | nil =>
    have h0 : current = 0 := hl
    cases fuel with
    | zero => cases hf
    | succ fuel =>
      unfold queue_find
      rw [if_pos h0]
      exact Or.inl ⟨prev, fun i hi => (by cases hi), by rw [h0]⟩
  | cons i rest ih =>
    obtain ⟨hs, c, hc, hr⟩ := hl
    obtain ⟨hcur, hc0, _⟩ := pcb_slot_eq k current i hs
    have hpi := slot_pid_get k i c hc
    cases fuel with
    | zero => cases hf
    | succ fuel =>
      have hf2 : rest.length < fuel := by
        simp only [List.length_cons] at hf
        omega
      unfold queue_find
      rw [if_neg hc0, pcb_at_slot k current i hs, hc]
      simp only
      by_cases hne : c.pid ≠ pid
      · rw [if_pos hne]
        rcases ih fuel current c.next hr hf2 with ⟨prev2, hall, hres⟩ |
          ⟨a, j, b, prev2, hab, hall, hj, hres, hprev⟩
        · refine Or.inl ⟨prev2, ?_, hres⟩
          intro x hx
          rcases List.mem_cons.mp hx with hx | hx
          · rw [hx, hpi]; exact hne
          · exact hall x hx
        · refine Or.inr ⟨i :: a, j, b, prev2, by rw [hab]; rfl, ?_, hj, hres, Or.inr ?_⟩
          · intro x hx
            rcases List.mem_cons.mp hx with hx | hx
            · rw [hx, hpi]; exact hne
            · exact hall x hx
          · rcases hprev with ⟨ha, hp⟩ | ⟨a0, x, ha, hp⟩
            · exact ⟨[], i, by rw [ha]; rfl, by rw [hp, hcur]⟩
            · exact ⟨i :: a0, x, by rw [ha]; rfl, hp⟩
      · rw [if_neg hne]
        have hpid : c.pid = pid := by
          by_contra h
          exact hne h
        refine Or.inr ⟨[], i, rest, prev, rfl, fun x hx => (by cases hx), by rw [hpi, hpid],
          by rw [hcur], Or.inl ⟨rfl, rfl⟩⟩

/-- `remove_from_ready_queue` on a well-formed queue: it ends; when no PCB of
the queue has the pid nothing changes, and else the first PCB of the queue with
the pid is unlinked; nothing but links changes. -/
theorem remove_from_ready_queue_spec (k : Kernel) (pid : Int) (l : List Nat)
    (ht : k.process_table.length ≤ MAX_PROCESSES) (hq : is_queue k k.ready_queue l) :
    ∃ k2 l2, remove_from_ready_queue k pid = some k2 ∧ is_queue k2 k2.ready_queue l2 ∧
      unlinked k2 = unlinked k ∧
      (((∀ i ∈ l, slot_pid k i ≠ pid) ∧ l2 = l) ∨
        ∃ a j b, l = a ++ j :: b ∧ (∀ i ∈ a, slot_pid k i ≠ pid) ∧ slot_pid k j = pid ∧
          l2 = a ++ b) := by
  have hlen := is_queue_length_le k _ _ hq
  have hfuel : l.length < QUEUE_FUEL := by
    simp only [QUEUE_FUEL, MAX_PROCESSES] at *
    omega
  have hnd := is_queue_nodup k _ _ hq
  rw [remove_from_ready_queue_eq]
  by_cases h0 : k.ready_queue = 0
  · rw [if_pos h0]
    have hl : l = [] := by
      cases l with
      | nil => rfl
      | cons x xs =>
        obtain ⟨hx, _⟩ := hq
        rw [h0, pcb_slot_zero] at hx
        cases hx
    subst hl
    exact ⟨k, [], rfl, hq, rfl, Or.inl ⟨fun i hi => (by cases hi), rfl⟩⟩
  · rw [if_neg h0]
    cases l with
    | nil => exact absurd hq h0
    | cons h rest =>
      have hfull := hq
      obtain ⟨hsh, ch, hch, hrest⟩ := hq
      rw [pcb_at_slot k _ h hsh, hch]
      simp only
      by_cases hpid : ch.pid = pid
      · rw [if_pos hpid]
        refine ⟨_, rest, rfl, is_seg_ready_queue k ch.next rest ch.next 0 hrest, rfl,
          Or.inr ⟨[], h, rest, rfl, fun i hi => (by cases hi), ?_, rfl⟩⟩
        rw [slot_pid_get k h ch hch, hpid]
      · rw [if_neg hpid]
        rcases queue_find_spec k pid (h :: rest) QUEUE_FUEL 0 k.ready_queue hfull hfuel with
          ⟨prev2, hall, hres⟩ | ⟨a, j, b, prev2, hab, hall, hj, hres, hprev⟩
        · rw [hres]
          simp only [Option.some_bind, ne_eq, not_true_eq_false, if_false]
          exact ⟨k, h :: rest, rfl, hfull, rfl, Or.inl ⟨hall, rfl⟩⟩
        · rw [hres]
          simp only [Option.some_bind]
          rw [hab] at hfull hnd
          obtain ⟨r, hr1, hr2⟩ := (is_seg_append k a (j :: b) k.ready_queue 0).mp hfull
          obtain ⟨hsj, cj, hcj, hb⟩ := hr2
          obtain ⟨hrj, hr0, _⟩ := pcb_slot_eq k r j hsj
          rw [← hrj, if_pos hr0, pcb_at_slot k r j hsj, hcj]
          simp only [Option.some_bind]
          rcases hprev with ⟨ha, _⟩ | ⟨a0, i, ha, hp⟩
          · exfalso
            subst ha
            simp only [List.nil_append, List.cons.injEq] at hab
            rw [← hab.1, slot_pid_get k h ch hch] at hj
            exact hpid hj
          · subst ha
            obtain ⟨r0, hq0, hq1⟩ := (is_seg_append k a0 [i] k.ready_queue r).mp hr1
            obtain ⟨hri, ci, hci, _⟩ := is_seg_single k r0 i r hq1
            have hsi : pcb_slot k prev2 = some i := by
              rw [hp, ← hri]
              exact hq1.1
            have hp0 : prev2 ≠ 0 := (pcb_slot_eq k prev2 i hsi).2.1
            rw [if_pos hp0, pcb_update_modify k prev2 _ i hsi]
            simp only [Option.some_bind]
            have hsj2 := pcb_slot_table k
              (table_modify k.process_table i (fun q => { q with next := cj.next }))
              k.ready_queue r (table_modify_length _ _ _)
            rw [pcb_update_modify _ r _ j (hsj2.trans hsj)]
            have hnd2 := hnd
            rw [List.nodup_append] at hnd2
            obtain ⟨hn1, hn2, hdis⟩ := hnd2
            have hii : i ∈ a0 ++ [i] := List.mem_append_right _ (List.mem_singleton_self i)
            have hij : i ≠ j := by
              intro hij
              refine hdis hii ?_
              rw [hij]
              exact List.mem_cons_self _ _
            have hia0 : i ∉ a0 := fun hi =>
              (List.nodup_append.mp hn1).2.2 hi (List.mem_singleton_self i)
            have hja0 : j ∉ a0 := fun hj2 =>
              hdis (List.mem_append_left _ hj2) (List.mem_cons_self _ _)
            have hib : i ∉ b := fun hi => hdis hii (List.mem_cons_of_mem _ hi)
            have hjb : j ∉ b := fun hj2 => (List.nodup_cons.mp hn2).1 hj2
            refine ⟨_, (a0 ++ [i]) ++ b, rfl, ?_, ?_,
              Or.inr ⟨a0 ++ [i], j, b, hab, hall, hj, rfl⟩⟩
            · unfold is_queue
              rw [List.append_assoc, is_seg_append]
              refine ⟨r0, ?_, ?_⟩
              · refine is_seg_table k _ _ a0 _ r0
                  (by simp only [table_modify_length]) ?_ hq0
                intro x hx cx hcx
                have hxi : x ≠ i := fun h => hia0 (h ▸ hx)
                have hxj : x ≠ j := fun h => hja0 (h ▸ hx)
                refine ⟨cx, ?_, rfl⟩
                rw [table_modify_get_ne _ _ _ _ (Ne.symm hxj),
                  table_modify_get_ne _ _ _ _ (Ne.symm hxi)]
                exact hcx
              · refine ⟨?_, { ci with next := cj.next }, ?_, ?_⟩
                · rw [pcb_slot_table k _ _ r0 (by simp only [table_modify_length])]
                  exact hq1.1
                · simp only
                  rw [table_modify_get_ne _ _ _ _ (Ne.symm hij), table_modify_get_eq, hci]
                  rfl
                · refine is_seg_table k _ _ b _ 0 (by simp only [table_modify_length]) ?_ hb
                  intro x hx cx hcx
                  have hxi : x ≠ i := fun h => hib (h ▸ hx)
                  have hxj : x ≠ j := fun h => hjb (h ▸ hx)
                  refine ⟨cx, ?_, rfl⟩
                  rw [table_modify_get_ne _ _ _ _ (Ne.symm hxj),
                    table_modify_get_ne _ _ _ _ (Ne.symm hxi)]
                  exact hcx
            · unfold unlinked
              simp only [Kernel.mk.injEq, true_and, and_true]
              rw [unlink_modify_next, unlink_modify_next]

/-! ## Reading a PCB after a store -/

theorem slot_readers_modify_ne (k : Kernel) (i j : Nat) (f : pcb_t → pcb_t) (h : i ≠ j) :
    slot_pid { k with process_table := table_modify k.process_table i f } j = slot_pid k j ∧
    slot_state { k with process_table := table_modify k.process_table i f } j
      = slot_state k j ∧
    slot_priority { k with process_table := table_modify k.process_table i f } j
      = slot_priority k j ∧
    slot_cpu_time { k with process_table := table_modify k.process_table i f } j
      = slot_cpu_time k j := by
  unfold slot_pid slot_state slot_priority slot_cpu_time
  simp only
  rw [table_modify_get_ne _ _ _ _ h]
  exact ⟨rfl, rfl, rfl, rfl⟩

theorem slot_readers_modify_eq (k : Kernel) (i : Nat) (f : pcb_t → pcb_t) (c : pcb_t)
    (hc : k.process_table.get? i = some c) :
    slot_pid { k with process_table := table_modify k.process_table i f } i = (f c).pid ∧
    slot_state { k with process_table := table_modify k.process_table i f } i
      = (f c).state ∧
    slot_priority { k with process_table := table_modify k.process_table i f } i
      = (f c).priority ∧
    slot_cpu_time { k with process_table := table_modify k.process_table i f } i
      = (f c).cpu_time := by
  unfold slot_pid slot_state slot_priority slot_cpu_time
  simp only
  rw [table_modify_get_eq, hc]
  exact ⟨rfl, rfl, rfl, rfl⟩

theorem slot_readers_get (k : Kernel) (i : Nat) (c : pcb_t)
    (hc : k.process_table.get? i = some c) :
    slot_pid k i = c.pid ∧ slot_state k i = c.state ∧ slot_priority k i = c.priority ∧
      slot_cpu_time k i = c.cpu_time := by
  unfold slot_pid slot_state slot_priority slot_cpu_time
  rw [hc]
  exact ⟨rfl, rfl, rfl, rfl⟩

/-- The readers after `current->cpu_time += t`. -/
theorem slot_readers_cpu (k : Kernel) (s t : Nat) (c : pcb_t) (f : pcb_t → pcb_t)
    (hf : f = fun q => { q with cpu_time := add32 q.cpu_time t })
    (hc : k.process_table.get? s = some c) (j : Nat) :
    slot_pid { k with process_table := table_modify k.process_table s f } j = slot_pid k j ∧
    slot_state { k with process_table := table_modify k.process_table s f } j
      = slot_state k j ∧
    slot_priority { k with process_table := table_modify k.process_table s f } j
      = slot_priority k j ∧
    slot_cpu_time { k with process_table := table_modify k.process_table s f } j
      = (if j = s then add32 (slot_cpu_time k j) t else slot_cpu_time k j) := by
  by_cases hj : j = s
  · subst hj
    obtain ⟨a1, a2, a3, a4⟩ := slot_readers_modify_eq k j f c hc
    obtain ⟨b1, b2, b3, b4⟩ := slot_readers_get k j c hc
    rw [a1, a2, a3, a4, b1, b2, b3, b4, if_pos rfl, hf]
    exact ⟨rfl, rfl, rfl, rfl⟩
  · obtain ⟨a1, a2, a3, a4⟩ := slot_readers_modify_ne k s j f (Ne.symm hj)
    rw [a1, a2, a3, a4, if_neg hj]
    exact ⟨rfl, rfl, rfl, rfl⟩

/-! ## The second half of `context_switch` -/

/-- The part of `context_switch` behind the saving of the current process, on a
well-formed queue `l`, for a `next` that is the PCB of slot `n` and whose pid no
PCB in front of it in the queue has (none of the queue, when `next` is not on it): `next` becomes `CURRENT` and is taken out of the
queue, the CPU time of the PCB at `current`, if any, grows by the slice
counter, the slice counter becomes 0 and the switch counter grows by one. -/
theorem switch_in (k : Kernel) (next n current : Nat) (l : List Nat)
    (ht : k.process_table.length ≤ MAX_PROCESSES)
    (hq : is_queue k k.ready_queue l) (hn : pcb_slot k next = some n)
    (hcur : current = 0 ∨ ∃ s, pcb_slot k current = some s ∧ s ≠ n)
    (huniq : ∀ a j b, l = a ++ j :: b → j ≠ n → n ∉ a → slot_pid k j ≠ slot_pid k n) :
    ∃ k5 l2,
      ((pcb_update k next (fun q => { q with state := CURRENT })).bind fun k2 =>
        (pcb_at k2 next).bind fun c =>
          (remove_from_ready_queue k2 c.pid).bind fun k3 =>
            (if current ≠ 0 then
              pcb_update k3 current
                (fun q => { q with cpu_time := add32 q.cpu_time k3.current_tick })
             else some k3).bind fun k4 =>
              some { k4 with current_tick := 0,
                             context_switches := add32 k4.context_switches 1 })
        = some k5 ∧
      is_queue k5 k5.ready_queue l2 ∧
      ((n ∉ l ∧ l2 = l) ∨ ∃ a b, l = a ++ n :: b ∧ l2 = a ++ b) ∧
      (∀ j, slot_state k5 j = if j = n then CURRENT else slot_state k j) ∧
      (∀ j, slot_pid k5 j = slot_pid k j) ∧
      (∀ j, slot_priority k5 j = slot_priority k j) ∧
      (∀ j, slot_cpu_time k5 j =
        if pcb_slot k current = some j then add32 (slot_cpu_time k j) k.current_tick
        else slot_cpu_time k j) ∧
      k5.current_tick = 0 ∧ k5.context_switches = add32 k.context_switches 1 ∧
      k5.table_addr = k.table_addr ∧ k5.process_table.length = k.process_table.length ∧
      k5.config = k.config ∧ k5.current_pid = k.current_pid ∧
      k5.idle_process = k.idle_process ∧ k5.timer_ticks = k.timer_ticks := by
  obtain ⟨_, _, hnlt⟩ := pcb_slot_eq k next n hn
  obtain ⟨cn, hcn⟩ := get_of_lt k.process_table n hnlt
  rw [pcb_update_modify k next _ n hn]
  simp only [Option.some_bind]
  have hlen2 := table_modify_length k.process_table n (fun q => { q with state := CURRENT })
  have hget2 := table_modify_get_eq k.process_table n (fun q => { q with state := CURRENT })
  have hne2 : ∀ j, j ≠ n →
      (table_modify k.process_table n (fun q => { q with state := CURRENT })).get? j
        = k.process_table.get? j :=
    fun j hj => table_modify_get_ne _ _ _ _ (Ne.symm hj)
  have hq2 := is_seg_modify k l k.ready_queue 0 n (fun q => { q with state := CURRENT })
    (Or.inr (fun _ => rfl)) hq
  rw [hcn] at hget2
  simp only [Option.map_some'] at hget2
  generalize table_modify k.process_table n (fun q => { q with state := CURRENT }) = t2 at *
  have hslot2 : ∀ p, pcb_slot { k with process_table := t2 } p = pcb_slot k p :=
    fun p => pcb_slot_table k t2 k.ready_queue p hlen2
  rw [pcb_at_slot _ next n ((hslot2 next).trans hn), hget2]
  simp only [Option.some_bind]
  obtain ⟨k3, l2, e3, q3, u3, hcase⟩ :=
    remove_from_ready_queue_spec { k with process_table := t2 } cn.pid l
      (by rw [hlen2]; exact ht) hq2
  rw [e3]
  simp only [Option.some_bind]
  have hf3 := unlinked_fields _ _ u3
  have hl3 : k3.process_table.length = k.process_table.length :=
    (unlinked_length _ _ u3).trans hlen2
  have hta3 : k3.table_addr = k.table_addr := hf3.2.1
  have hnd := is_queue_nodup k _ _ hq
  -- the readers of the state with `next` made current
  have hr2 : ∀ j, slot_pid { k with process_table := t2 } j = slot_pid k j ∧
      slot_state { k with process_table := t2 } j
        = (if j = n then CURRENT else slot_state k j) ∧
      slot_priority { k with process_table := t2 } j = slot_priority k j ∧
      slot_cpu_time { k with process_table := t2 } j = slot_cpu_time k j := by
    intro j
    by_cases hj : j = n
    · subst hj
      obtain ⟨a1, a2, a3, a4⟩ := slot_readers_get { k with process_table := t2 } j _ hget2
      obtain ⟨b1, b2, b3, b4⟩ := slot_readers_get k j cn hcn
      rw [a1, a2, a3, a4, b1, b3, b4, if_pos rfl]
      exact ⟨rfl, rfl, rfl, rfl⟩
    · have hg : ({ k with process_table := t2 } : Kernel).process_table.get? j
          = k.process_table.get? j := hne2 j hj
      unfold slot_pid slot_state slot_priority slot_cpu_time
      rw [hg, if_neg hj]
      exact ⟨rfl, rfl, rfl, rfl⟩
  have hrel : (n ∉ l ∧ l2 = l) ∨ ∃ a b, l = a ++ n :: b ∧ l2 = a ++ b := by
    rcases hcase with ⟨hall, h2⟩ | ⟨a, j, b, hab, hall, hj, h2⟩
    · refine Or.inl ⟨fun hnl => ?_, h2⟩
      have := hall n hnl
      rw [(slot_readers_get _ n _ hget2).1] at this
      exact this rfl
    · right
      have hjn : j = n := by
        by_contra hjn
        have hna : n ∉ a := by
          intro hna
          have h3 := hall n hna
          rw [(slot_readers_get _ n _ hget2).1] at h3
          exact h3 rfl
        have := huniq a j b hab hjn hna
        rw [(hr2 j).1] at hj
        rw [(slot_readers_get k n cn hcn).1] at this
        exact this hj
      subst hjn
      exact ⟨a, b, hab, h2⟩
  rcases hcur with hc0 | ⟨s, hs, hsn⟩
  · -- no current process
    rw [if_neg (by rw [hc0]; exact fun h => h rfl)]
    simp only [Option.some_bind]
    refine ⟨_, l2, rfl, ?_, hrel, ?_, ?_, ?_, ?_, rfl, ?_, hta3, hl3, hf3.2.2.2.2.2.2.1,
      hf3.2.2.2.1, hf3.2.2.2.2.2.2.2.2.2.2, hf3.2.2.2.2.2.2.2.1⟩
    · unfold is_queue
      refine is_seg_congr k3 _ ?_ ?_ l2 _ 0 (fun _ _ c hc => ⟨c, hc, rfl⟩) q3
      · rfl
      · rfl
    · intro j
      exact ((unlinked_slots _ _ u3 j).2.1).trans (hr2 j).2.1
    · intro j
      exact ((unlinked_slots _ _ u3 j).1).trans (hr2 j).1
    · intro j
      exact ((unlinked_slots _ _ u3 j).2.2.1).trans (hr2 j).2.2.1
    · intro j
      rw [hc0, pcb_slot_zero, if_neg (by simp)]
      exact ((unlinked_slots _ _ u3 j).2.2.2).trans (hr2 j).2.2.2
    · simp only
      rw [hf3.2.2.2.2.2.2.2.2.2.1]
  · -- the current process is the PCB of slot `s`
    obtain ⟨_, hcn0, hslt⟩ := pcb_slot_eq k current s hs
    have hs3 : pcb_slot k3 current = some s := by
      rw [pcb_slot_congr k k3 current hta3 hl3]
      exact hs
    rw [if_pos hcn0, pcb_update_modify k3 current _ s hs3]
    simp only [Option.some_bind]
    obtain ⟨c3, hc3⟩ := get_of_lt k3.process_table s (by rw [hl3]; exact hslt)
    have htick : k3.current_tick = k.current_tick := hf3.2.2.2.2.2.2.2.2.1
    have hrd : ∀ j, slot_pid k3 j = slot_pid k j ∧
        slot_state k3 j = (if j = n then CURRENT else slot_state k j) ∧
        slot_priority k3 j = slot_priority k j ∧ slot_cpu_time k3 j = slot_cpu_time k j := by
      intro j
      obtain ⟨a1, a2, a3, a4⟩ := unlinked_slots _ _ u3 j
      obtain ⟨b1, b2, b3, b4⟩ := hr2 j
      exact ⟨a1.trans b1, a2.trans b2, a3.trans b3, a4.trans b4⟩
    have hfin := slot_readers_cpu k3 s k3.current_tick c3 _ rfl hc3
    refine ⟨_, l2, rfl, ?_, hrel, fun j => ((hfin j).2.1).trans (hrd j).2.1,
      fun j => ((hfin j).1).trans (hrd j).1,
      fun j => ((hfin j).2.2.1).trans (hrd j).2.2.1, fun j => ?_, rfl, ?_, hta3, ?_,
      hf3.2.2.2.2.2.2.1, hf3.2.2.2.1, hf3.2.2.2.2.2.2.2.2.2.2, hf3.2.2.2.2.2.2.2.1⟩
    · unfold is_queue
      refine is_seg_congr k3 _ ?_ ?_ l2 _ 0 ?_ q3
      · rfl
      · exact table_modify_length _ _ _
      · intro i _ c hc
        by_cases his : s = i
        · subst his
          refine ⟨{ c with cpu_time := add32 c.cpu_time k3.current_tick }, ?_, rfl⟩
          simp only
          rw [table_modify_get_eq, hc]
          rfl
        · refine ⟨c, ?_, rfl⟩
          simp only
          rw [table_modify_get_ne _ _ _ _ his]
          exact hc
    · refine ((hfin j).2.2.2).trans ?_
      rw [htick]
      by_cases hj : j = s
      · subst hj
        rw [if_pos rfl, if_pos hs, (hrd j).2.2.2]
      · rw [if_neg hj, if_neg (by rw [hs]; exact fun h => hj (Option.some.inj h).symm),
          (hrd j).2.2.2]
    · simp only
      rw [hf3.2.2.2.2.2.2.2.2.2.1]
    · simp only
      rw [table_modify_length]
      exact hl3

/-! ## The first half of `context_switch` -/

/-- The saving of the current process in `context_switch`, on a well-formed
queue `l`: a PCB at `current` that is in state `CURRENT` and not on the queue
becomes `READY` and is linked into the queue (behind the last PCB under round
robin and FCFS); in every other case nothing changes. -/
theorem switch_out (k : Kernel) (current : Nat) (l : List Nat)
    (ht : k.process_table.length ≤ MAX_PROCESSES)
    (hq : is_queue k k.ready_queue l)
    (hcur : current = 0 ∨ ∃ s, pcb_slot k current = some s)
    (hnotq : ∀ s, pcb_slot k current = some s → slot_state k s = CURRENT → s ∉ l) :
    ∃ k1 l1,
      (if current ≠ 0 then
        (pcb_at k current).bind fun c =>
          if c.state = CURRENT then
            (pcb_update k current (fun q => { q with state := READY })).bind
              fun k0 => add_to_ready_queue k0 current
          else some k
       else some k) = some k1 ∧
      is_queue k1 k1.ready_queue l1 ∧
      ((¬ ∃ s, pcb_slot k current = some s ∧ slot_state k s = CURRENT) → k1 = k ∧ l1 = l) ∧
      (∀ s, pcb_slot k current = some s → slot_state k s = CURRENT →
        ∃ a b, l = a ++ b ∧ l1 = a ++ s :: b ∧ (k.config.policy ≠ .SCHED_PRIORITY → b = [])) ∧
      (∀ j, slot_state k1 j =
        if pcb_slot k current = some j ∧ slot_state k j = CURRENT then READY
        else slot_state k j) ∧
      (∀ j, slot_pid k1 j = slot_pid k j) ∧
      (∀ j, slot_priority k1 j = slot_priority k j) ∧
      (∀ j, slot_cpu_time k1 j = slot_cpu_time k j) ∧
      k1.current_tick = k.current_tick ∧ k1.context_switches = k.context_switches ∧
      k1.table_addr = k.table_addr ∧ k1.process_table.length = k.process_table.length ∧
      k1.config = k.config ∧ k1.current_pid = k.current_pid ∧
      k1.idle_process = k.idle_process ∧ k1.timer_ticks = k.timer_ticks := by
  have same : (¬ ∃ s, pcb_slot k current = some s ∧ slot_state k s = CURRENT) →
      (is_queue k k.ready_queue l ∧
      ((¬ ∃ s, pcb_slot k current = some s ∧ slot_state k s = CURRENT) → k = k ∧ l = l) ∧
      (∀ s, pcb_slot k current = some s → slot_state k s = CURRENT →
        ∃ a b, l = a ++ b ∧ l = a ++ s :: b ∧ (k.config.policy ≠ .SCHED_PRIORITY → b = [])) ∧
      (∀ j, slot_state k j =
        if pcb_slot k current = some j ∧ slot_state k j = CURRENT then READY
        else slot_state k j) ∧
      (∀ j, slot_pid k j = slot_pid k j) ∧
      (∀ j, slot_priority k j = slot_priority k j) ∧
      (∀ j, slot_cpu_time k j = slot_cpu_time k j) ∧
      k.current_tick = k.current_tick ∧ k.context_switches = k.context_switches ∧
      k.table_addr = k.table_addr ∧ k.process_table.length = k.process_table.length ∧
      k.config = k.config ∧ k.current_pid = k.current_pid ∧
      k.idle_process = k.idle_process ∧ k.timer_ticks = k.timer_ticks) := by
    intro hno
    refine ⟨hq, fun _ => ⟨rfl, rfl⟩, fun s h1 h2 => absurd ⟨s, h1, h2⟩ hno, fun j => ?_,
      fun _ => rfl, fun _ => rfl, fun _ => rfl, rfl, rfl, rfl, rfl, rfl, rfl, rfl, rfl⟩
    rw [if_neg (fun h => hno ⟨j, h.1, h.2⟩)]
  rcases hcur with hc0 | ⟨s, hs⟩
  · rw [if_neg (by rw [hc0]; exact fun h => h rfl)]
    refine ⟨k, l, rfl, same ?_⟩
    rintro ⟨s, h1, _⟩
    rw [hc0, pcb_slot_zero] at h1
    cases h1
  · obtain ⟨_, hcn0, hslt⟩ := pcb_slot_eq k current s hs
    obtain ⟨c, hc⟩ := get_of_lt k.process_table s hslt
    obtain ⟨_, hcst, _, _⟩ := slot_readers_get k s c hc
    rw [if_pos hcn0, pcb_at_slot k current s hs, hc]
    simp only [Option.some_bind]
    by_cases hst : c.state = CURRENT
    · rw [if_pos hst, pcb_update_modify k current _ s hs]
      simp only [Option.some_bind]
      have hstk : slot_state k s = CURRENT := by rw [hcst]; exact hst
      have hq0 := is_seg_modify k l k.ready_queue 0 s (fun q => { q with state := READY })
        (Or.inr (fun _ => rfl)) hq
      have hlen0 := table_modify_length k.process_table s (fun q => { q with state := READY })
      have hr0 := slot_readers_modify_eq k s (fun q => { q with state := READY }) c hc
      have hn0 := fun j (hj : s ≠ j) =>
        slot_readers_modify_ne k s j (fun q => { q with state := READY }) hj
      have hg0 := table_modify_get_eq k.process_table s (fun q => { q with state := READY })
      rw [hc] at hg0
      simp only [Option.map_some'] at hg0
      generalize table_modify k.process_table s (fun q => { q with state := READY }) = t0 at *
      have hs0 : pcb_slot { k with process_table := t0 } current = some s :=
        (pcb_slot_table k t0 k.ready_queue current hlen0).trans hs
      obtain ⟨k1, a, b, hab, e1, q1, u1, hb⟩ :=
        add_to_ready_queue_spec { k with process_table := t0 } current s l
          (by rw [hlen0]; exact ht) hq0 hs0
          (by rw [hr0.2.1]; show READY ≠ TERMINATED; decide) (hnotq s hs hstk)
      have hf1 := unlinked_fields _ _ u1
      have hl1 := unlinked_length _ _ u1
      simp only [table_modify_length] at hl1
      have hrd : ∀ j, slot_pid k1 j = slot_pid k j ∧
          slot_state k1 j = (if j = s then READY else slot_state k j) ∧
          slot_priority k1 j = slot_priority k j ∧ slot_cpu_time k1 j = slot_cpu_time k j := by
        intro j
        obtain ⟨a1, a2, a3, a4⟩ := unlinked_slots _ _ u1 j
        rw [a1, a2, a3, a4]
        by_cases hj : j = s
        · subst hj
          obtain ⟨b1, b2, b3, b4⟩ := slot_readers_modify_eq { k with process_table := t0 } j
            (fun q => { q with state := READY }) _ hg0
          obtain ⟨c1, _, c3, c4⟩ := slot_readers_get k j c hc
          rw [b1, b2, b3, b4, c1, c3, c4, if_pos rfl]
          exact ⟨rfl, rfl, rfl, rfl⟩
        · obtain ⟨b1, b2, b3, b4⟩ := slot_readers_modify_ne { k with process_table := t0 } s j
            (fun q => { q with state := READY }) (Ne.symm hj)
          obtain ⟨c1, c2, c3, c4⟩ := hn0 j (Ne.symm hj)
          rw [b1, b2, b3, b4, c1, c2, c3, c4, if_neg hj]
          exact ⟨rfl, rfl, rfl, rfl⟩
      refine ⟨k1, a ++ s :: b, e1, q1, fun hno => absurd ⟨s, hs, hstk⟩ hno, ?_, ?_,
        fun j => (hrd j).1, fun j => (hrd j).2.2.1, fun j => (hrd j).2.2.2,
        hf1.2.2.2.2.2.2.2.2.1, hf1.2.2.2.2.2.2.2.2.2.1, hf1.2.1, hl1.trans hlen0,
        hf1.2.2.2.2.2.2.1, hf1.2.2.2.1, hf1.2.2.2.2.2.2.2.2.2.2, hf1.2.2.2.2.2.2.2.1⟩
      · intro s2 hs2 _
        have : s2 = s := by
          rw [hs] at hs2
          exact (Option.some.inj hs2).symm
        subst this
        exact ⟨a, b, hab, rfl, hb⟩
      · intro j
        rw [(hrd j).2.1]
        by_cases hj : j = s
        · subst hj
          rw [if_pos rfl, if_pos ⟨hs, hstk⟩]
        · rw [if_neg hj, if_neg]
          rintro ⟨h1, _⟩
          rw [hs] at h1
          exact hj (Option.some.inj h1).symm
    · rw [if_neg hst]
      refine ⟨k, l, rfl, same ?_⟩
      rintro ⟨s2, h1, h2⟩
      rw [hs] at h1
      have : s2 = s := (Option.some.inj h1).symm
      subst this
      rw [hcst] at h2
      exact hst h2

/-! ## `context_switch` on a well-formed queue -/

theorem mem_after_unlink (l1 l2 : List Nat) (n : Nat) (hnd : l1.Nodup)
    (h : (n ∉ l1 ∧ l2 = l1) ∨ ∃ a b, l1 = a ++ n :: b ∧ l2 = a ++ b) :
    n ∉ l2 ∧ ∀ j, j ∈ l2 ↔ j ≠ n ∧ j ∈ l1 := by
  rcases h with ⟨hn, rfl⟩ | ⟨a, b, rfl, rfl⟩
  · refine ⟨hn, fun j => ⟨fun hj => ⟨fun h => hn (h ▸ hj), hj⟩, fun hj => hj.2⟩⟩
  · rw [List.nodup_append] at hnd
    obtain ⟨_, hnb, hdis⟩ := hnd
    have hna : n ∉ a := fun h => hdis h (List.mem_cons_self _ _)
    have hnb2 : n ∉ b := (List.nodup_cons.mp hnb).1
    refine ⟨fun h => ?_, fun j => ⟨fun hj => ?_, fun hj => ?_⟩⟩
    · rcases List.mem_append.mp h with h | h
      · exact hna h
      · exact hnb2 h
    · rcases List.mem_append.mp hj with h | h
      · exact ⟨fun e => hna (e ▸ h), List.mem_append_left _ h⟩
      · exact ⟨fun e => hnb2 (e ▸ h), List.mem_append_right _ (List.mem_cons_of_mem _ h)⟩
    · obtain ⟨hjn, hj⟩ := hj
      rcases List.mem_append.mp hj with h | h
      · exact List.mem_append_left _ h
      · rcases List.mem_cons.mp h with h | h
        · exact absurd h hjn
        · exact List.mem_append_right _ h

/-- `context_switch(next)` for a `next` other than the current process, on a
well-formed queue `l`, when `next` is the PCB of slot `n`, the current process
is not on the queue if it is in state `CURRENT`, and in the queue `l1` with the
current process linked in no PCB in front of `next` has the pid of `next` (no
PCB at all, when `next` is not on it). -/
theorem context_switch_general (k : Kernel) (next n : Nat) (l : List Nat)
    (ht : k.process_table.length ≤ MAX_PROCESSES)
    (hq : is_queue k k.ready_queue l) (hn : pcb_slot k next = some n)
    (hne : get_current_process k ≠ next)
    (hnotq : ∀ s, pcb_slot k (get_current_process k) = some s → slot_state k s = CURRENT →
      s ∉ l)
    (hw : ∀ l1,
      (∀ j, j ∈ l1 ↔
        (j ∈ l ∨ (pcb_slot k (get_current_process k) = some j ∧ slot_state k j = CURRENT))) →
      (∀ s, pcb_slot k (get_current_process k) = some s → slot_state k s = CURRENT →
        ∃ a b, l = a ++ b ∧ l1 = a ++ s :: b ∧ (k.config.policy ≠ .SCHED_PRIORITY → b = [])) →
      ((¬ ∃ s, pcb_slot k (get_current_process k) = some s ∧ slot_state k s = CURRENT) →
        l1 = l) →
      ∀ a j b, l1 = a ++ j :: b → j ≠ n → n ∉ a → slot_pid k j ≠ slot_pid k n) :
    ∃ k2 l2, context_switch k next = some k2 ∧ is_queue k2 k2.ready_queue l2 ∧
      n ∉ l2 ∧
      (∀ j, j ∈ l2 ↔ j ≠ n ∧
        (j ∈ l ∨ (pcb_slot k (get_current_process k) = some j ∧ slot_state k j = CURRENT))) ∧
      (∀ j, slot_state k2 j =
        if j = n then CURRENT
        else if pcb_slot k (get_current_process k) = some j ∧ slot_state k j = CURRENT
          then READY
        else slot_state k j) ∧
      (∀ j, slot_pid k2 j = slot_pid k j) ∧
      (∀ j, slot_priority k2 j = slot_priority k j) ∧
      (∀ j, slot_cpu_time k2 j =
        if pcb_slot k (get_current_process k) = some j
          then add32 (slot_cpu_time k j) k.current_tick
        else slot_cpu_time k j) ∧
      k2.current_tick = 0 ∧ k2.context_switches = add32 k.context_switches 1 ∧
      k2.table_addr = k.table_addr ∧ k2.process_table.length = k.process_table.length ∧
      k2.config = k.config ∧ k2.current_pid = k.current_pid ∧
      k2.idle_process = k.idle_process ∧ k2.timer_ticks = k.timer_ticks := by
  obtain ⟨hnp, _, hnlt⟩ := pcb_slot_eq k next n hn
  obtain ⟨cn, hcn⟩ := get_of_lt k.process_table n hnlt
  have hcur : get_current_process k = 0 ∨ ∃ s, pcb_slot k (get_current_process k) = some s := by
    by_cases h0 : get_current_process k = 0
    · exact Or.inl h0
    · obtain ⟨i, _, _, _, hslot, _⟩ := pcb_at_get_process k k.current_pid h0
      exact Or.inr ⟨i, hslot⟩
  rw [context_switch_eq, if_neg hne, pcb_at_slot k next n hn, hcn]
  simp only [Option.some_bind]
  obtain ⟨k1, l1, e1, q1, hsame, hord, hst1, hpid1, hpr1, hcpu1, htk1, hcs1, hta1, hlen1,
    hcfg1, hcp1, hid1, htt1⟩ := switch_out k (get_current_process k) l ht hq hcur hnotq
  rw [e1]
  simp only [Option.some_bind]
  have hslot1 : ∀ p, pcb_slot k1 p = pcb_slot k p := fun p => pcb_slot_congr k k1 p hta1 hlen1
  have hmem1 : ∀ j, j ∈ l1 ↔
      (j ∈ l ∨ (pcb_slot k (get_current_process k) = some j ∧ slot_state k j = CURRENT)) := by
    intro j
    by_cases hex : ∃ s, pcb_slot k (get_current_process k) = some s ∧ slot_state k s = CURRENT
    · obtain ⟨s, h1, h2⟩ := hex
      obtain ⟨a, b, hab, hl1, _⟩ := hord s h1 h2
      rw [hl1, hab]
      simp only [List.mem_append, List.mem_cons]
      constructor
      · rintro (h | h | h)
        · exact Or.inl (Or.inl h)
        · exact Or.inr ⟨by rw [h]; exact h1, by rw [h]; exact h2⟩
        · exact Or.inl (Or.inr h)
      · rintro ((h | h) | ⟨h, _⟩)
        · exact Or.inl h
        · exact Or.inr (Or.inr h)
        · rw [h1] at h
          exact Or.inr (Or.inl (Option.some.inj h).symm)
    · rw [(hsame hex).2]
      exact ⟨fun h => Or.inl h, fun h => h.elim id (fun h2 => absurd ⟨j, h2.1, h2.2⟩ hex)⟩
  have hcur1 : get_current_process k = 0 ∨
      ∃ s, pcb_slot k1 (get_current_process k) = some s ∧ s ≠ n := by
    rcases hcur with h | ⟨s, hs⟩
    · exact Or.inl h
    · refine Or.inr ⟨s, (hslot1 _).trans hs, fun hsn => hne ?_⟩
      rw [(pcb_slot_eq k _ s hs).1, hnp, hsn]
  obtain ⟨k5, l2, e5, q5, hrel, hst5, hpid5, hpr5, hcpu5, htk5, hcs5, hta5, hlen5, hcfg5,
    hcp5, hid5, htt5⟩ := switch_in k1 next n (get_current_process k) l1
      (by rw [hlen1]; exact ht) q1 ((hslot1 next).trans hn) hcur1
      (by
        intro a j b hab hjn hna
        rw [hpid1 j, hpid1 n]
        exact hw l1 hmem1 hord (fun h => (hsame h).2) a j b hab hjn hna)
  obtain ⟨hn2, hmem2⟩ := mem_after_unlink l1 l2 n (is_queue_nodup k1 _ _ q1) hrel
  refine ⟨k5, l2, e5, q5, hn2, ?_, ?_, ?_, ?_, ?_, htk5, by rw [hcs5, hcs1], hta5.trans hta1,
    hlen5.trans hlen1, hcfg5.trans hcfg1, hcp5.trans hcp1, hid5.trans hid1, htt5.trans htt1⟩
  · intro j
    rw [hmem2 j, hmem1 j]
  · intro j
    rw [hst5 j, hst1 j]
  · intro j
    rw [hpid5 j, hpid1 j]
  · intro j
    rw [hpr5 j, hpr1 j]
  · intro j
    rw [hcpu5 j, hslot1, hcpu1 j, htk1]

/-- `context_switch(next)` for a `next` other than the current process, on a
well-formed queue `l`, when `next` is the PCB of slot `n`, the current process
is not on the queue if it is in state `CURRENT`, and no other PCB of the queue
and not the current process has the pid of `next`. -/
theorem context_switch_spec (k : Kernel) (next n : Nat) (l : List Nat)
    (ht : k.process_table.length ≤ MAX_PROCESSES)
    (hq : is_queue k k.ready_queue l) (hn : pcb_slot k next = some n)
    (hne : get_current_process k ≠ next)
    (hnotq : ∀ s, pcb_slot k (get_current_process k) = some s → slot_state k s = CURRENT →
      s ∉ l)
    (huniq : ∀ j, j ≠ n → (j ∈ l ∨ pcb_slot k (get_current_process k) = some j) →
      slot_pid k j ≠ slot_pid k n) :
    ∃ k2 l2, context_switch k next = some k2 ∧ is_queue k2 k2.ready_queue l2 ∧
      n ∉ l2 ∧
      (∀ j, j ∈ l2 ↔ j ≠ n ∧
        (j ∈ l ∨ (pcb_slot k (get_current_process k) = some j ∧ slot_state k j = CURRENT))) ∧
      (∀ j, slot_state k2 j =
        if j = n then CURRENT
        else if pcb_slot k (get_current_process k) = some j ∧ slot_state k j = CURRENT
          then READY
        else slot_state k j) ∧
      (∀ j, slot_pid k2 j = slot_pid k j) ∧
      (∀ j, slot_priority k2 j = slot_priority k j) ∧
      (∀ j, slot_cpu_time k2 j =
        if pcb_slot k (get_current_process k) = some j
          then add32 (slot_cpu_time k j) k.current_tick
        else slot_cpu_time k j) ∧
      k2.current_tick = 0 ∧ k2.context_switches = add32 k.context_switches 1 ∧
      k2.table_addr = k.table_addr ∧ k2.process_table.length = k.process_table.length ∧
      k2.config = k.config ∧ k2.current_pid = k.current_pid ∧
      k2.idle_process = k.idle_process ∧ k2.timer_ticks = k.timer_ticks := by
  refine context_switch_general k next n l ht hq hn hne hnotq ?_
  intro l1 hmem1 _ _ a j b hab hjn _
  refine huniq j hjn ?_
  have hj : j ∈ l1 := by rw [hab]; simp
  rcases (hmem1 j).mp hj with h | h
  · exact Or.inl h
  · exact Or.inr h.1

/-- C21 (context_switch postcondition), counterexample to the postcondition
for all states.  Process "a" (pid 1) is created, put on the ready queue and
made current with `set_process_state(1, CURRENT)`; the queue is `[slot 1]` and
the current process is in state `CURRENT` and on the queue.  In
`context_switch(idle)`, `add_to_ready_queue(current)` sets `current->next` to
`NULL`, finds `current` itself as the last PCB of the queue and links it behind
itself: its `next` points to itself.  `remove_from_ready_queue(0)` then follows
the links for a PCB with pid 0 and never arrives at `NULL`: the call does not
return (the model has no result), so no state "afterwards" exists. -/
theorem context_switch_current_queued_loops :
    get_current_process current_queued = pcb_ptr current_queued 1 ∧
      slot_state current_queued 1 = CURRENT ∧ slot_pid current_queued 1 = 1 ∧
      ready_queue_slots current_queued = some [1] ∧
      current_queued.idle_process = pcb_ptr current_queued 0 ∧
      slot_pid current_queued 0 = 0 ∧
      current_queued_saved.map (fun k1 => k1.ready_queue) = some (pcb_ptr current_queued 1) ∧
      current_queued_saved.map (fun k1 => slot_next k1 1)
        = some (some (pcb_ptr current_queued 1)) ∧
      current_queued_saved.map ready_queue_slots = some none ∧
      context_switch current_queued current_queued.idle_process = none := by
  decide

/-- C21 (context_switch postcondition), with the conditions it needs: the
ready queue is well formed, `next` is the PCB of a slot `n`, the current process
is not on the queue when it is in state `CURRENT`, and neither another PCB of
the queue nor the current process has the pid of `next`.  If `next` is the
current process, `context_switch(next)` changes nothing.  Otherwise it returns,
and afterwards `next` is in state `CURRENT` and not on the ready queue; the
previously current process, if there was one in state `CURRENT`, is in state
`READY` and on the ready queue; the `cpu_time` of the previously current
process, if there was one, has grown by the value that the slice tick counter
had before the call (as a 32-bit sum); the slice tick counter is 0 and the
context-switch counter has grown by one (as a 32-bit sum). -/
theorem context_switch_postcondition (k : Kernel) (next n : Nat) (l : List Nat)
    (ht : k.process_table.length ≤ MAX_PROCESSES)
    (hq : ready_queue_slots k = some l) (hn : pcb_slot k next = some n)
    (hnotq : ∀ s, pcb_slot k (get_current_process k) = some s → slot_state k s = CURRENT →
      s ∉ l)
    (huniq : ∀ j, j ≠ n → (j ∈ l ∨ pcb_slot k (get_current_process k) = some j) →
      slot_pid k j ≠ slot_pid k n) :
    (get_current_process k = next → context_switch k next = some k) ∧
    (get_current_process k ≠ next →
      ∃ k2 l2, context_switch k next = some k2 ∧ ready_queue_slots k2 = some l2 ∧
        slot_state k2 n = CURRENT ∧ n ∉ l2 ∧
        (∀ s, pcb_slot k (get_current_process k) = some s → slot_state k s = CURRENT →
          slot_state k2 s = READY ∧ s ∈ l2) ∧
        (∀ s, pcb_slot k (get_current_process k) = some s →
          slot_cpu_time k2 s = add32 (slot_cpu_time k s) k.current_tick) ∧
        k2.current_tick = 0 ∧ k2.context_switches = add32 k.context_switches 1) := by
  constructor
  · intro he
    rw [context_switch_eq, if_pos he]
  · intro hne
    rw [ready_queue_slots_iff k l ht] at hq
    obtain ⟨k2, l2, e2, q2, hn2, hmem, hst, _, _, hcpu, htk, hcs, _, hlen, _⟩ :=
      context_switch_spec k next n l ht hq hn hne hnotq huniq
    have hsn : ∀ s, pcb_slot k (get_current_process k) = some s → s ≠ n := by
      intro s hs hsn
      refine hne ?_
      rw [(pcb_slot_eq k _ s hs).1, (pcb_slot_eq k next n hn).1, hsn]
    refine ⟨k2, l2, e2, ?_, ?_, hn2, ?_, ?_, htk, hcs⟩
    · rw [ready_queue_slots_iff k2 l2 (by rw [hlen]; exact ht)]
      exact q2
    · rw [hst n, if_pos rfl]
    · intro s hs hcur
      refine ⟨?_, ?_⟩
      · rw [hst s, if_neg (hsn s hs), if_pos ⟨hs, hcur⟩]
      · rw [hmem s]
        exact ⟨hsn s hs, Or.inr ⟨hs, hcur⟩⟩
    · intro s hs
      rw [hcpu s, if_pos hs]

theorem context_switch_postcondition_witness :
    (three_queued.process_table.length ≤ MAX_PROCESSES ∧
      ready_queue_slots three_queued = some [1, 2, 3] ∧
      pcb_slot three_queued (pcb_ptr three_queued 2) = some 2 ∧
      get_current_process three_queued ≠ pcb_ptr three_queued 2) ∧
    (context_switch three_queued (pcb_ptr three_queued 2)).map
        (fun k2 => (ready_queue_slots k2, slot_state k2 2, slot_state k2 0, k2.current_tick,
          k2.context_switches))
      = some (some [1, 3, 0], CURRENT, READY, 0, 1) ∧
    (get_current_process three_queued ≠ pcb_ptr three_queued 2 →
      ∃ k2 l2, context_switch three_queued (pcb_ptr three_queued 2) = some k2 ∧
        ready_queue_slots k2 = some l2 ∧
        slot_state k2 2 = CURRENT ∧ 2 ∉ l2 ∧
        (∀ s, pcb_slot three_queued (get_current_process three_queued) = some s →
          slot_state three_queued s = CURRENT → slot_state k2 s = READY ∧ s ∈ l2) ∧
        (∀ s, pcb_slot three_queued (get_current_process three_queued) = some s →
          slot_cpu_time k2 s
            = add32 (slot_cpu_time three_queued s) three_queued.current_tick) ∧
        k2.current_tick = 0 ∧
        k2.context_switches = add32 three_queued.context_switches 1) :=
  have hcur : pcb_slot three_queued (get_current_process three_queued) = some 0 := by decide
  ⟨⟨by decide, by decide, by decide, by decide⟩, by decide,
    (context_switch_postcondition three_queued (pcb_ptr three_queued 2) 2 [1, 2, 3]
      (by decide) (by decide) (by decide)
      (by
        intro s hs _
        rw [hcur] at hs
        cases hs
        decide)
      (by
        intro j hj hmem
        rcases hmem with hmem | hmem
        · simp only [List.mem_cons, List.mem_singleton, List.not_mem_nil, or_false] at hmem
          rcases hmem with rfl | rfl | rfl
          · decide
          · exact absurd rfl hj
          · decide
        · rw [hcur] at hmem
          cases hmem
          decide)).2⟩

/-! ## `schedule` and `timer_tick` under round robin -/

theorem find_pid_congr (P : Int) (t t2 : List pcb_t) (s : Nat)
    (h : t.map (fun c => c.pid) = t2.map (fun c => c.pid)) :
    find_pid P t s = find_pid P t2 s := by
  induction t generalizing t2 s with
  | nil =>
    cases t2 with
    | nil => rfl
    | cons x xs => simp at h
  | cons c rest ih =>
    cases t2 with
    | nil => simp at h
    | cons x xs =>
      simp only [List.map_cons, List.cons.injEq] at h
      unfold find_pid
      rw [h.1, ih xs (s + 1) h.2]

theorem get_current_process_sans (a b : Kernel) (h : sans_priority a = sans_priority b) :
    get_current_process a = get_current_process b := by
  obtain ⟨h1, _, _, _, h5, _⟩ := sans_priority_fields a b h
  have ht : a.process_table.map (fun c => ({ c with priority := 0 } : pcb_t))
      = b.process_table.map (fun c => ({ c with priority := 0 } : pcb_t)) :=
    congrArg Kernel.process_table h
  have hp := congrArg (List.map (fun c : pcb_t => c.pid)) ht
  simp only [List.map_map] at hp
  have hp2 : a.process_table.map (fun c => c.pid) = b.process_table.map (fun c => c.pid) := hp
  unfold get_current_process get_process pcb_ptr
  rw [h5, find_pid_congr b.current_pid _ _ 0 hp2, h1]

/-- `context_switch(next)` under round robin or FCFS, when the current process
is the PCB of slot `s`, in state `CURRENT` and not on the queue `l`, `next` is
the PCB of another slot `n`, and in the queue `l ++ [s]` no PCB in front of
`next` has the pid of `next`. -/
theorem context_switch_rr (y : Kernel) (s n next : Nat) (l : List Nat)
    (ht : y.process_table.length ≤ MAX_PROCESSES)
    (hpol : y.config.policy ≠ .SCHED_PRIORITY) (hq : is_queue y y.ready_queue l)
    (hcs : pcb_slot y (get_current_process y) = some s) (hst : slot_state y s = CURRENT)
    (hnot : s ∉ l) (hn : pcb_slot y next = some n) (hns : n ≠ s)
    (hw : ∀ a j b, l ++ [s] = a ++ j :: b → j ≠ n → n ∉ a → slot_pid y j ≠ slot_pid y n) :
    ∃ k2 l2, context_switch y next = some k2 ∧ is_queue k2 k2.ready_queue l2 ∧ s ∈ l2 ∧
      slot_state k2 s = READY ∧ slot_state k2 n = CURRENT ∧ k2.current_tick = 0 ∧
      k2.process_table.length = y.process_table.length := by
  have hne : get_current_process y ≠ next := by
    intro he
    rw [he, hn] at hcs
    exact hns (Option.some.inj hcs)
  have hs_eq : ∀ s2, pcb_slot y (get_current_process y) = some s2 → s2 = s := by
    intro s2 h2
    rw [hcs] at h2
    exact (Option.some.inj h2).symm
  obtain ⟨k2, l2, e2, q2, _, hmem, hst2, _, _, _, htk, _, _, hlen, _⟩ :=
    context_switch_general y next n l ht hq hn hne
      (fun s2 h2 _ => by rw [hs_eq s2 h2]; exact hnot)
      (by
        intro l1 _ hord _ a j b hab hjn hna
        obtain ⟨a2, b2, hl, hl1, hb⟩ := hord s hcs hst
        have hb2 := hb hpol
        subst hb2
        rw [List.append_nil] at hl
        subst hl
        exact hw a j b (hl1 ▸ hab) hjn hna)
  refine ⟨k2, l2, e2, q2, ?_, ?_, ?_, htk, hlen⟩
  · rw [hmem s]
    exact ⟨Ne.symm hns, Or.inr ⟨hcs, hst⟩⟩
  · rw [hst2 s, if_neg (Ne.symm hns), if_pos ⟨hcs, hst⟩]
  · rw [hst2 n, if_pos rfl]

/-- `schedule()` under round robin, when the current process is the PCB of
slot `s`, in state `CURRENT` and not on the well-formed queue `l`, and, if the
queue is empty, `idle_process` is a PCB with another pid: the head of the queue
(the idle process, if the queue is empty) is switched in, and the current
process is switched out: it becomes `READY`, it is on the queue, and the slice
counter is 0. -/
theorem schedule_rr (x : Kernel) (s : Nat) (l : List Nat)
    (ht : x.process_table.length ≤ MAX_PROCESSES)
    (hpol : x.config.policy = .SCHED_ROUND_ROBIN) (hq : is_queue x x.ready_queue l)
    (hcs : pcb_slot x (get_current_process x) = some s) (hst : slot_state x s = CURRENT)
    (hnot : s ∉ l)
    (hidle : l = [] → ∃ d, pcb_slot x x.idle_process = some d ∧ slot_pid x d ≠ slot_pid x s) :
    ∃ k2 l2, schedule x = some k2 ∧ is_queue k2 k2.ready_queue l2 ∧ s ∈ l2 ∧
      slot_state k2 s = READY ∧ k2.current_tick = 0 ∧
      k2.process_table.length = x.process_table.length := by
  have hpol2 : x.config.policy ≠ .SCHED_PRIORITY := by rw [hpol]; decide
  rw [schedule_eq]
  cases l with
  | nil =>
    have h0 : x.ready_queue = 0 := hq
    obtain ⟨d, hd, hpd⟩ := hidle rfl
    have hds : d ≠ s := fun h => hpd (by rw [h])
    rw [pick_next_process_eq, if_pos h0]
    simp only [Option.some_bind, if_true]
    have hne : get_current_process x ≠ x.idle_process := by
      intro he
      rw [he, hd] at hcs
      exact hds (Option.some.inj hcs)
    rw [if_pos hne]
    obtain ⟨k2, l2, e2, q2, h1, h2, _, h4, h5⟩ :=
      context_switch_rr x s d x.idle_process [] ht hpol2 hq hcs hst hnot hd hds
        (by
          intro a j b hab _ _
          cases a with
          | nil =>
            simp only [List.nil_append, List.cons.injEq] at hab
            rw [← hab.1]
            exact Ne.symm hpd
          | cons y ys =>
            simp only [List.nil_append, List.cons_append, List.cons.injEq] at hab
            have := hab.2
            cases ys <;> simp at this)
    exact ⟨k2, l2, e2, q2, h1, h2, h4, h5⟩
  | cons h rest =>
    obtain ⟨r, a, b, k2p, hab, hpick, hfifo, _, _, hsans, _⟩ :=
      pick_next_process_spec x (h :: rest) (by simp) ht hq
    have ha := hfifo hpol2
    subst ha
    simp only [List.nil_append, List.cons.injEq] at hab
    obtain ⟨hrh, _⟩ := hab
    subst hrh
    have hhs := hq.1
    obtain ⟨hptr, hp0, _⟩ := pcb_slot_eq x _ h hhs
    rw [hpick]
    simp only [Option.some_bind]
    rw [← hptr, if_neg hp0]
    have hhns : h ≠ s := fun e => hnot (by rw [← e]; exact List.mem_cons_self _ _)
    have hne : get_current_process x ≠ x.ready_queue := by
      intro he
      rw [he, hhs] at hcs
      exact hhns (Option.some.inj hcs)
    rw [if_pos hne]
    obtain ⟨f1, f2, f3, f4, _⟩ := sans_priority_fields k2p x hsans
    have hslot : ∀ p, pcb_slot k2p p = pcb_slot x p := fun p => pcb_slot_congr x k2p p f1 f2
    obtain ⟨k2, l2, e2, q2, h1, h2, _, h4, h5⟩ :=
      context_switch_rr k2p s h x.ready_queue (h :: rest) (by rw [f2]; exact ht)
        (by rw [f4]; exact hpol2)
        (by rw [f3]; exact sans_priority_is_seg x k2p hsans.symm _ _ 0 hq)
        (by rw [get_current_process_sans k2p x hsans, hslot]; exact hcs)
        (by rw [(sans_priority_slots k2p x hsans s).2.1]; exact hst)
        hnot (by rw [hslot]; exact hhs) hhns
        (by
          intro a j b hab hjn hna
          cases a with
          | nil =>
            simp only [List.nil_append, List.cons_append, List.cons.injEq] at hab
            exact absurd hab.1.symm hjn
          | cons y ys =>
            simp only [List.cons_append, List.cons.injEq] at hab
            exact absurd (by rw [← hab.1]; exact List.mem_cons_self _ _) hna)
    exact ⟨k2, l2, e2, q2, h1, h2, h4, h5.trans f2⟩

theorem timer_tick_no_switch (x : Kernel) (s : Nat)
    (hcs : pcb_slot x (get_current_process x) = some s)
    (hlt : add32 x.current_tick 1 < x.config.time_quantum) :
    timer_tick x = some { x with timer_ticks := add32 x.timer_ticks 1,
                                 current_tick := add32 x.current_tick 1 } := by
  obtain ⟨_, hc0, hslt⟩ := pcb_slot_eq x _ s hcs
  obtain ⟨c, hc⟩ := get_of_lt x.process_table s hslt
  have hpat : pcb_at x (get_current_process x) = some c := by
    rw [pcb_at_slot x _ s hcs, hc]
  unfold timer_tick
  simp only
  have e1 : get_current_process
      { x with timer_ticks := add32 x.timer_ticks 1, current_tick := add32 x.current_tick 1 }
      = get_current_process x := rfl
  have e2 : pcb_at
      { x with timer_ticks := add32 x.timer_ticks 1, current_tick := add32 x.current_tick 1 }
      (get_current_process x) = pcb_at x (get_current_process x) := rfl
  rw [e1, if_pos hc0, e2, hpat]
  simp only
  split
  · rw [if_neg]
    rintro ⟨_, hge⟩
    exact absurd hlt (not_lt.mpr hge)
  · rfl

theorem timer_tick_switch (x : Kernel) (s : Nat)
    (hcs : pcb_slot x (get_current_process x) = some s) (hpid : slot_pid x s ≠ NULL_PID)
    (hpol : x.config.policy = .SCHED_ROUND_ROBIN)
    (hge : add32 x.current_tick 1 ≥ x.config.time_quantum) :
    timer_tick x = schedule { x with timer_ticks := add32 x.timer_ticks 1,
                                     current_tick := add32 x.current_tick 1 } := by
  obtain ⟨_, hc0, hslt⟩ := pcb_slot_eq x _ s hcs
  obtain ⟨c, hc⟩ := get_of_lt x.process_table s hslt
  have hpat : pcb_at x (get_current_process x) = some c := by
    rw [pcb_at_slot x _ s hcs, hc]
  have hcp : c.pid ≠ NULL_PID := by
    rw [← (slot_readers_get x s c hc).1]
    exact hpid
  unfold timer_tick
  simp only
  have e1 : get_current_process
      { x with timer_ticks := add32 x.timer_ticks 1, current_tick := add32 x.current_tick 1 }
      = get_current_process x := rfl
  have e2 : pcb_at
      { x with timer_ticks := add32 x.timer_ticks 1, current_tick := add32 x.current_tick 1 }
      (get_current_process x) = pcb_at x (get_current_process x) := rfl
  rw [e1, if_pos hc0, e2, hpat]
  simp only
  rw [if_pos hcp, if_pos ⟨hpol, hge⟩]

theorem is_seg_ticks (k : Kernel) (a b : Nat) (l : List Nat) (p q : Nat)
    (h : is_seg k p l q) : is_seg { k with timer_ticks := a, current_tick := b } p l q :=
  is_seg_congr k { k with timer_ticks := a, current_tick := b } rfl rfl l p q
    (fun _ _ c hc => ⟨c, hc, rfl⟩) h

/-- The first ticks of a slice: while fewer than `time_quantum` ticks have been
counted, `timer_tick` only advances the two tick counters. -/
theorem timer_ticks_before_quantum (k : Kernel) (s : Nat)
    (hq32 : k.config.time_quantum < 4294967296)
    (hcs : pcb_slot k (get_current_process k) = some s) (htick : k.current_tick = 0)
    (m : Nat) (hm : m < k.config.time_quantum) :
    ∃ tt, timer_ticks_n m k = some { k with timer_ticks := tt, current_tick := m } := by
  induction m with
  | zero =>
    refine ⟨k.timer_ticks, ?_⟩
    unfold timer_ticks_n
    rw [← htick]
  | succ m ih =>
    obtain ⟨tt, e⟩ := ih (by omega)
    unfold timer_ticks_n
    rw [e]
    simp only [Option.some_bind]
    have hadd : add32 m 1 = m + 1 := by
      unfold add32
      exact Nat.mod_eq_of_lt (by omega)
    have hstep := timer_tick_no_switch { k with timer_ticks := tt, current_tick := m } s hcs
      (by
        show add32 m 1 < k.config.time_quantum
        rw [hadd]
        exact hm)
    rw [hstep]
    refine ⟨add32 tt 1, ?_⟩
    simp only [hadd]

/-- C20 (round-robin quantum): under `SCHED_ROUND_ROBIN` with a quantum
`q >= 1` (a 32-bit value), in a state where the current process (the result of
`get_current_process`) is the PCB of slot `s`, has a pid other than `NULL_PID`,
is in state `CURRENT` and is not on the well-formed ready queue `l`, the slice
counter is 0 and, if the queue is empty, `idle_process` is a PCB with pid
`NULL_PID`: after each of the first `q - 1` calls of `timer_tick` the process
table (so every process state) and the ready queue are what they were and the
slice counter is the number of calls; the `q`-th call returns with the current
process in state `READY` and on the ready queue and with the slice counter 0. -/
theorem round_robin_quantum (k : Kernel) (q s : Nat) (l : List Nat)
    (ht : k.process_table.length ≤ MAX_PROCESSES)
    (hpol : k.config.policy = .SCHED_ROUND_ROBIN) (hq : k.config.time_quantum = q)
    (hq1 : 1 ≤ q) (hq32 : q < 4294967296)
    (hcs : pcb_slot k (get_current_process k) = some s)
    (hpid : slot_pid k s ≠ NULL_PID) (hst : slot_state k s = CURRENT)
    (hl : ready_queue_slots k = some l) (hnot : s ∉ l) (htick : k.current_tick = 0)
    (hidle : l = [] → ∃ d, pcb_slot k k.idle_process = some d ∧ slot_pid k d = NULL_PID) :
    (∀ m, m < q → ∃ km, timer_ticks_n m k = some km ∧
      km.process_table = k.process_table ∧ km.ready_queue = k.ready_queue ∧
      ready_queue_slots km = some l ∧ slot_state km s = CURRENT ∧ km.current_tick = m) ∧
    (∃ k2 l2, timer_ticks_n q k = some k2 ∧ slot_state k2 s = READY ∧
      ready_queue_slots k2 = some l2 ∧ s ∈ l2 ∧ k2.current_tick = 0) := by
  subst hq
  have hlq := hl
  rw [ready_queue_slots_iff k l ht] at hlq
  have hbefore := timer_ticks_before_quantum k s hq32 hcs htick
  constructor
  · intro m hm
    obtain ⟨tt, e⟩ := hbefore m hm
    exact ⟨_, e, rfl, rfl,
      (ready_queue_slots_iff { k with timer_ticks := tt, current_tick := m } l ht).mpr
        (is_seg_ticks k tt m l _ 0 hlq), hst, rfl⟩
  · obtain ⟨m, hm⟩ : ∃ m, k.config.time_quantum = m + 1 := ⟨k.config.time_quantum - 1, by omega⟩
    obtain ⟨tt, e⟩ := hbefore m (by omega)
    have hadd : add32 m 1 = m + 1 := by
      unfold add32
      exact Nat.mod_eq_of_lt (by omega)
    have hsw := timer_tick_switch { k with timer_ticks := tt, current_tick := m } s hcs hpid
      hpol
      (by
        show add32 m 1 ≥ k.config.time_quantum
        rw [hadd, hm])
    obtain ⟨k2, l2, e2, q2, h1, h2, h3, h4⟩ :=
      schedule_rr
        { k with timer_ticks := add32 tt 1, current_tick := add32 m 1 } s l ht hpol
        (is_seg_ticks k (add32 tt 1) (add32 m 1) l _ 0 hlq) hcs hst hnot
        (by
          intro hnil
          obtain ⟨d, hd, hpd⟩ := hidle hnil
          refine ⟨d, hd, ?_⟩
          show slot_pid k d ≠ slot_pid k s
          rw [hpd]
          exact Ne.symm hpid)
    refine ⟨k2, l2, ?_, h2, ?_, h1, h3⟩
    · rw [hm]
      unfold timer_ticks_n
      rw [e]
      simp only [Option.some_bind]
      rw [hsw]
      exact e2
    · rw [ready_queue_slots_iff k2 l2 (by rw [h4]; exact ht)]
      exact q2

theorem round_robin_quantum_witness :
    (running_one.process_table.length ≤ MAX_PROCESSES ∧
      running_one.config.policy = .SCHED_ROUND_ROBIN ∧ running_one.config.time_quantum = 5 ∧
      pcb_slot running_one (get_current_process running_one) = some 1 ∧
      slot_pid running_one 1 ≠ NULL_PID ∧ slot_state running_one 1 = CURRENT ∧
      ready_queue_slots running_one = some [2, 3] ∧ running_one.current_tick = 0) ∧
    (timer_ticks_n 4 running_one).map
        (fun x => (slot_state x 1, ready_queue_slots x, x.current_tick))
      = some (CURRENT, some [2, 3], 4) ∧
    (timer_ticks_n 5 running_one).map
        (fun x => (slot_state x 1, slot_state x 2, ready_queue_slots x, x.current_tick))
      = some (READY, CURRENT, some [3, 1], 0) ∧
    ((∀ m, m < 5 → ∃ km, timer_ticks_n m running_one = some km ∧
      km.process_table = running_one.process_table ∧
      km.ready_queue = running_one.ready_queue ∧
      ready_queue_slots km = some [2, 3] ∧ slot_state km 1 = CURRENT ∧ km.current_tick = m) ∧
    (∃ k2 l2, timer_ticks_n 5 running_one = some k2 ∧ slot_state k2 1 = READY ∧
      ready_queue_slots k2 = some l2 ∧ 1 ∈ l2 ∧ k2.current_tick = 0)) :=
  ⟨⟨by decide, by decide, by decide, by decide, by decide, by decide, by decide, by decide⟩,
    by decide, by decide,
    round_robin_quantum running_one 5 1 [2, 3] (by decide) (by decide) (by decide)
      (by decide) (by decide) (by decide) (by decide) (by decide) (by decide) (by decide)
      (by decide) (fun h => absurd h (by decide))⟩

/-! ## Creation: failure is atomic, success returns -/

